import Mathlib

/-!
Verification of the urlresolver repository: a shallow embedding of its
canonicalizer, safe dialer, HTTP error mapping, sailthru/tweet URL matching
and the core resolve pipeline, with theorems settling the frozen claims.

Go strings are modelled as lists of bytes (Nat values below 256); Go byte
conversions are modelled with explicit `% 256`.
-/

set_option maxRecDepth 8192

namespace Urlresolver

/-- Bytes of a Go string: UTF-8 encoding of the characters. -/
def utf8Bytes (n : Nat) : List Nat :=
  if n < 128 then [n]
  else if n < 2048 then [192 + n / 64, 128 + n % 64]
  else if n < 65536 then [224 + n / 4096, 128 + (n / 64) % 64, 128 + n % 64]
  else [240 + n / 262144, 128 + (n / 4096) % 64, 128 + (n / 64) % 64, 128 + n % 64]

/-- Convert a Lean string literal to the byte list of the corresponding Go string. -/
def bytes (s : String) : List Nat :=
  s.data.foldr (fun c acc => utf8Bytes c.toNat ++ acc) []

/-- ASCII lowercasing of a single byte, as Go strings.ToLower acts on ASCII letters. -/
def lowerByte (b : Nat) : Nat :=
  if 65 ≤ b ∧ b ≤ 90 then b + 32 else b

/-- ASCII lowercasing of a byte string. -/
def lowerBytes (s : List Nat) : List Nat := s.map lowerByte

/-- Index of the first occurrence of byte c in s (strings.IndexByte). -/
def idxOf (s : List Nat) (c : Nat) : Option Nat :=
  match s with
  | [] => none
  | b :: rest =>
    if b == c then some 0
    else match idxOf rest c with
         | none => none
         | some i => some (i + 1)

/-- Index of the last occurrence of byte c in s (strings.LastIndexByte). -/
def lastIdxOf (s : List Nat) (c : Nat) : Option Nat :=
  match s with
  | [] => none
  | b :: rest =>
    match lastIdxOf rest c with
    | some i => some (i + 1)
    | none => if b == c then some 0 else none

/-- Value of an ASCII hex digit byte, if it is one. -/
def hexDigitVal (c : Nat) : Option Nat :=
  if 48 ≤ c ∧ c ≤ 57 then some (c - 48)
  else if 97 ≤ c ∧ c ≤ 102 then some (c - 87)
  else if 65 ≤ c ∧ c ≤ 70 then some (c - 55)
  else none

/-- Is byte c an ASCII decimal digit. -/
def isDigit (c : Nat) : Bool := 48 ≤ c && c ≤ 57

/-- Split a byte string at every occurrence of byte c (strings.Split). -/
def splitOnByte (c : Nat) : List Nat → List (List Nat)
  | [] => [[]]
  | b :: rest =>
    match splitOnByte c rest with
    | [] => [[b]]
    | x :: xs => if b == c then [] :: x :: xs else (b :: x) :: xs

/-- Join byte strings with separator byte c (strings.Join). -/
def joinWith (c : Nat) : List (List Nat) → List Nat
  | [] => []
  | [x] => x
  | x :: y :: xs => x ++ c :: joinWith c (y :: xs)

/-- Cut a byte string at the first occurrence of byte c (strings.Cut):
the part before and the part after, the whole string and nothing when c
does not occur. -/
def cutAtFirst (s : List Nat) (c : Nat) : List Nat × List Nat :=
  match s with
  | [] => ([], [])
  | b :: rest =>
    if b == c then ([], rest)
    else
      let p := cutAtFirst rest c
      (b :: p.1, p.2)

end Urlresolver

namespace Urlresolver.Httphandler

/-!
Embedding of httphandler's error mapping (src/httphandler/httphandler.go).
Go errors are modelled as linear wrap chains over a base kind; errors.Is
traverses the chain, os.IsTimeout inspects only the outermost error.
-/

/-- Base kinds of errors reaching mapError: the two timeout shapes, the five
safedialer sentinels (src/unnamed/part_023) and everything else. -/
inductive ErrKind where
  | deadlineExceeded
  | osTimeout
  | unsafeIP
  | unsafePort
  | unsafeNetwork
  | invalidAddress
  | invalidIP
  | other
  deriving DecidableEq, Repr

/-- A Go error value: a base error of a given kind, possibly wrapped
(for example by fmt.Errorf with a w verb). -/
inductive GoErr where
  | base (k : ErrKind)
  | wrap (e : GoErr)
  deriving DecidableEq, Repr

/-- errors.Is: does unwrapping reach a base error of kind k. -/
def errIs (e : GoErr) (k : ErrKind) : Bool :=
  match e with
  | .base k0 => k0 == k
  | .wrap e0 => errIs e0 k

/-- os.IsTimeout looks only at the error itself (no unwrapping): wrapped
errors produced by fmt.Errorf do not implement a Timeout method. -/
def osIsTimeout (e : GoErr) : Bool :=
  match e with
  | .base k => k == .osTimeout
  | .wrap _ => false

/-- Embedding of isTimeoutError: errors.Is deadline, os.IsTimeout, or recurse
into the unwrapped error. -/
def isTimeoutError (e : GoErr) : Bool :=
  errIs e .deadlineExceeded || osIsTimeout e ||
    (match e with
     | .base _ => false
     | .wrap e0 => isTimeoutError e0)

/-- Embedding of isUnsafeError: errors.Is against the three unsafe safedialer
sentinels (ErrUnsafeIP, ErrUnsafePort, ErrUnsafeNetwork) only. -/
def isUnsafeError (e : GoErr) : Bool :=
  errIs e .unsafeIP || errIs e .unsafePort || errIs e .unsafeNetwork

/-- The three public error values surfaced in the JSON error field. -/
inductive PublicErr where
  | requestTimeout
  | unsafeURL
  | resolveError
  deriving DecidableEq, Repr

/-- Embedding of mapError: timeout first, then unsafe, then the fallback. -/
def mapError (e : GoErr) : PublicErr :=
  if isTimeoutError e then .requestTimeout
  else if isUnsafeError e then .unsafeURL
  else .resolveError

/-- True when the base kind of the error chain is one of the five safedialer
rejection sentinels. -/
def isSafedialerRejection (e : GoErr) : Bool :=
  errIs e .unsafeIP || errIs e .unsafePort || errIs e .unsafeNetwork ||
    errIs e .invalidAddress || errIs e .invalidIP

/-- Amended error taxonomy written from the corrected claim: request timeout
for deadline or timeout errors; unsafe URL for the unsafe-IP, unsafe-port and
unsafe-network safedialer rejections only; resolve error for everything else,
including the invalid-address and invalid-IP safedialer rejections. -/
def mapErrorAmended (e : GoErr) : PublicErr :=
  if isTimeoutError e then .requestTimeout
  else if errIs e .unsafeIP || errIs e .unsafePort || errIs e .unsafeNetwork then .unsafeURL
  else .resolveError

end Urlresolver.Httphandler

namespace Urlresolver.Safedialer

open Urlresolver (bytes)
open Urlresolver.Httphandler (ErrKind)

/-!
Embedding of the safedialer package (src/unnamed/part_023) together with the
parts of Go's net package it relies on: SplitHostPort, ParseIP (with the
strict netip parsing rules of the go.mod Go version), IP.To4, CIDRMask and
IPNet.Contains.
-/

/-- Embedding of net.SplitHostPort. Bytes 58, 91 and 93 are the colon and
the square brackets. -/
def splitHostPort (hp : List Nat) : Option (List Nat × List Nat) :=
  match lastIdxOf hp 58 with
  | none => none
  | some i =>
    if hp.head? == some 91 then
      match idxOf hp 93 with
      | none => none
      | some e =>
        if e + 1 == hp.length then none
        else if e + 1 == i then
          if (idxOf (hp.drop 1) 91).isSome then none
          else if (idxOf (hp.drop (e + 1)) 93).isSome then none
          else some ((hp.drop 1).take (e - 1), hp.drop (i + 1))
        else none
    else
      let host := hp.take i
      if (idxOf host 58).isSome then none
      else if (idxOf hp 91).isSome then none
      else if (idxOf hp 93).isSome then none
      else some (host, hp.drop (i + 1))

open Urlresolver (hexDigitVal isDigit)

/-- Embedding of the strict IPv4 field parser (netip.parseIPv4Fields): four
decimal fields separated by dots, each of value at most 255 and without
leading zeros. Returns the four field bytes. -/
def parseIPv4Fields (s : List Nat) (val digLen pos : Nat) (acc : List Nat)
    (atDot : Bool) : Option (List Nat) :=
  match s with
  | [] =>
    if atDot then none
    else if pos < 3 then none
    else if digLen == 0 then none
    else some (acc ++ [val % 256])
  | c :: rest =>
    if isDigit c then
      if digLen == 1 && val == 0 then none
      else
        let val := val * 10 + (c - 48)
        if val > 255 then none
        else parseIPv4Fields rest val (digLen + 1) pos acc false
    else if c == 46 then
      if digLen == 0 then none
      else if pos == 3 then none
      else parseIPv4Fields rest 0 0 (pos + 1) (acc ++ [val % 256]) true
  else none

/-- The 16-byte form of an IPv4 address, as net.IPv4 builds it:
the v4-in-v6 prefix followed by the four address bytes. -/
def ipv4Bytes (a b c d : Nat) : List Nat :=
  [0, 0, 0, 0, 0, 0, 0, 0, 0, 0, 255, 255, a, b, c, d]

/-- Embedding of IPv4 address parsing as used by net.ParseIP: strict fields,
result in 16-byte v4-in-v6 form. -/
def parseIPv4 (s : List Nat) : Option (List Nat) :=
  match parseIPv4Fields s 0 0 0 [] false with
  | some [a, b, c, d] => some (ipv4Bytes a b c d)
  | _ => none

/-- Reads a run of hex digits (one IPv6 group), accumulating its value;
fails as soon as the value reaches 2^16. Returns the value, the number of
digits consumed, and the rest. -/
def readHexGroup (s : List Nat) (acc off : Nat) : Option (Nat × Nat × List Nat) :=
  match s with
  | [] => some (acc, off, [])
  | c :: rest =>
    match hexDigitVal c with
    | none => some (acc, off, c :: rest)
    | some d =>
      let acc := acc * 16 + d
      if acc > 65535 then none
      else readHexGroup rest acc (off + 1)

/-- One pass of the IPv6 parsing loop (netip.parseIPv6): reads groups of hex
digits separated by colons, records the position of a double colon, and
accepts an embedded IPv4 tail. Returns the bytes read, the double-colon
position, and whether input remains. Fuel decreases on every step. -/
def parseIPv6Loop (fuel : Nat) (s : List Nat) (ip : List Nat)
    (ell : Option Nat) : Option (List Nat × Option Nat) :=
  match fuel with
  | 0 => none
  | fuel + 1 =>
    if ip.length ≥ 16 then
      if s.isEmpty then some (ip, ell) else none
    else
      match readHexGroup s 0 0 with
      | none => none
      | some (acc, off, rest) =>
        if off == 0 then none
        else if rest.head? == some 46 then
          (if ell.isNone && ip.length ≠ 12 then none
           else if ip.length + 4 > 16 then none
           else match parseIPv4Fields s 0 0 0 [] false with
                | some [a, b, c, d] => some (ip ++ [a, b, c, d], ell)
                | _ => none)
        else
          let ip := ip ++ [(acc / 256) % 256, acc % 256]
          match rest with
          | [] => some (ip, ell)
          | [_] => none
          | c1 :: c2 :: rest2 =>
            if c1 == 58 then
              if c2 == 58 then
                if ell.isSome then none
                else if rest2.isEmpty then some (ip, some ip.length)
                else parseIPv6Loop fuel rest2 ip (some ip.length)
              else parseIPv6Loop fuel (c2 :: rest2) ip ell
            else none

/-- Run of the IPv6 group loop followed by double-colon expansion
(the tail of netip.parseIPv6): a recorded double colon expands to the zero
bytes needed to reach 16 bytes, and must expand to at least one group. -/
def parseIPv6Tail (s : List Nat) (ell : Option Nat) : Option (List Nat) :=
  match parseIPv6Loop (s.length + 1) s [] ell with
  | none => none
  | some (ip, ellOut) =>
    if ip.length == 16 then
      if ellOut.isSome then none else some ip
    else
      match ellOut with
      | none => none
      | some e => some (ip.take e ++ List.replicate (16 - ip.length) 0 ++ ip.drop e)

/-- Embedding of IPv6 address parsing (netip.parseIPv6 as used by
net.ParseIP): a leading double colon is consumed before the group loop, and
a bare double colon is the unspecified address. -/
def parseIPv6 (s : List Nat) : Option (List Nat) :=
  match s with
  | c1 :: c2 :: rest =>
    if c1 == 58 && c2 == 58 then
      if rest.isEmpty then some (List.replicate 16 0)
      else parseIPv6Tail rest (some 0)
    else parseIPv6Tail (c1 :: c2 :: rest) none
  | _ => parseIPv6Tail s none

/-- Embedding of net.ParseIP: scan for the first dot, colon or percent to
choose the parser; the percent sign (a zone) makes the address invalid. -/
def parseIP (s : List Nat) : Option (List Nat) :=
  match s.find? (fun c => c == 46 || c == 58 || c == 37) with
  | some 46 => parseIPv4 s
  | some 58 => parseIPv6 s
  | _ => none

/-- Embedding of IP.To4: a 4-byte address itself, the last four bytes of a
16-byte address whose first ten bytes are zero and bytes ten and eleven are
255 (the v4-in-v6 prefix), nothing otherwise. -/
def to4 (ip : List Nat) : Option (List Nat) :=
  if ip.length == 4 then some ip
  else if ip.length == 16 && (ip.take 10).all (fun b => b == 0)
      && ip.getD 10 0 == 255 && ip.getD 11 0 == 255 then
    some (ip.drop 12)
  else none

/-- Embedding of net.CIDRMask restricted to what the safedialer builds: the
list of count mask bytes for a prefix of ones bits. -/
def cidrMaskBytes (ones count : Nat) : List Nat :=
  match count with
  | 0 => []
  | count + 1 =>
    if ones ≥ 8 then 255 :: cidrMaskBytes (ones - 8) count
    else (255 - 255 / 2 ^ ones) :: cidrMaskBytes 0 count

/-- An IP network, as net.IPNet: a base address and a mask. -/
structure IPNet where
  ip : List Nat
  mask : List Nat

/-- Masked byte-wise comparison of a network number against an address,
the loop of IPNet.Contains. -/
def maskedEq : List Nat → List Nat → List Nat → Bool
  | [], [], [] => true
  | n0 :: nr, m0 :: mr, i0 :: ir =>
    (Nat.land n0 m0 == Nat.land i0 m0) && maskedEq nr mr ir
  | _, _, _ => false

/-- Embedding of IPNet.Contains, including networkNumberAndMask: the network
number is reduced to 4 bytes when it is v4-in-v6 (with the mask cut to its
last 4 bytes), and the probed address is reduced through To4 as well. -/
def netContains (n : IPNet) (ip : List Nat) : Bool :=
  let nn? :=
    match to4 n.ip with
    | some x => some x
    | none => if n.ip.length == 16 then some n.ip else none
  match nn? with
  | none => false
  | some nn =>
    let m? :=
      if n.mask.length == 4 then (if nn.length == 4 then some n.mask else none)
      else if n.mask.length == 16 then
        some (if nn.length == 4 then n.mask.drop 12 else n.mask)
      else none
    match m? with
    | none => false
    | some m =>
      let ip := match to4 ip with | some x => x | none => ip
      if ip.length == nn.length then maskedEq nn m ip else false

/-- Embedding of ipv4Net: a reserved block given by four base bytes and a
subnet prefix length, stored in 16-byte form with a 96+n bit mask. -/
def ipv4Net (a b c d subnetPrefixLen : Nat) : IPNet :=
  ⟨ipv4Bytes a b c d, cidrMaskBytes (96 + subnetPrefixLen) 16⟩

/-- The fifteen reserved IPv4 networks of the safedialer. -/
def reservedIPv4Nets : List IPNet :=
  [ ipv4Net 0 0 0 0 8,
    ipv4Net 10 0 0 0 8,
    ipv4Net 100 64 0 0 10,
    ipv4Net 127 0 0 0 8,
    ipv4Net 169 254 0 0 16,
    ipv4Net 172 16 0 0 12,
    ipv4Net 192 0 0 0 24,
    ipv4Net 192 0 2 0 24,
    ipv4Net 192 88 99 0 24,
    ipv4Net 192 168 0 0 16,
    ipv4Net 198 18 0 0 15,
    ipv4Net 198 51 100 0 24,
    ipv4Net 203 0 113 0 24,
    ipv4Net 224 0 0 0 4,
    ipv4Net 240 0 0 0 4 ]

/-- The IPv6 global unicast network 2000::/3 of the safedialer. -/
def globalUnicastIPv6Net : IPNet :=
  ⟨32 :: List.replicate 15 0, cidrMaskBytes 3 16⟩

/-- Embedding of isIPv6GlobalUnicast. -/
def isIPv6GlobalUnicast (address : List Nat) : Bool :=
  netContains globalUnicastIPv6Net address

/-- Embedding of isIPv4Reserved: membership in any reserved network. -/
def isIPv4Reserved (address : List Nat) : Bool :=
  reservedIPv4Nets.any (fun n => netContains n address)

/-- Embedding of isPublicIPAddress: IPv4 addresses must avoid every reserved
network, other addresses must be global unicast IPv6. -/
def isPublicIPAddress (address : List Nat) : Bool :=
  if (to4 address).isSome then !isIPv4Reserved address
  else isIPv6GlobalUnicast address

/-- Embedding of safedialer.Control: the ordered pre-connect checks, each
returning its distinct error. -/
def Control (network address : List Nat) : Option ErrKind :=
  if !(network == bytes "tcp4" || network == bytes "tcp6") then some .unsafeNetwork
  else
    match splitHostPort address with
    | none => some .invalidAddress
    | some (host, port) =>
      if !(port == bytes "80" || port == bytes "443") then some .unsafePort
      else
        match parseIP host with
        | none => some .invalidIP
        | some ip => if !isPublicIPAddress ip then some .unsafeIP else none

/-- Numeric value of a 4-byte IPv4 address. -/
def v4Val : List Nat → Nat
  | [a, b, c, d] => a * 16777216 + b * 65536 + c * 256 + d
  | _ => 0

/-- Spec-side CIDR membership for IPv4, written from the claim: the first n
bits of the address equal the first n bits of the block base. -/
def specInCidr4 (ip4 base : List Nat) (n : Nat) : Bool :=
  v4Val ip4 / 2 ^ (32 - n) == v4Val base / 2 ^ (32 - n)

/-- The fifteen reserved blocks exactly as the spec lists them. -/
def specReservedBlocks : List (List Nat × Nat) :=
  [ ([0, 0, 0, 0], 8),
    ([10, 0, 0, 0], 8),
    ([100, 64, 0, 0], 10),
    ([127, 0, 0, 0], 8),
    ([169, 254, 0, 0], 16),
    ([172, 16, 0, 0], 12),
    ([192, 0, 0, 0], 24),
    ([192, 0, 2, 0], 24),
    ([192, 88, 99, 0], 24),
    ([192, 168, 0, 0], 16),
    ([198, 18, 0, 0], 15),
    ([198, 51, 100, 0], 24),
    ([203, 0, 113, 0], 24),
    ([224, 0, 0, 0], 4),
    ([240, 0, 0, 0], 4) ]

/-- Spec-side public-IP predicate, written from the claim: an IPv4 address
outside all fifteen reserved blocks, or an IPv6 address inside 2000::/3
(first three bits 001). -/
def specIsPublic (ip : List Nat) : Bool :=
  match to4 ip with
  | some ip4 => specReservedBlocks.all (fun blk => !specInCidr4 ip4 blk.1 blk.2)
  | none =>
    match ip with
    | b0 :: _ => ip.length == 16 && b0 / 32 == 1
    | [] => false

/-- Spec-side pre-connect check, written from the claim: the five conditions
in order, each with its distinct error, and no error otherwise. -/
def controlSpec (network address : List Nat) : Option ErrKind :=
  if network ≠ bytes "tcp4" ∧ network ≠ bytes "tcp6" then some .unsafeNetwork
  else
    match splitHostPort address with
    | none => some .invalidAddress
    | some (host, port) =>
      if port ≠ bytes "80" ∧ port ≠ bytes "443" then some .unsafePort
      else
        match parseIP host with
        | none => some .invalidIP
        | some ip => if ¬ specIsPublic ip then some .unsafeIP else none

end Urlresolver.Safedialer


namespace Urlresolver

/-!
Embedding of the canonicalizer (src/canonicalizer.go) together with the parts
of net/url it relies on (query parsing and encoding, hostname extraction,
percent escaping) and a model of purell.NormalizeURL for the repository's
normalization flags. The purell package is a dependency whose source is not
part of the repository, so its transforms are modelled from the spec.
-/

/-- A parsed URL, as the subset of net/url.URL the canonicalizer touches:
scheme, host (with optional port), decoded path, raw query and fragment. -/
structure GoURL where
  scheme : List Nat
  host : List Nat
  path : List Nat
  rawQuery : List Nat
  fragment : List Nat
  deriving DecidableEq, Repr

/-- Embedding of net/url unescaping: percent escapes must be valid hex, and
in query mode (plus true) the plus byte decodes to a space. -/
def unescape (plus : Bool) : List Nat → Option (List Nat)
  | [] => some []
  | c :: rest =>
    if c == 37 then
      match rest with
      | h1 :: h2 :: rest2 =>
        match hexDigitVal h1, hexDigitVal h2 with
        | some v1, some v2 => (unescape plus rest2).map (fun t => (16 * v1 + v2) :: t)
        | _, _ => none
      | _ => none
    else if c == 43 then (unescape plus rest).map (fun t => (if plus then 32 else 43) :: t)
    else (unescape plus rest).map (fun t => c :: t)

/-- Uppercase hex digit byte of a value below 16. -/
def hexUpDigit (n : Nat) : Nat := if n < 10 then 48 + n else 55 + n

/-- Percent-encode one byte with uppercase hex, as net/url does. -/
def pctEncode (b : Nat) : List Nat := [37, hexUpDigit (b / 16), hexUpDigit (b % 16)]

/-- ASCII letters and digits. -/
def isAlphaNum (b : Nat) : Bool :=
  (65 ≤ b && b ≤ 90) || (97 ≤ b && b ≤ 122) || (48 ≤ b && b ≤ 57)

/-- The four unreserved marks of RFC 3986 that are never escaped. -/
def isUnreservedMark (b : Nat) : Bool := b == 45 || b == 95 || b == 46 || b == 126

/-- Concatenation of a byte function over a byte string. -/
def bytesConcatMap (f : Nat → List Nat) : List Nat → List Nat
  | [] => []
  | b :: rest => f b ++ bytesConcatMap f rest

/-- Byte kept verbatim by url.QueryEscape. -/
def queryKeepByte (b : Nat) : Bool := isAlphaNum b || isUnreservedMark b

/-- Embedding of url.QueryEscape on one byte: keep, plus for space, escape. -/
def queryEscapeByte (b : Nat) : List Nat :=
  if queryKeepByte b then [b] else if b == 32 then [43] else pctEncode b

/-- Embedding of url.QueryEscape. -/
def queryEscape (s : List Nat) : List Nat := bytesConcatMap queryEscapeByte s

/-- Byte kept verbatim in a serialized path: unreserved bytes, sub-delims,
colon, at sign and slash; everything else, including percent, question mark,
hash and non-ASCII bytes, is escaped. -/
def pathKeepByte (b : Nat) : Bool :=
  isAlphaNum b || isUnreservedMark b ||
  b == 33 || b == 36 || b == 38 || b == 39 || b == 40 || b == 41 || b == 42 || b == 43 ||
  b == 44 || b == 59 || b == 61 || b == 58 || b == 64 || b == 47

/-- Escape one path byte. -/
def pathEscapeByte (b : Nat) : List Nat := if pathKeepByte b then [b] else pctEncode b

/-- Canonical percent-escaping of a decoded path (the combined effect of the
escape-normalization flags and the final serialization). -/
def pathEscape (s : List Nat) : List Nat := bytesConcatMap pathEscapeByte s

/-- Embedding of url.Values: an association list from keys to value lists,
in insertion order. Go stores Values in a map whose iteration order is not
observable in the canonical output because Encode sorts the keys. -/
abbrev Values := List (List Nat × List (List Nat))

/-- Embedding of Values.Add: append to an existing key group or add a new
key at the end. -/
def valuesAdd : Values → List Nat → List Nat → Values
  | [], k, v => [(k, [v])]
  | (k0, vs0) :: rest, k, v =>
    if k0 == k then (k0, vs0 ++ [v]) :: rest
    else (k0, vs0) :: valuesAdd rest k v

/-- One segment of query parsing: skip any segment containing a semicolon,
skip empty segments and segments whose key or value fails to unescape,
otherwise add the unescaped pair. -/
def parseQuerySeg (m : Values) (seg : List Nat) : Values :=
  if seg.contains 59 then m
  else if seg.isEmpty then m
  else
    match unescape true (cutAtFirst seg 61).1, unescape true (cutAtFirst seg 61).2 with
    | some k, some v => valuesAdd m k v
    | _, _ => m

/-- Embedding of url.ParseQuery as called by URL.Query for the go.mod Go
version: split on ampersands only and process each segment; parse errors
are discarded by Query. -/
def parseQuery (q : List Nat) : Values :=
  (splitOnByte 38 q).foldl parseQuerySeg []

/-- Lexicographic byte-string order, as sort.Strings orders keys. -/
def lexLe : List Nat → List Nat → Bool
  | [], _ => true
  | _ :: _, [] => false
  | a :: as, b :: bs => Nat.blt a b || (a == b && lexLe as bs)

/-- Insertion into a key-sorted association list. -/
def insertByKey (p : List Nat × List (List Nat)) : Values → Values
  | [] => [p]
  | q :: rest => if lexLe p.1 q.1 then p :: q :: rest else q :: insertByKey p rest

/-- Insertion sort of an association list by key, as Encode sorts keys. -/
def sortByKey : Values → Values
  | [] => []
  | p :: rest => insertByKey p (sortByKey rest)

/-- One key group rendered as key=value segments, keys and values escaped. -/
def encodePairs : Values → List (List Nat)
  | [] => []
  | (k, vals) :: rest =>
    vals.map (fun v => queryEscape k ++ 61 :: queryEscape v) ++ encodePairs rest

/-- Embedding of Values.Encode: keys sorted, duplicates kept in order,
segments joined with ampersands. -/
def encodeValues (vs : Values) : List Nat :=
  joinWith 38 (encodePairs (sortByKey vs))

/-- Embedding of the port validity test of net/url: empty, or a colon
followed by digits only. -/
def validOptionalPort (p : List Nat) : Bool :=
  match p with
  | [] => true
  | c :: rest => c == 58 && rest.all (fun d => isDigit d)

/-- Embedding of URL.Hostname: strip a valid port after the last colon and
strip the brackets of an IPv6 literal. -/
def urlHostname (host : List Nat) : List Nat :=
  let h :=
    match lastIdxOf host 58 with
    | some i => if validOptionalPort (host.drop i) then host.take i else host
    | none => host
  if h.head? == some 91 && h.getLast? == some 93 then (h.drop 1).take (h.length - 2) else h

/-- An anchored one-or-more tail: at least one byte, none of them a newline,
the semantics of a trailing .+ in the anchored parameter patterns. -/
def plusTail (t : List Nat) : Bool := !t.isEmpty && t.all (fun c => !(c == 10))

/-- Anchored prefix-plus-rest match for the patterns of the form pre.+ . -/
def matchWithDotPlus (pre q : List Nat) : Bool :=
  pre.isPrefixOf q && plusTail (q.drop pre.length)

/-- Embedding of excludeParamPattern: the case-insensitive anchored
alternation of the always-stripped parameter patterns of canonicalizer.go;
mb?id expands to mbid and mid, s_(sub)?src to s_src and s_subsrc. -/
def matchExcludeParam (param : List Nat) : Bool :=
  let q := lowerBytes param
  q == bytes "gclid" || q == bytes "icid" || q == bytes "fbclid" ||
  q == bytes "_hsenc" || q == bytes "_hsmi" || q == bytes "nr_email_referer" ||
  q == bytes "ncid" || q == bytes "ref" || q == bytes "_r" ||
  q == bytes "currentpage" || q == bytes "fsrc" || q == bytes "mbid" || q == bytes "mid" ||
  q == bytes "mobile_touch" || q == bytes "ocid" || q == bytes "rss" ||
  q == bytes "s_src" || q == bytes "s_subsrc" || q == bytes "smid" || q == bytes "wpsrc" ||
  matchWithDotPlus (bytes "utm_") q || matchWithDotPlus (bytes "mkt_") q ||
  matchWithDotPlus (bytes "mc_") q || matchWithDotPlus (bytes "sr_") q ||
  matchWithDotPlus (bytes "vero_") q

/-- Case-insensitive anchored domain match of the form (^|\.)domain$ :
the host, lowercased, is the domain or ends with dot-domain. -/
def domainSuffixMatch (dom host : List Nat) : Bool :=
  let q := lowerBytes host
  q == dom || (46 :: dom).isSuffixOf q

/-- The strip-all domain list of canonicalizer.go. -/
def stripParamDomains : List (List Nat) :=
  [bytes "bbc.co.uk", bytes "buzzfeed.com", bytes "deadspin.com", bytes "economist.com",
   bytes "grantland.com", bytes "huffingtonpost.com", bytes "instagram.com",
   bytes "newyorker.com", bytes "nymag.com", bytes "nytimes.com", bytes "slate.com",
   bytes "techcrunch.com", bytes "theguardian.com", bytes "theonion.com",
   bytes "twitter.com", bytes "vanityfair.com", bytes "vulture.com",
   bytes "washingtonpost.com", bytes "wsj.com"]

/-- Embedding of stripParamDomainPattern. -/
def matchStripParamDomain (host : List Nat) : Bool :=
  stripParamDomains.any (fun d => domainSuffixMatch d host)

/-- The domains whose paths are lowercased. -/
def lowercaseDomains : List (List Nat) := [bytes "instagram.com", bytes "twitter.com"]

/-- Embedding of lowercaseDomainPattern. -/
def matchLowercaseDomain (host : List Nat) : Bool :=
  lowercaseDomains.any (fun d => domainSuffixMatch d host)

/-- The youtube.com allow-list pattern, anchored and case-sensitive. -/
def allowYoutubeParam (p : List Nat) : Bool :=
  p == bytes "v" || p == bytes "p" || p == bytes "t" || p == bytes "list"

/-- The twitter.com allow-list pattern, anchored and case-sensitive. -/
def allowTwitterParam (p : List Nat) : Bool := p == bytes "q"

/-- Embedding of shouldExcludeParam: always-stripped patterns first, then
the per-domain allow-lists, then the strip-all domains. The Go code ranges
over a two-entry map here; the domain patterns cannot both match one host,
so the iteration order is immaterial and a fixed order is used. -/
def shouldExcludeParam (domain param : List Nat) : Bool :=
  if matchExcludeParam param then true
  else if domainSuffixMatch (bytes "youtube.com") domain then !allowYoutubeParam param
  else if domainSuffixMatch (bytes "twitter.com") domain then !allowTwitterParam param
  else matchStripParamDomain domain

/-- Embedding of filterParams: keep every query parameter the host does not
exclude, preserving the values of kept parameters. -/
def filterParams (u : GoURL) : Values :=
  (parseQuery u.rawQuery).filter (fun kv => !shouldExcludeParam (urlHostname u.host) kv.1)

/-- Embedding of clean: replace the query with the encoded filtered
parameters and drop the fragment. -/
def clean (u : GoURL) : GoURL :=
  { u with rawQuery := encodeValues (filterParams u), fragment := [] }

/-- Is a path segment a dot segment. -/
def isDotSeg (s : List Nat) : Bool := s == [46] || s == [46, 46]

/-- Stack pass over path segments: double-dot pops, single dot is dropped,
anything else is pushed. -/
def dotStack : List (List Nat) → List (List Nat) → List (List Nat)
  | [], acc => acc.reverse
  | s :: rest, acc =>
    if s == [46, 46] then dotStack rest (acc.drop 1)
    else if s == [46] then dotStack rest acc
    else dotStack rest (s :: acc)

/-- Modelled from the spec: remove dot segments (purell FlagRemoveDotSegments,
whose source is not under src/). The leading segment of an absolute path is
preserved, double dots pop, and a trailing dot segment leaves a trailing
slash. -/
def removeDotSegments (p : List Nat) : List Nat :=
  match splitOnByte 47 p with
  | [] => p
  | first :: tail =>
    let stack := dotStack tail []
    let stack := if (tail.getLast?).elim false isDotSeg then stack ++ [[]] else stack
    joinWith 47 (first :: stack)

/-- Drop the empty segments strictly between the first and last segment:
the segment-level form of replacing every run of slashes with one slash. -/
def collapseMid : List (List Nat) → List (List Nat)
  | [] => []
  | [y] => [y]
  | y :: ys => if y.isEmpty then collapseMid ys else y :: collapseMid ys

/-- Segment list with internal empty segments dropped. -/
def collapseSegs : List (List Nat) → List (List Nat)
  | [] => []
  | [x] => [x]
  | x :: xs => x :: collapseMid xs

/-- Modelled from the spec: collapse duplicate slashes (purell
FlagRemoveDuplicateSlashes, whose source is not under src/). -/
def collapseDupSlashes (p : List Nat) : List Nat :=
  joinWith 47 (collapseSegs (splitOnByte 47 p))

/-- Escape only the non-ASCII octets of an already-encoded query. -/
def nonASCIIEscapeByte (b : Nat) : List Nat := if 128 ≤ b then pctEncode b else [b]

/-- Modelled from the spec: percent-encode non-ASCII query octets. -/
def nonASCIIEscape (s : List Nat) : List Nat := bytesConcatMap nonASCIIEscapeByte s

/-- Split a host into the core before an optional dots-then-port tail, the
shared tail shape of the purell host decode patterns; none when a colon is
followed by anything but digits. -/
def hostPortSplitForDecode (h : List Nat) : Option (List Nat × List Nat) :=
  let beforeColon :=
    match idxOf h 58 with
    | some i => h.take i
    | none => h
  let colonTail :=
    match idxOf h 58 with
    | some i => h.drop i
    | none => []
  if colonTail.isEmpty || (colonTail.drop 1).all isDigit then
    let revb := beforeColon.reverse
    let dots := revb.takeWhile (fun c => c == 46)
    let core := (revb.dropWhile (fun c => c == 46)).reverse
    some (core, dots ++ colonTail)
  else none

/-- Decimal digit bytes of a number, least significant first, with fuel
bounding the recursion depth. -/
def digitsRevFuel : Nat → Nat → List Nat
  | 0, _ => []
  | _ + 1, 0 => []
  | fuel + 1, n + 1 => (48 + (n + 1) % 10) :: digitsRevFuel fuel ((n + 1) / 10)

/-- Decimal digit bytes of a number (strconv.Itoa for a nonnegative value). -/
def decimalBytes (n : Nat) : List Nat :=
  if n == 0 then [48] else (digitsRevFuel n n).reverse

/-- Numeric value of decimal digit bytes. -/
def natOfDigits (s : List Nat) : Nat := s.foldl (fun n c => n * 10 + (c - 48)) 0

/-- Numeric value of octal digit bytes. -/
def natOfOctal (s : List Nat) : Nat := s.foldl (fun n c => n * 8 + (c - 48)) 0

/-- Numeric value of hex digit bytes. -/
def natOfHexDigits (s : List Nat) : Nat :=
  s.foldl (fun n c => n * 16 + ((hexDigitVal c).getD 0)) 0

/-- Dotted-quad decimal rendering of a 32-bit value. -/
def dottedQuad (n : Nat) : List Nat :=
  decimalBytes (n / 16777216) ++ 46 :: decimalBytes (n / 65536 % 256) ++
    46 :: decimalBytes (n / 256 % 256) ++ 46 :: decimalBytes (n % 256)

/-- Modelled from the spec: decode a DWORD host (purell FlagDecodeDWORDHost):
an all-digit host core below 2^32 becomes its dotted quad. -/
def decodeDwordHost (h : List Nat) : List Nat :=
  match hostPortSplitForDecode h with
  | none => h
  | some (core, tail) =>
    if !core.isEmpty && core.all isDigit && natOfDigits core < 4294967296 then
      dottedQuad (natOfDigits core) ++ tail
    else h

/-- Modelled from the spec: decode an octal host (purell
FlagDecodeOctalHost): four zero-led octal fields, each below 256, become
their decimal forms. -/
def decodeOctalHost (h : List Nat) : List Nat :=
  match hostPortSplitForDecode h with
  | none => h
  | some (core, tail) =>
    match splitOnByte 46 core with
    | [f1, f2, f3, f4] =>
      if [f1, f2, f3, f4].all
          (fun f => f.head? == some 48 && f.all (fun c => 48 ≤ c && c ≤ 55)) &&
          [f1, f2, f3, f4].all (fun f => natOfOctal f < 256) then
        joinWith 46 ([f1, f2, f3, f4].map (fun f => decimalBytes (natOfOctal f))) ++ tail
      else h
    | _ => h

/-- Modelled from the spec: decode a hex host (purell FlagDecodeHexHost):
a 0x-led hex core below 2^32 becomes its dotted quad. -/
def decodeHexHost (h : List Nat) : List Nat :=
  match hostPortSplitForDecode h with
  | none => h
  | some (core, tail) =>
    if core.take 2 == [48, 120] && !(core.drop 2).isEmpty &&
        (core.drop 2).all (fun c => (hexDigitVal c).isSome) &&
        natOfHexDigits (core.drop 2) < 4294967296 then
      dottedQuad (natOfHexDigits (core.drop 2)) ++ tail
    else h

/-- Modelled from the spec: strip unnecessary host dots (purell
FlagRemoveUnnecessaryHostDots): leading and trailing dots of the host are
removed, keeping a trailing port. -/
def stripHostDots (h : List Nat) : List Nat :=
  let splitAt? :=
    match lastIdxOf h 58 with
    | some i =>
      if !(h.drop (i + 1)).isEmpty && (h.drop (i + 1)).all isDigit then some i else none
    | none => none
  let main := match splitAt? with | some i => h.take i | none => h
  let port := match splitAt? with | some i => h.drop i | none => []
  ((main.dropWhile (fun c => c == 46)).reverse.dropWhile (fun c => c == 46)).reverse ++ port

/-- Modelled from the spec: strip an empty port separator (purell
FlagRemoveEmptyPortSeparator): trailing colons with nothing after them. -/
def stripEmptyPortSep (h : List Nat) : List Nat :=
  (h.reverse.dropWhile (fun c => c == 58)).reverse

/-- The combined purell host transforms, in purell flag order: the three IP
form decodes, then dot stripping, then the empty port separator. -/
def hostFix (h : List Nat) : List Nat :=
  stripEmptyPortSep (stripHostDots (decodeHexHost (decodeOctalHost (decodeDwordHost h))))

/-- Modelled from the spec: purell.NormalizeURL with the repository's
NormalizationFlags - lowercase scheme and host, normalized host forms,
dot segments removed and duplicate slashes collapsed in the path,
canonically escaped path and query octets - serialized back to a string. -/
def purellNormalize (u : GoURL) : List Nat :=
  lowerBytes u.scheme ++ 58 :: 47 :: 47 :: hostFix (lowerBytes u.host) ++
    pathEscape (collapseDupSlashes (removeDotSegments u.path)) ++
    (if (nonASCIIEscape u.rawQuery).isEmpty then []
     else 63 :: nonASCIIEscape u.rawQuery) ++
    (if u.fragment.isEmpty then [] else 35 :: pathEscape u.fragment)

/-- Embedding of normalize: lowercase the path for the matching domains,
then apply the purell normalization. -/
def normalize (u : GoURL) : List Nat :=
  purellNormalize
    (if matchLowercaseDomain u.host then { u with path := lowerBytes u.path } else u)

/-- Embedding of Canonicalize: clean, then normalize. -/
def Canonicalize (u : GoURL) : List Nat := normalize (clean u)

/-- Bytes allowed in a scheme after the first letter. -/
def isSchemeByte (b : Nat) : Bool := isAlphaNum b || b == 43 || b == 45 || b == 46

/-- ASCII letters. -/
def isLetter (b : Nat) : Bool := (65 ≤ b && b ≤ 90) || (97 ≤ b && b ≤ 122)

/-- Scheme candidate before the first colon, none when no colon is reached
over scheme bytes. -/
def takeScheme : List Nat → Option (List Nat × List Nat)
  | [] => none
  | c :: rest =>
    if c == 58 then some ([], rest)
    else if isSchemeByte c then (takeScheme rest).map (fun p => (c :: p.1, p.2))
    else none

/-- Bytes acceptable in the authority of this embedding: no delimiters, no
user info, no brackets and no percent escapes. -/
def isHostByte (b : Nat) : Bool :=
  !(b == 47 || b == 63 || b == 35 || b == 64 || b == 91 || b == 93 || b == 37)

/-- Embedding of url.Parse restricted to absolute URLs with an authority:
control bytes are rejected, the fragment and query are cut first, the scheme
must start with a letter and is lowercased as url.Parse does, the authority
runs to the first slash and may carry a port, and the path is stored
decoded with validated escapes. User info, bracketed hosts, percent escapes
in the host, opaque and scheme-relative forms are outside this embedding. -/
def parse (s : List Nat) : Option GoURL :=
  if !s.all (fun c => 32 ≤ c && c < 256 && !(c == 127)) then none
  else
    let cutF := cutAtFirst s 35
    match unescape false cutF.2 with
    | none => none
    | some fragDec =>
      let cutQ := cutAtFirst cutF.1 63
      match takeScheme cutQ.1 with
      | none => none
      | some (scheme, rest) =>
        if scheme.isEmpty || !(scheme.head?).elim false isLetter then none
        else if rest.take 2 == [47, 47] then
          let afterSlashes := rest.drop 2
          let authority :=
            match idxOf afterSlashes 47 with
            | some i => afterSlashes.take i
            | none => afterSlashes
          let path :=
            match idxOf afterSlashes 47 with
            | some i => afterSlashes.drop i
            | none => []
          if !authority.all isHostByte then none
          else
            match unescape false path with
            | none => none
            | some pathDec => some ⟨lowerBytes scheme, authority, pathDec, cutQ.2, fragDec⟩
        else none

/-- Canonicalization at the string level: parse, then Canonicalize. -/
def canonOfString (s : List Nat) : Option (List Nat) := (parse s).map Canonicalize

/-- The pre-canonicalization of Resolver.Resolve: canonicalize when the
input parses, otherwise keep the given URL unchanged. -/
def preCanon (s : List Nat) : List Nat :=
  match parse s with
  | some u => Canonicalize u
  | none => s

end Urlresolver

namespace Urlresolver

/-- Split a byte string into its longest prefix of bytes satisfying f and the
rest (the deterministic content of a greedy character-class match). -/
def span (f : Nat → Bool) : List Nat → List Nat × List Nat
  | [] => ([], [])
  | c :: rest =>
    if f c then
      let p := span f rest
      (c :: p.1, p.2)
    else ([], c :: rest)

/-- The character class of the sailthru regex as written in the code:
[A-Za-z0-9=], without dash and underscore. -/
def isB64Byte (b : Nat) : Bool := isAlphaNum b || b == 61

/-- Modelled from the spec: the character class [A-Za-z0-9=_-] of the spec's
sailthru pattern, which also admits the dash and underscore bytes of the
URL-safe base64 alphabet. -/
def isB64SpecByte (b : Nat) : Bool := isAlphaNum b || b == 61 || b == 45 || b == 95

/-- The sailthru matcher ^https?://[^/]+/click/\d+\.\d+/(cls+)/.+ for a given
capture class: scheme and the literal click segment are matched
case-insensitively, the greedy runs are deterministic because every class
excludes the byte that must follow it, and the capture is returned verbatim
from the input. -/
def matchSailthruWith (cls : Nat → Bool) (s : List Nat) : Option (List Nat) :=
  let afterScheme :=
    if (bytes "https://").isPrefixOf (lowerBytes s) then some (s.drop 8)
    else if (bytes "http://").isPrefixOf (lowerBytes s) then some (s.drop 7)
    else none
  match afterScheme with
  | none => none
  | some r1 =>
    let hostSplit := span (fun c => !(c == 47)) r1
    if hostSplit.1.isEmpty then none
    else if (bytes "/click/").isPrefixOf (lowerBytes hostSplit.2) then
      let d1 := span isDigit (hostSplit.2.drop 7)
      if d1.1.isEmpty then none
      else
        match d1.2 with
        | 46 :: r4 =>
          let d2 := span isDigit r4
          if d2.1.isEmpty then none
          else
            match d2.2 with
            | 47 :: r5 =>
              let g := span cls r5
              if g.1.isEmpty then none
              else
                match g.2 with
                | 47 :: tail => if tail.isEmpty then none else some g.1
                | _ => none
            | _ => none
        | _ => none
    else none

/-- Embedding of matchSailthruURL with the code's character class. -/
def matchSailthruURL (s : List Nat) : Option (List Nat) :=
  matchSailthruWith isB64Byte s

/-- Modelled from the spec: the sailthru matcher with the spec's character
class, to be compared with the code's matcher. -/
def matchSailthruSpec (s : List Nat) : Option (List Nat) :=
  matchSailthruWith isB64SpecByte s

/-- Value of one URL-safe base64 alphabet byte. -/
def b64Val (c : Nat) : Option Nat :=
  if 65 ≤ c ∧ c ≤ 90 then some (c - 65)
  else if 97 ≤ c ∧ c ≤ 122 then some (c - 71)
  else if 48 ≤ c ∧ c ≤ 57 then some (c + 4)
  else if c = 45 then some 62
  else if c = 95 then some 63
  else none

/-- Embedding of base64.RawURLEncoding.DecodeString: unpadded URL-safe
base64, failing on any byte outside the alphabet (including the padding
byte) and on a trailing group of one byte. -/
def b64UrlDecode : List Nat → Option (List Nat)
  | [] => some []
  | [_] => none
  | [c1, c2] =>
    match b64Val c1, b64Val c2 with
    | some v1, some v2 => some [v1 * 4 + v2 / 16]
    | _, _ => none
  | [c1, c2, c3] =>
    match b64Val c1, b64Val c2, b64Val c3 with
    | some v1, some v2, some v3 => some [v1 * 4 + v2 / 16, v2 % 16 * 16 + v3 / 4]
    | _, _, _ => none
  | c1 :: c2 :: c3 :: c4 :: rest =>
    match b64Val c1, b64Val c2, b64Val c3, b64Val c4, b64UrlDecode rest with
    | some v1, some v2, some v3, some v4, some tail =>
      some ([v1 * 4 + v2 / 16, v2 % 16 * 16 + v3 / 4, v3 % 4 * 64 + v4] ++ tail)
    | _, _, _, _, _ => none

/-- Embedding of strings.Contains for byte strings. -/
def containsSeq (pat : List Nat) : List Nat → Bool
  | [] => pat.isEmpty
  | c :: rest => pat.isPrefixOf (c :: rest) || containsSeq pat rest

/-- Fuelled body of strings.ReplaceAll: replace each non-overlapping
occurrence of pat, scanning left to right. -/
def replaceAllFuel (pat rep : List Nat) : Nat → List Nat → List Nat
  | 0, s => s
  | fuel + 1, s =>
    match s with
    | [] => []
    | c :: rest =>
      if !pat.isEmpty && pat.isPrefixOf (c :: rest) then
        rep ++ replaceAllFuel pat rep fuel ((c :: rest).drop pat.length)
      else c :: replaceAllFuel pat rep fuel rest

/-- Embedding of strings.ReplaceAll for a non-empty pattern. -/
def replaceAll (pat rep s : List Nat) : List Nat := replaceAllFuel pat rep s.length s

/-- Length of the tweet-regex alternation [^/]+/status/\d+|i/web/status/\d+
matched at the head of r, the part after twitter.com/; the first alternative
is preferred, its greedy runs are deterministic because [^/]+ must be
followed by a slash and \d+ is final. -/
def tweetAltLen (r : List Nat) : Option Nat :=
  let hostSplit := span (fun c => !(c == 47)) r
  let alt1 :=
    if hostSplit.1.isEmpty then none
    else if (bytes "/status/").isPrefixOf (lowerBytes hostSplit.2) then
      let d := span isDigit (hostSplit.2.drop 8)
      if d.1.isEmpty then none else some (hostSplit.1.length + 8 + d.1.length)
    else none
  match alt1 with
  | some n => some n
  | none =>
    if (bytes "i/web/status/").isPrefixOf (lowerBytes r) then
      let d := span isDigit (r.drop 13)
      if d.1.isEmpty then none else some (13 + d.1.length)
    else none

/-- Matched length of the anchored case-insensitive tweet regex
^https://(mobile\.)?twitter\.com/([^/]+/status/\d+|i/web/status/\d+). -/
def tweetMatchLen (s : List Nat) : Option Nat :=
  if (bytes "https://").isPrefixOf (lowerBytes s) then
    let r1 := s.drop 8
    if (bytes "mobile.").isPrefixOf (lowerBytes r1) then
      if (bytes "twitter.com/").isPrefixOf (lowerBytes (r1.drop 7)) then
        (tweetAltLen ((r1.drop 7).drop 12)).map (fun n => 8 + 7 + 12 + n)
      else none
    else
      if (bytes "twitter.com/").isPrefixOf (lowerBytes r1) then
        (tweetAltLen (r1.drop 12)).map (fun n => 8 + 12 + n)
      else none
  else none

/-- Embedding of matchTweetURL: trim the input to the regex match and, when
the input contains /i/web/ verbatim, rewrite it in the match to the fake
username /__urlresolver__/. -/
def matchTweetURL (s : List Nat) : Option (List Nat) :=
  match tweetMatchLen s with
  | none => none
  | some n =>
    let m := s.take n
    some (if containsSeq (bytes "/i/web/") s then
      replaceAll (bytes "/i/web/") (bytes "/__urlresolver__/") m
    else m)

/-- Embedding of matchTcoURL: the anchored case-insensitive test
^https?://t\.co/.+ . -/
def matchTcoURL (s : List Nat) : Bool :=
  let r :=
    if (bytes "https://").isPrefixOf (lowerBytes s) then some (s.drop 8)
    else if (bytes "http://").isPrefixOf (lowerBytes s) then some (s.drop 7)
    else none
  match r with
  | none => false
  | some r2 => (bytes "t.co/").isPrefixOf (lowerBytes r2) && !(r2.drop 5).isEmpty

/-- The redirect cap of urlresolver.go. -/
def maxRedirects : Nat := 5

/-- One abstract HTTP fetch of a URL string: a redirect response carrying its
Location target, or a final response, or a transport failure. A response
also carries the title its body yields and whether title extraction fails,
for when that response is the one returned. -/
inductive FetchResult where
  | redirect (next title : List Nat) (titleErr : Bool)
  | success (title : List Nat) (titleErr : Bool)
  | failure
  deriving DecidableEq, Repr

/-- Abstract outcome of the tweet fetcher: the tweet's URL and text, or an
error. -/
inductive TweetOutcome where
  | ok (url text : List Nat)
  | err
  deriving DecidableEq, Repr

/-- Outcome of http.Client.Do: a response whose request URL is finalURL,
or a url.Error whose URL field is errURL. -/
inductive DoOutcome where
  | resp (finalURL title : List Nat) (titleErr : Bool)
  | err (errURL : List Nat)
  deriving DecidableEq, Repr

/-- Embedding of Result. -/
structure ResolveResult where
  resolvedURL : List Nat
  title : List Nat
  intermediateURLs : List (List Nat)
  deriving DecidableEq, Repr

/-- Embedding of the net/http redirect loop under redirectRecorder's
checkRedirect: on each redirect response the previous request's URL is
recorded verbatim, then the redirect is not followed - the current response
is used - once the requests already made reach maxRedirects or when the next
URL contains the instagram login or forbes interstitial markers. via is the
list of requests made so far and rec the recorded hops. -/
def clientDo (net : List Nat → FetchResult) : Nat → List Nat → List (List Nat) →
    List (List Nat) → DoOutcome × List (List Nat)
  | 0, u, _, rec => (DoOutcome.err u, rec)
  | fuel + 1, u, via, rec =>
    match net u with
    | FetchResult.failure => (DoOutcome.err u, rec)
    | FetchResult.success t te => (DoOutcome.resp u t te, rec)
    | FetchResult.redirect nxt t te =>
      let rec2 := rec ++ [u]
      if maxRedirects ≤ (via ++ [u]).length then (DoOutcome.resp u t te, rec2)
      else if containsSeq (bytes "instagram.com/accounts/login/") nxt then
        (DoOutcome.resp u t te, rec2)
      else if containsSeq (bytes "forbes.com/forbes/welcome") nxt then
        (DoOutcome.resp u t te, rec2)
      else clientDo net fuel nxt (via ++ [u]) rec2

/-- Embedding of Resolver.resolveTweet: on success the result carries the
tweet's URL and text; on failure the partial result keeps the matched tweet
URL and the error is returned. -/
def resolveTweet (tf : List Nat → TweetOutcome) (tweetURL : List Nat)
    (result : ResolveResult) : ResolveResult × Bool :=
  match tf tweetURL with
  | TweetOutcome.ok turl ttext => (⟨turl, ttext, result.intermediateURLs⟩, false)
  | TweetOutcome.err => ({ result with resolvedURL := tweetURL }, true)

/-- Embedding of Resolver.doResolve over the abstract network and tweet
fetcher: tweet short-circuit before fetching, request construction failing
exactly when the URL does not parse, the redirect loop, the url.Error
partial-result path canonicalizing the error's URL when it parses, the
canonicalization of the final response URL, and the tweet short-circuit
re-applied after redirects. The t.co user-agent tweak has no observable
effect in this model. -/
def doResolve (net : List Nat → FetchResult) (tf : List Nat → TweetOutcome)
    (givenURL : List Nat) : ResolveResult × Bool :=
  let result0 : ResolveResult := ⟨givenURL, [], []⟩
  match matchTweetURL givenURL with
  | some tweetURL => resolveTweet tf tweetURL result0
  | none =>
    if (parse givenURL).isNone then (result0, true)
    else
      let dr := clientDo net (maxRedirects + 5) givenURL [] []
      match dr.1 with
      | DoOutcome.err eurl =>
        ({ result0 with resolvedURL := preCanon eurl, intermediateURLs := dr.2 }, true)
      | DoOutcome.resp finalURL t te =>
        match matchTweetURL (preCanon finalURL) with
        | some tweetURL => resolveTweet tf tweetURL ⟨preCanon finalURL, [], dr.2⟩
        | none => (⟨preCanon finalURL, if te then [] else t, dr.2⟩, te)

/-- Embedding of Resolver.Resolve for a single call: the given URL is
canonicalized up front when it parses, then resolved; the singleflight
coalescing is not observable for one call. -/
def Resolve (net : List Nat → FetchResult) (tf : List Nat → TweetOutcome)
    (givenURL : List Nat) : ResolveResult × Bool :=
  doResolve net tf (preCanon givenURL)

/-- A network for concrete runs: one redirect hop whose Location is not in
canonical form, then a redirect to a final page. -/
def netHops (u : List Nat) : FetchResult :=
  if u == bytes "https://example.com/start" then
    FetchResult.redirect (bytes "https://EXAMPLE.com/x") [] false
  else if u == bytes "https://EXAMPLE.com/x" then
    FetchResult.redirect (bytes "https://example.com/end") [] false
  else FetchResult.success (bytes "t") false

/-- A network that fails every fetch at the transport. -/
def netFail (_ : List Nat) : FetchResult := FetchResult.failure

/-- A tweet fetcher that always fails. -/
def tfErr (_ : List Nat) : TweetOutcome := TweetOutcome.err

/-- A tweet fetcher answering a fixed tweet. -/
def tfOk (u : List Nat) : TweetOutcome :=
  if u == bytes "https://twitter.com/alice/status/123" then
    TweetOutcome.ok (bytes "https://twitter.com/Alice/status/123") (bytes "hi")
  else TweetOutcome.err

end Urlresolver

namespace Urlresolver.Safedialer

/-- Masking a byte keeps exactly its high bits: the byte-level content of
CIDR mask application. -/
theorem land255 : ∀ b < 256, Nat.land b 255 = b := by decide

/-- Masking with the empty mask byte gives zero. -/
theorem landZ (b : Nat) : Nat.land b 0 = 0 := Nat.and_zero b

/-- Two-bit prefix mask byte as truncated division. -/
theorem land192 : ∀ b < 256, Nat.land b 192 = b / 64 * 64 := by decide

/-- Four-bit prefix mask byte as truncated division. -/
theorem land240 : ∀ b < 256, Nat.land b 240 = b / 16 * 16 := by decide

/-- Seven-bit prefix mask byte as truncated division. -/
theorem land254 : ∀ b < 256, Nat.land b 254 = b / 2 * 2 := by decide

/-- Three-bit prefix mask byte as truncated division. -/
theorem land224 : ∀ b < 256, Nat.land b 224 = b / 32 * 32 := by decide

/-- Boolean extensionality through the coercion to propositions. -/
theorem boolExt (x y : Bool) (h : x = true ↔ y = true) : x = y := by
  cases x <;> cases y <;> simp_all

/-- Reserved block 0.0.0.0/8: the byte-mask Contains test agrees
with the spec-side prefix comparison. -/
theorem resvBlk1 (a b c d : Nat) (ha : a < 256) (hb : b < 256) (hc : c < 256) (hd : d < 256) :
    netContains (ipv4Net 0 0 0 0 8) (ipv4Bytes a b c d) =
      specInCidr4 [a, b, c, d] [0, 0, 0, 0] 8 := by
  have h : netContains (ipv4Net 0 0 0 0 8) (ipv4Bytes a b c d) =
      ((0 == Nat.land a 255) && ((0 == Nat.land b 0) && ((0 == Nat.land c 0) && ((0 == Nat.land d 0) && true)))) := rfl
  rw [h, land255 a ha, landZ b, landZ c, landZ d]
  apply boolExt
  simp only [specInCidr4, v4Val, Bool.and_eq_true, beq_iff_eq, and_true]
  norm_num
  omega

/-- Reserved block 10.0.0.0/8: the byte-mask Contains test agrees
with the spec-side prefix comparison. -/
theorem resvBlk2 (a b c d : Nat) (ha : a < 256) (hb : b < 256) (hc : c < 256) (hd : d < 256) :
    netContains (ipv4Net 10 0 0 0 8) (ipv4Bytes a b c d) =
      specInCidr4 [a, b, c, d] [10, 0, 0, 0] 8 := by
  have h : netContains (ipv4Net 10 0 0 0 8) (ipv4Bytes a b c d) =
      ((10 == Nat.land a 255) && ((0 == Nat.land b 0) && ((0 == Nat.land c 0) && ((0 == Nat.land d 0) && true)))) := rfl
  rw [h, land255 a ha, landZ b, landZ c, landZ d]
  apply boolExt
  simp only [specInCidr4, v4Val, Bool.and_eq_true, beq_iff_eq, and_true]
  norm_num
  omega

/-- Reserved block 100.64.0.0/10: the byte-mask Contains test agrees
with the spec-side prefix comparison. -/
theorem resvBlk3 (a b c d : Nat) (ha : a < 256) (hb : b < 256) (hc : c < 256) (hd : d < 256) :
    netContains (ipv4Net 100 64 0 0 10) (ipv4Bytes a b c d) =
      specInCidr4 [a, b, c, d] [100, 64, 0, 0] 10 := by
  have h : netContains (ipv4Net 100 64 0 0 10) (ipv4Bytes a b c d) =
      ((100 == Nat.land a 255) && ((64 == Nat.land b 192) && ((0 == Nat.land c 0) && ((0 == Nat.land d 0) && true)))) := rfl
  rw [h, land255 a ha, land192 b hb, landZ c, landZ d]
  apply boolExt
  simp only [specInCidr4, v4Val, Bool.and_eq_true, beq_iff_eq, and_true]
  norm_num
  omega

/-- Reserved block 127.0.0.0/8: the byte-mask Contains test agrees
with the spec-side prefix comparison. -/
theorem resvBlk4 (a b c d : Nat) (ha : a < 256) (hb : b < 256) (hc : c < 256) (hd : d < 256) :
    netContains (ipv4Net 127 0 0 0 8) (ipv4Bytes a b c d) =
      specInCidr4 [a, b, c, d] [127, 0, 0, 0] 8 := by
  have h : netContains (ipv4Net 127 0 0 0 8) (ipv4Bytes a b c d) =
      ((127 == Nat.land a 255) && ((0 == Nat.land b 0) && ((0 == Nat.land c 0) && ((0 == Nat.land d 0) && true)))) := rfl
  rw [h, land255 a ha, landZ b, landZ c, landZ d]
  apply boolExt
  simp only [specInCidr4, v4Val, Bool.and_eq_true, beq_iff_eq, and_true]
  norm_num
  omega

/-- Reserved block 169.254.0.0/16: the byte-mask Contains test agrees
with the spec-side prefix comparison. -/
theorem resvBlk5 (a b c d : Nat) (ha : a < 256) (hb : b < 256) (hc : c < 256) (hd : d < 256) :
    netContains (ipv4Net 169 254 0 0 16) (ipv4Bytes a b c d) =
      specInCidr4 [a, b, c, d] [169, 254, 0, 0] 16 := by
  have h : netContains (ipv4Net 169 254 0 0 16) (ipv4Bytes a b c d) =
      ((169 == Nat.land a 255) && ((254 == Nat.land b 255) && ((0 == Nat.land c 0) && ((0 == Nat.land d 0) && true)))) := rfl
  rw [h, land255 a ha, land255 b hb, landZ c, landZ d]
  apply boolExt
  simp only [specInCidr4, v4Val, Bool.and_eq_true, beq_iff_eq, and_true]
  norm_num
  omega

/-- Reserved block 172.16.0.0/12: the byte-mask Contains test agrees
with the spec-side prefix comparison. -/
theorem resvBlk6 (a b c d : Nat) (ha : a < 256) (hb : b < 256) (hc : c < 256) (hd : d < 256) :
    netContains (ipv4Net 172 16 0 0 12) (ipv4Bytes a b c d) =
      specInCidr4 [a, b, c, d] [172, 16, 0, 0] 12 := by
  have h : netContains (ipv4Net 172 16 0 0 12) (ipv4Bytes a b c d) =
      ((172 == Nat.land a 255) && ((16 == Nat.land b 240) && ((0 == Nat.land c 0) && ((0 == Nat.land d 0) && true)))) := rfl
  rw [h, land255 a ha, land240 b hb, landZ c, landZ d]
  apply boolExt
  simp only [specInCidr4, v4Val, Bool.and_eq_true, beq_iff_eq, and_true]
  norm_num
  omega

/-- Reserved block 192.0.0.0/24: the byte-mask Contains test agrees
with the spec-side prefix comparison. -/
theorem resvBlk7 (a b c d : Nat) (ha : a < 256) (hb : b < 256) (hc : c < 256) (hd : d < 256) :
    netContains (ipv4Net 192 0 0 0 24) (ipv4Bytes a b c d) =
      specInCidr4 [a, b, c, d] [192, 0, 0, 0] 24 := by
  have h : netContains (ipv4Net 192 0 0 0 24) (ipv4Bytes a b c d) =
      ((192 == Nat.land a 255) && ((0 == Nat.land b 255) && ((0 == Nat.land c 255) && ((0 == Nat.land d 0) && true)))) := rfl
  rw [h, land255 a ha, land255 b hb, land255 c hc, landZ d]
  apply boolExt
  simp only [specInCidr4, v4Val, Bool.and_eq_true, beq_iff_eq, and_true]
  norm_num
  omega

/-- Reserved block 192.0.2.0/24: the byte-mask Contains test agrees
with the spec-side prefix comparison. -/
theorem resvBlk8 (a b c d : Nat) (ha : a < 256) (hb : b < 256) (hc : c < 256) (hd : d < 256) :
    netContains (ipv4Net 192 0 2 0 24) (ipv4Bytes a b c d) =
      specInCidr4 [a, b, c, d] [192, 0, 2, 0] 24 := by
  have h : netContains (ipv4Net 192 0 2 0 24) (ipv4Bytes a b c d) =
      ((192 == Nat.land a 255) && ((0 == Nat.land b 255) && ((2 == Nat.land c 255) && ((0 == Nat.land d 0) && true)))) := rfl
  rw [h, land255 a ha, land255 b hb, land255 c hc, landZ d]
  apply boolExt
  simp only [specInCidr4, v4Val, Bool.and_eq_true, beq_iff_eq, and_true]
  norm_num
  omega

/-- Reserved block 192.88.99.0/24: the byte-mask Contains test agrees
with the spec-side prefix comparison. -/
theorem resvBlk9 (a b c d : Nat) (ha : a < 256) (hb : b < 256) (hc : c < 256) (hd : d < 256) :
    netContains (ipv4Net 192 88 99 0 24) (ipv4Bytes a b c d) =
      specInCidr4 [a, b, c, d] [192, 88, 99, 0] 24 := by
  have h : netContains (ipv4Net 192 88 99 0 24) (ipv4Bytes a b c d) =
      ((192 == Nat.land a 255) && ((88 == Nat.land b 255) && ((99 == Nat.land c 255) && ((0 == Nat.land d 0) && true)))) := rfl
  rw [h, land255 a ha, land255 b hb, land255 c hc, landZ d]
  apply boolExt
  simp only [specInCidr4, v4Val, Bool.and_eq_true, beq_iff_eq, and_true]
  norm_num
  omega

/-- Reserved block 192.168.0.0/16: the byte-mask Contains test agrees
with the spec-side prefix comparison. -/
theorem resvBlk10 (a b c d : Nat) (ha : a < 256) (hb : b < 256) (hc : c < 256) (hd : d < 256) :
    netContains (ipv4Net 192 168 0 0 16) (ipv4Bytes a b c d) =
      specInCidr4 [a, b, c, d] [192, 168, 0, 0] 16 := by
  have h : netContains (ipv4Net 192 168 0 0 16) (ipv4Bytes a b c d) =
      ((192 == Nat.land a 255) && ((168 == Nat.land b 255) && ((0 == Nat.land c 0) && ((0 == Nat.land d 0) && true)))) := rfl
  rw [h, land255 a ha, land255 b hb, landZ c, landZ d]
  apply boolExt
  simp only [specInCidr4, v4Val, Bool.and_eq_true, beq_iff_eq, and_true]
  norm_num
  omega

/-- Reserved block 198.18.0.0/15: the byte-mask Contains test agrees
with the spec-side prefix comparison. -/
theorem resvBlk11 (a b c d : Nat) (ha : a < 256) (hb : b < 256) (hc : c < 256) (hd : d < 256) :
    netContains (ipv4Net 198 18 0 0 15) (ipv4Bytes a b c d) =
      specInCidr4 [a, b, c, d] [198, 18, 0, 0] 15 := by
  have h : netContains (ipv4Net 198 18 0 0 15) (ipv4Bytes a b c d) =
      ((198 == Nat.land a 255) && ((18 == Nat.land b 254) && ((0 == Nat.land c 0) && ((0 == Nat.land d 0) && true)))) := rfl
  rw [h, land255 a ha, land254 b hb, landZ c, landZ d]
  apply boolExt
  simp only [specInCidr4, v4Val, Bool.and_eq_true, beq_iff_eq, and_true]
  norm_num
  omega

/-- Reserved block 198.51.100.0/24: the byte-mask Contains test agrees
with the spec-side prefix comparison. -/
theorem resvBlk12 (a b c d : Nat) (ha : a < 256) (hb : b < 256) (hc : c < 256) (hd : d < 256) :
    netContains (ipv4Net 198 51 100 0 24) (ipv4Bytes a b c d) =
      specInCidr4 [a, b, c, d] [198, 51, 100, 0] 24 := by
  have h : netContains (ipv4Net 198 51 100 0 24) (ipv4Bytes a b c d) =
      ((198 == Nat.land a 255) && ((51 == Nat.land b 255) && ((100 == Nat.land c 255) && ((0 == Nat.land d 0) && true)))) := rfl
  rw [h, land255 a ha, land255 b hb, land255 c hc, landZ d]
  apply boolExt
  simp only [specInCidr4, v4Val, Bool.and_eq_true, beq_iff_eq, and_true]
  norm_num
  omega

/-- Reserved block 203.0.113.0/24: the byte-mask Contains test agrees
with the spec-side prefix comparison. -/
theorem resvBlk13 (a b c d : Nat) (ha : a < 256) (hb : b < 256) (hc : c < 256) (hd : d < 256) :
    netContains (ipv4Net 203 0 113 0 24) (ipv4Bytes a b c d) =
      specInCidr4 [a, b, c, d] [203, 0, 113, 0] 24 := by
  have h : netContains (ipv4Net 203 0 113 0 24) (ipv4Bytes a b c d) =
      ((203 == Nat.land a 255) && ((0 == Nat.land b 255) && ((113 == Nat.land c 255) && ((0 == Nat.land d 0) && true)))) := rfl
  rw [h, land255 a ha, land255 b hb, land255 c hc, landZ d]
  apply boolExt
  simp only [specInCidr4, v4Val, Bool.and_eq_true, beq_iff_eq, and_true]
  norm_num
  omega

/-- Reserved block 224.0.0.0/4: the byte-mask Contains test agrees
with the spec-side prefix comparison. -/
theorem resvBlk14 (a b c d : Nat) (ha : a < 256) (hb : b < 256) (hc : c < 256) (hd : d < 256) :
    netContains (ipv4Net 224 0 0 0 4) (ipv4Bytes a b c d) =
      specInCidr4 [a, b, c, d] [224, 0, 0, 0] 4 := by
  have h : netContains (ipv4Net 224 0 0 0 4) (ipv4Bytes a b c d) =
      ((224 == Nat.land a 240) && ((0 == Nat.land b 0) && ((0 == Nat.land c 0) && ((0 == Nat.land d 0) && true)))) := rfl
  rw [h, land240 a ha, landZ b, landZ c, landZ d]
  apply boolExt
  simp only [specInCidr4, v4Val, Bool.and_eq_true, beq_iff_eq, and_true]
  norm_num
  omega

/-- Reserved block 240.0.0.0/4: the byte-mask Contains test agrees
with the spec-side prefix comparison. -/
theorem resvBlk15 (a b c d : Nat) (ha : a < 256) (hb : b < 256) (hc : c < 256) (hd : d < 256) :
    netContains (ipv4Net 240 0 0 0 4) (ipv4Bytes a b c d) =
      specInCidr4 [a, b, c, d] [240, 0, 0, 0] 4 := by
  have h : netContains (ipv4Net 240 0 0 0 4) (ipv4Bytes a b c d) =
      ((240 == Nat.land a 240) && ((0 == Nat.land b 0) && ((0 == Nat.land c 0) && ((0 == Nat.land d 0) && true)))) := rfl
  rw [h, land240 a ha, landZ b, landZ c, landZ d]
  apply boolExt
  simp only [specInCidr4, v4Val, Bool.and_eq_true, beq_iff_eq, and_true]
  norm_num
  omega

end Urlresolver.Safedialer
namespace Urlresolver.Safedialer

theorem list4 (l : List Nat) (h : l.length = 4) : ∃ a b c d, l = [a, b, c, d] := by
  rcases l with _ | ⟨a, l⟩; · simp at h
  rcases l with _ | ⟨b, l⟩; · simp at h
  rcases l with _ | ⟨c, l⟩; · simp at h
  rcases l with _ | ⟨d, l⟩; · simp at h
  rcases l with _ | ⟨e, l⟩
  · exact ⟨a, b, c, d, rfl⟩
  · simp at h

theorem to4_shape (ip ip4 : List Nat) (h : to4 ip = some ip4) :
    ∃ a b c d, ip4 = [a, b, c, d] ∧ a ∈ ip ∧ b ∈ ip ∧ c ∈ ip ∧ d ∈ ip := by
  unfold to4 at h
  split at h
  case isTrue hlen =>
    obtain rfl : ip4 = ip := by injection h with h; exact h.symm
    obtain ⟨a, b, c, d, rfl⟩ := list4 _ (by simpa using hlen)
    exact ⟨a, b, c, d, rfl, by simp, by simp, by simp, by simp⟩
  case isFalse =>
    split at h
    case isTrue hcond =>
      injection h with h
      simp only [Bool.and_eq_true, beq_iff_eq] at hcond
      obtain ⟨⟨⟨h16, _⟩, _⟩, _⟩ := hcond
      obtain ⟨a, b, c, d, hdrop⟩ := list4 (ip.drop 12) (by simp [h16])
      refine ⟨a, b, c, d, h ▸ hdrop, ?_, ?_, ?_, ?_⟩
      · exact List.mem_of_mem_drop (n := 12) (hdrop ▸ (by simp : a ∈ [a, b, c, d]))
      · exact List.mem_of_mem_drop (n := 12) (hdrop ▸ (by simp : b ∈ [a, b, c, d]))
      · exact List.mem_of_mem_drop (n := 12) (hdrop ▸ (by simp : c ∈ [a, b, c, d]))
      · exact List.mem_of_mem_drop (n := 12) (hdrop ▸ (by simp : d ∈ [a, b, c, d]))
    case isFalse => exact absurd h (by simp)

end Urlresolver.Safedialer

namespace Urlresolver.Safedialer

theorem netContains_probe (n : IPNet) (ip : List Nat) (a b c d : Nat)
    (h4 : to4 ip = some [a, b, c, d]) :
    netContains n ip = netContains n (ipv4Bytes a b c d) := by
  unfold netContains
  rw [h4, show to4 (ipv4Bytes a b c d) = some [a, b, c, d] from rfl]

theorem isIPv4Reserved_eq (a b c d : Nat)
    (ha : a < 256) (hb : b < 256) (hc : c < 256) (hd : d < 256) :
    isIPv4Reserved (ipv4Bytes a b c d) =
      specReservedBlocks.any (fun blk => specInCidr4 [a, b, c, d] blk.1 blk.2) := by
  simp only [isIPv4Reserved, reservedIPv4Nets, specReservedBlocks, List.any_cons, List.any_nil,
    resvBlk1 a b c d ha hb hc hd, resvBlk2 a b c d ha hb hc hd, resvBlk3 a b c d ha hb hc hd,
    resvBlk4 a b c d ha hb hc hd, resvBlk5 a b c d ha hb hc hd, resvBlk6 a b c d ha hb hc hd,
    resvBlk7 a b c d ha hb hc hd, resvBlk8 a b c d ha hb hc hd, resvBlk9 a b c d ha hb hc hd,
    resvBlk10 a b c d ha hb hc hd, resvBlk11 a b c d ha hb hc hd, resvBlk12 a b c d ha hb hc hd,
    resvBlk13 a b c d ha hb hc hd, resvBlk14 a b c d ha hb hc hd, resvBlk15 a b c d ha hb hc hd]

end Urlresolver.Safedialer

namespace Urlresolver.Safedialer

theorem list16 (l : List Nat) (h : l.length = 16) :
    ∃ x0 x1 x2 x3 x4 x5 x6 x7 x8 x9 x10 x11 x12 x13 x14 x15,
      l = [x0, x1, x2, x3, x4, x5, x6, x7, x8, x9, x10, x11, x12, x13, x14, x15] := by
  rcases l with _ | ⟨x0, l⟩; · simp at h
  rcases l with _ | ⟨x1, l⟩; · simp at h
  rcases l with _ | ⟨x2, l⟩; · simp at h
  rcases l with _ | ⟨x3, l⟩; · simp at h
  rcases l with _ | ⟨x4, l⟩; · simp at h
  rcases l with _ | ⟨x5, l⟩; · simp at h
  rcases l with _ | ⟨x6, l⟩; · simp at h
  rcases l with _ | ⟨x7, l⟩; · simp at h
  rcases l with _ | ⟨x8, l⟩; · simp at h
  rcases l with _ | ⟨x9, l⟩; · simp at h
  rcases l with _ | ⟨x10, l⟩; · simp at h
  rcases l with _ | ⟨x11, l⟩; · simp at h
  rcases l with _ | ⟨x12, l⟩; · simp at h
  rcases l with _ | ⟨x13, l⟩; · simp at h
  rcases l with _ | ⟨x14, l⟩; · simp at h
  rcases l with _ | ⟨x15, l⟩; · simp at h
  rcases l with _ | ⟨x16, l⟩
  · exact ⟨x0, x1, x2, x3, x4, x5, x6, x7, x8, x9, x10, x11, x12, x13, x14, x15, rfl⟩
  · simp at h

theorem isPublic_eq_spec (ip : List Nat) (hlen : ip.length = 16)
    (hbnd : ∀ x ∈ ip, x < 256) :
    isPublicIPAddress ip = specIsPublic ip := by
  unfold isPublicIPAddress specIsPublic
  cases h4 : to4 ip with
  | some ip4 =>
    obtain ⟨a, b, c, d, rfl, hma, hmb, hmc, hmd⟩ := to4_shape ip ip4 h4
    have ha := hbnd a hma
    have hb := hbnd b hmb
    have hc := hbnd c hmc
    have hd := hbnd d hmd
    simp only [Option.isSome_some, if_true]
    have key : isIPv4Reserved ip = isIPv4Reserved (ipv4Bytes a b c d) := by
      unfold isIPv4Reserved
      simp only [netContains_probe _ ip a b c d h4]
    rw [key, isIPv4Reserved_eq a b c d ha hb hc hd]
    simp only [specReservedBlocks, List.any_cons, List.any_nil, List.all_cons, List.all_nil,
      Bool.not_or, Bool.and_true, Bool.or_false]
  | none =>
    simp only [Option.isSome_none, Bool.false_eq_true, if_false]
    obtain ⟨x0, x1, x2, x3, x4, x5, x6, x7, x8, x9, x10, x11, x12, x13, x14, x15, rfl⟩ :=
      list16 ip hlen
    have hx0 : x0 < 256 := hbnd x0 (by simp)
    have h : isIPv6GlobalUnicast
        [x0, x1, x2, x3, x4, x5, x6, x7, x8, x9, x10, x11, x12, x13, x14, x15] =
        ((32 == Nat.land x0 224) && ((0 == Nat.land x1 0) && ((0 == Nat.land x2 0) &&
          ((0 == Nat.land x3 0) && ((0 == Nat.land x4 0) && ((0 == Nat.land x5 0) &&
          ((0 == Nat.land x6 0) && ((0 == Nat.land x7 0) && ((0 == Nat.land x8 0) &&
          ((0 == Nat.land x9 0) && ((0 == Nat.land x10 0) && ((0 == Nat.land x11 0) &&
          ((0 == Nat.land x12 0) && ((0 == Nat.land x13 0) && ((0 == Nat.land x14 0) &&
          ((0 == Nat.land x15 0) && true)))))))))))))))) := by
      unfold isIPv6GlobalUnicast netContains
      rw [h4]
      rfl
    rw [h, land224 x0 hx0, landZ x1, landZ x2, landZ x3, landZ x4, landZ x5, landZ x6,
      landZ x7, landZ x8, landZ x9, landZ x10, landZ x11, landZ x12, landZ x13, landZ x14,
      landZ x15]
    apply boolExt
    simp only [Bool.and_eq_true, beq_iff_eq, and_true, List.length_cons, List.length_nil]
    norm_num

end Urlresolver.Safedialer

namespace Urlresolver.Safedialer

theorem parseIPv4Fields_bound (s : List Nat) :
    ∀ val digLen pos acc atDot out,
      parseIPv4Fields s val digLen pos acc atDot = some out →
      (∀ b ∈ acc, b < 256) → ∀ b ∈ out, b < 256 := by
  induction s with
  | nil =>
    intro val digLen pos acc atDot out h hacc
    unfold parseIPv4Fields at h
    split at h; · exact absurd h (by simp)
    split at h; · exact absurd h (by simp)
    split at h; · exact absurd h (by simp)
    injection h with h
    subst h
    intro b hb
    rcases List.mem_append.mp hb with hb | hb
    · exact hacc b hb
    · simp only [List.mem_singleton] at hb
      subst hb
      exact Nat.mod_lt _ (by norm_num)
  | cons c rest ih =>
    intro val digLen pos acc atDot out h hacc
    unfold parseIPv4Fields at h
    split at h
    · split at h
      · exact absurd h (by simp)
      · dsimp only at h
        split at h
        · exact absurd h (by simp)
        · exact ih _ _ _ _ _ _ h hacc
    · split at h
      · split at h
        · exact absurd h (by simp)
        · split at h
          · exact absurd h (by simp)
          · refine ih _ _ _ _ _ _ h ?_
            intro b hb
            rcases List.mem_append.mp hb with hb | hb
            · exact hacc b hb
            · simp only [List.mem_singleton] at hb
              subst hb
              exact Nat.mod_lt _ (by norm_num)
      · exact absurd h (by simp)

theorem parseIPv4_inv (s out : List Nat) (h : parseIPv4 s = some out) :
    out.length = 16 ∧ ∀ b ∈ out, b < 256 := by
  unfold parseIPv4 at h
  split at h
  case h_1 a b c d heq =>
    injection h with h
    subst h
    have hall := parseIPv4Fields_bound s 0 0 0 [] false [a, b, c, d] heq (by simp)
    have hA : a < 256 := hall a (by simp)
    have hB : b < 256 := hall b (by simp)
    have hC : c < 256 := hall c (by simp)
    have hD : d < 256 := hall d (by simp)
    refine ⟨rfl, ?_⟩
    intro x hx
    simp only [ipv4Bytes, List.mem_cons, List.not_mem_nil, or_false] at hx
    rcases hx with rfl | rfl | rfl | rfl | rfl | rfl | rfl | rfl | rfl | rfl | rfl | rfl |
      rfl | rfl | rfl | rfl <;> omega
  case h_2 => exact absurd h (by simp)

end Urlresolver.Safedialer

namespace Urlresolver.Safedialer

theorem parseIPv6Loop_inv :
    ∀ fuel s ip ell out ellOut,
      parseIPv6Loop fuel s ip ell = some (out, ellOut) →
      (∀ b ∈ ip, b < 256) → ip.length % 2 = 0 → ip.length ≤ 16 →
      (∀ e, ell = some e → e ≤ ip.length) →
      (∀ b ∈ out, b < 256) ∧ out.length % 2 = 0 ∧ out.length ≤ 16 ∧
        (∀ e, ellOut = some e → e ≤ out.length) := by
  intro fuel
  induction fuel with
  | zero => intro s ip ell out ellOut h; exact absurd h (by simp [parseIPv6Loop])
  | succ fuel ih =>
    intro s ip ell out ellOut h hbnd heven hle hell
    unfold parseIPv6Loop at h
    split at h
    · split at h
      · injection h with h
        obtain ⟨rfl, rfl⟩ : ip = out ∧ ell = ellOut := by
          exact ⟨congrArg Prod.fst h, congrArg Prod.snd h⟩
        exact ⟨hbnd, heven, hle, hell⟩
      · exact absurd h (by simp)
    · split at h
      · exact absurd h (by simp)
      case h_2 acc off rest heq =>
        split at h
        · exact absurd h (by simp)
        · split at h
          · split at h
            · exact absurd h (by simp)
            · split at h
              · exact absurd h (by simp)
              · split at h
                case h_1 a b c d heq4 =>
                  injection h with h
                  obtain ⟨rfl, rfl⟩ : ip ++ [a, b, c, d] = out ∧ ell = ellOut :=
                    ⟨congrArg Prod.fst h, congrArg Prod.snd h⟩
                  have hfields :=
                    parseIPv4Fields_bound s 0 0 0 [] false [a, b, c, d] heq4 (by simp)
                  refine ⟨?_, ?_, ?_, ?_⟩
                  · intro x hx
                    rcases List.mem_append.mp hx with hx | hx
                    · exact hbnd x hx
                    · exact hfields x hx
                  · simp only [List.length_append, List.length_cons, List.length_nil]
                    omega
                  · simp only [List.length_append, List.length_cons, List.length_nil]
                    omega
                  · intro e he
                    have := hell e he
                    simp only [List.length_append]
                    omega
                case h_2 => exact absurd h (by simp)
          · dsimp only at h
            split at h
            · injection h with h
              obtain ⟨rfl, rfl⟩ :
                  ip ++ [acc / 256 % 256, acc % 256] = out ∧ ell = ellOut :=
                ⟨congrArg Prod.fst h, congrArg Prod.snd h⟩
              refine ⟨?_, ?_, ?_, ?_⟩
              · intro x hx
                rcases List.mem_append.mp hx with hx | hx
                · exact hbnd x hx
                · simp only [List.mem_cons, List.not_mem_nil, or_false] at hx
                  rcases hx with rfl | rfl <;> exact Nat.mod_lt _ (by norm_num)
              · simp only [List.length_append, List.length_cons, List.length_nil]
                omega
              · simp only [List.length_append, List.length_cons, List.length_nil]
                omega
              · intro e he
                have := hell e he
                simp only [List.length_append]
                omega
            · exact absurd h (by simp)
            · -- cons cons case
              rename_i c1 c2 rest2
              have hbnd2 : ∀ b ∈ ip ++ [acc / 256 % 256, acc % 256], b < 256 := by
                intro x hx
                rcases List.mem_append.mp hx with hx | hx
                · exact hbnd x hx
                · simp only [List.mem_cons, List.not_mem_nil, or_false] at hx
                  rcases hx with rfl | rfl <;> exact Nat.mod_lt _ (by norm_num)
              have heven2 : (ip ++ [acc / 256 % 256, acc % 256]).length % 2 = 0 := by
                simp only [List.length_append, List.length_cons, List.length_nil]
                omega
              have hle2 : (ip ++ [acc / 256 % 256, acc % 256]).length ≤ 16 := by
                simp only [List.length_append, List.length_cons, List.length_nil]
                omega
              split at h
              · split at h
                · split at h
                  · exact absurd h (by simp)
                  · split at h
                    · injection h with h
                      obtain ⟨rfl, rfl⟩ :
                          ip ++ [acc / 256 % 256, acc % 256] = out ∧
                            some (ip ++ [acc / 256 % 256, acc % 256]).length = ellOut :=
                        ⟨congrArg Prod.fst h, congrArg Prod.snd h⟩
                      refine ⟨hbnd2, heven2, hle2, ?_⟩
                      intro e he
                      injection he with he
                      omega
                    · refine ih _ _ _ _ _ h hbnd2 heven2 hle2 ?_
                      intro e he
                      injection he with he
                      omega
                · refine ih _ _ _ _ _ h hbnd2 heven2 hle2 ?_
                  intro e he
                  have := hell e he
                  simp only [List.length_append]
                  omega
              · exact absurd h (by simp)

end Urlresolver.Safedialer

namespace Urlresolver.Safedialer

theorem parseIPv6Tail_inv (s out : List Nat) (ell : Option Nat)
    (hell : ∀ e, ell = some e → e = 0)
    (h : parseIPv6Tail s ell = some out) :
    out.length = 16 ∧ ∀ b ∈ out, b < 256 := by
  unfold parseIPv6Tail at h
  split at h
  · exact absurd h (by simp)
  case h_2 ip ellOut heq =>
    have hinv := parseIPv6Loop_inv (s.length + 1) s [] ell ip ellOut heq
      (by simp) (by simp) (by simp)
      (by intro e he; simp [hell e he])
    obtain ⟨hbnd, heven, hle, hellOut⟩ := hinv
    split at h
    case isTrue h16 =>
      split at h
      · exact absurd h (by simp)
      · injection h with h
        subst h
        exact ⟨by simpa using h16, hbnd⟩
    case isFalse h16 =>
      split at h
      · exact absurd h (by simp)
      · rename_i eOld e
        injection h with h
        subst h
        have he' : e ≤ ip.length := hellOut e rfl
        constructor
        · simp only [List.length_append, List.length_take, List.length_drop,
            List.length_replicate]
          omega
        · intro x hx
          rcases List.mem_append.mp hx with hx | hx
          · rcases List.mem_append.mp hx with hx | hx
            · exact hbnd x (List.mem_of_mem_take hx)
            · have := List.eq_of_mem_replicate hx
              omega
          · exact hbnd x (List.mem_of_mem_drop hx)

theorem parseIPv6_inv (s out : List Nat) (h : parseIPv6 s = some out) :
    out.length = 16 ∧ ∀ b ∈ out, b < 256 := by
  unfold parseIPv6 at h
  split at h
  · split at h
    · split at h
      · injection h with h
        subst h
        constructor
        · simp
        · intro x hx
          have := List.eq_of_mem_replicate hx
          omega
      · exact parseIPv6Tail_inv _ _ _ (by intro e he; injection he with he; omega) h
    · exact parseIPv6Tail_inv _ _ _ (by intro e he; exact absurd he (by simp)) h
  · exact parseIPv6Tail_inv _ _ _ (by intro e he; exact absurd he (by simp)) h

theorem parseIP_inv (s out : List Nat) (h : parseIP s = some out) :
    out.length = 16 ∧ ∀ b ∈ out, b < 256 := by
  unfold parseIP at h
  split at h
  · exact parseIPv4_inv _ _ h
  · exact parseIPv6_inv _ _ h
  · exact absurd h (by simp)

theorem iteCong {α : Type} (bc : Bool) (pc : Prop) [Decidable pc]
    (hiff : bc = true ↔ pc) (x y x2 y2 : α) (hx : x = x2) (hy : y = y2) :
    (if bc then x else y) = (if pc then x2 else y2) := by
  subst hx
  subst hy
  by_cases h : pc
  · rw [if_pos h, if_pos (hiff.mpr h)]
  · rw [if_neg h, if_neg (fun hb => h (hiff.mp hb))]

/-- C2: the safe dialer pre-connect check agrees, on every network and
address, with the spec-side check written from the claim: the five ordered
conditions each with their distinct error, with public meaning an IPv4
address outside the fifteen reserved CIDR blocks or an IPv6 address inside
2000::/3. -/
theorem safedialer_control_matches_spec (network address : List Nat) :
    Control network address = controlSpec network address := by
  unfold Control controlSpec
  refine iteCong _ _ (by simp [not_or]) _ _ _ _ rfl ?_
  cases splitHostPort address with
  | none => rfl
  | some hp =>
    cases hp with
    | mk host port =>
      refine iteCong _ _ (by simp [not_or]) _ _ _ _ rfl ?_
      cases hip : parseIP host with
      | none => rfl
      | some ip =>
        obtain ⟨hlen, hbnd⟩ := parseIP_inv host ip hip
        refine iteCong _ _ ?_ _ _ _ _ rfl rfl
        rw [isPublic_eq_spec ip hlen hbnd]
        simp

end Urlresolver.Safedialer

namespace Urlresolver

open Httphandler

/-- C9 counterexample: a safedialer ErrInvalidIP rejection is mapped to the
resolve error value, not to the unsafe URL value the claim requires for
every safedialer rejection. -/
theorem mapError_invalidIP_not_unsafe :
    isSafedialerRejection (GoErr.base .invalidIP) = true ∧
    mapError (GoErr.base .invalidIP) = .resolveError ∧
    mapError (GoErr.base .invalidIP) ≠ .unsafeURL := by
  decide

/-- C9 (amended): the JSON error field is request timeout for deadline and
timeout errors, unsafe URL exactly for the unsafe-IP, unsafe-port and
unsafe-network safedialer rejections, and resolve error for everything else;
in particular invalid-address and invalid-IP rejections surface as resolve
error, as witnessed by the base cases. -/
theorem mapError_taxonomy :
    (∀ e : GoErr, mapError e = mapErrorAmended e) ∧
    mapError (GoErr.base .invalidAddress) = .resolveError ∧
    mapError (GoErr.base .invalidIP) = .resolveError ∧
    mapError (GoErr.base .unsafeIP) = .unsafeURL ∧
    mapError (GoErr.base .unsafePort) = .unsafeURL ∧
    mapError (GoErr.base .unsafeNetwork) = .unsafeURL ∧
    mapError (GoErr.base .deadlineExceeded) = .requestTimeout ∧
    mapError (GoErr.base .osTimeout) = .requestTimeout ∧
    mapError (GoErr.base .other) = .resolveError := by
  refine ⟨fun e => rfl, ?_, ?_, ?_, ?_, ?_, ?_, ?_, ?_⟩ <;> decide

end Urlresolver
namespace Urlresolver

theorem splitOn_cons (c b : Nat) (rest : List Nat) :
    splitOnByte c (b :: rest) =
      (match splitOnByte c rest with
       | [] => [[b]]
       | x :: xs => if b == c then [] :: x :: xs else (b :: x) :: xs) := rfl

theorem splitOn_ne_nil (c : Nat) (s : List Nat) : splitOnByte c s ≠ [] := by
  cases s with
  | nil => simp [splitOnByte]
  | cons b rest =>
    rw [splitOn_cons]
    cases h : splitOnByte c rest with
    | nil => simp
    | cons x xs =>
      by_cases hbc : (b == c) = true
      · simp [hbc]
      · simp [hbc]

theorem splitOn_of_no_sep (c : Nat) (x : List Nat) (hx : ¬ c ∈ x) :
    splitOnByte c x = [x] := by
  induction x with
  | nil => simp [splitOnByte]
  | cons b bs ih =>
    have hbs : ¬ c ∈ bs := fun h => hx (by simp [h])
    have hb : ¬ (b == c) = true := by
      simp only [beq_iff_eq]
      intro h
      exact hx (by simp [h])
    rw [splitOn_cons, ih hbs]
    simp [hb]

theorem splitOn_cons_no_sep (c : Nat) (x rest2 : List Nat) (hx : ¬ c ∈ x) :
    splitOnByte c (x ++ c :: rest2) = x :: splitOnByte c rest2 := by
  induction x with
  | nil =>
    simp only [List.nil_append]
    rw [splitOn_cons]
    cases h : splitOnByte c rest2 with
    | nil => exact absurd h (splitOn_ne_nil c rest2)
    | cons y ys => simp [h]
  | cons b bs ih =>
    have hbs : ¬ c ∈ bs := fun h => hx (by simp [h])
    have hb : ¬ (b == c) = true := by
      simp only [beq_iff_eq]
      intro h
      exact hx (by simp [h])
    have ih2 := ih hbs
    simp only [List.cons_append]
    rw [splitOn_cons, ih2]
    simp [hb]

theorem split_join (c : Nat) (L : List (List Nat)) (hne : L ≠ [])
    (hno : ∀ x ∈ L, ¬ c ∈ x) : splitOnByte c (joinWith c L) = L := by
  induction L with
  | nil => exact absurd rfl hne
  | cons x xs ih =>
    cases xs with
    | nil => exact splitOn_of_no_sep c x (hno x (by simp))
    | cons y ys =>
      have hj : joinWith c (x :: y :: ys) = x ++ c :: joinWith c (y :: ys) := rfl
      rw [hj, splitOn_cons_no_sep c x _ (hno x (by simp)),
        ih (by simp) (fun z hz => hno z (by simp [hz]))]

theorem join_split (c : Nat) (s : List Nat) : joinWith c (splitOnByte c s) = s := by
  induction s with
  | nil => simp [splitOnByte, joinWith]
  | cons b rest ih =>
    rw [splitOn_cons]
    cases hsp : splitOnByte c rest with
    | nil => exact absurd hsp (splitOn_ne_nil c rest)
    | cons y ys =>
      rw [hsp] at ih
      by_cases hbc : (b == c) = true
      · simp only [beq_iff_eq] at hbc
        subst hbc
        simp [joinWith, ih]
      · simp only [hbc, if_false]
        cases ys with
        | nil => simpa [joinWith] using congrArg (b :: ·) ih
        | cons z zs => simpa [joinWith] using congrArg (b :: ·) ih

theorem splitOn_no_sep (c : Nat) (s : List Nat) : ∀ x ∈ splitOnByte c s, ¬ c ∈ x := by
  induction s with
  | nil =>
    intro x hx
    simp only [splitOnByte, List.mem_singleton] at hx
    simp [hx]
  | cons b rest ih =>
    intro x hx
    rw [splitOn_cons] at hx
    cases hsp : splitOnByte c rest with
    | nil => exact absurd hsp (splitOn_ne_nil c rest)
    | cons y ys =>
      rw [hsp] at hx
      cases hbc : (b == c) with
      | true =>
        simp only [hbc, if_true, List.mem_cons] at hx
        rcases hx with rfl | hx
        · simp
        · exact ih x (by rw [hsp]; exact List.mem_cons.mpr hx)
      | false =>
        simp only [hbc, Bool.false_eq_true, if_false, List.mem_cons] at hx
        rcases hx with rfl | hx
        · intro hc
          simp only [List.mem_cons] at hc
          rcases hc with hc | hc
          · exact absurd hc.symm (by simpa using hbc)
          · exact ih y (by rw [hsp]; simp) hc
        · exact ih x (by rw [hsp]; exact List.mem_cons.mpr (Or.inr hx))

end Urlresolver
namespace Urlresolver

theorem dotStack_elems (l : List (List Nat)) :
    ∀ acc, ∀ x ∈ dotStack l acc, (x ∈ l ∧ isDotSeg x = false) ∨ x ∈ acc := by
  induction l with
  | nil =>
    intro acc x hx
    right
    simpa [dotStack] using hx
  | cons s rest ih =>
    intro acc x hx
    unfold dotStack at hx
    split at hx
    · rcases ih _ x hx with ⟨h2, h3⟩ | h2
      · exact Or.inl ⟨by simp [h2], h3⟩
      · exact Or.inr (List.mem_of_mem_drop h2)
    · split at hx
      · rcases ih _ x hx with ⟨h2, h3⟩ | h2
        · exact Or.inl ⟨by simp [h2], h3⟩
        · exact Or.inr h2
      · rcases ih _ x hx with ⟨h2, h3⟩ | h2
        · exact Or.inl ⟨by simp [h2], h3⟩
        · rcases List.mem_cons.mp h2 with rfl | h4
          · refine Or.inl ⟨by simp, ?_⟩
            rename_i hn2 hn1
            simp only [isDotSeg, Bool.or_eq_false_iff]
            constructor
            · simpa using hn1
            · simpa using hn2
          · exact Or.inr h4

theorem dotStack_dotfree (l : List (List Nat)) :
    ∀ acc, (∀ x ∈ l, isDotSeg x = false) → dotStack l acc = acc.reverse ++ l := by
  induction l with
  | nil => intro acc h; simp [dotStack]
  | cons s rest ih =>
    intro acc h
    have hs := h s (by simp)
    simp only [isDotSeg, Bool.or_eq_false_iff, beq_eq_false_iff_ne] at hs
    unfold dotStack
    rw [if_neg (by simpa using hs.2), if_neg (by simpa using hs.1)]
    rw [ih (s :: acc) (fun x hx => h x (by simp [hx]))]
    simp

theorem collapseMid_sub (l : List (List Nat)) : ∀ x ∈ collapseMid l, x ∈ l := by
  induction l with
  | nil => simp [collapseMid]
  | cons y ys ih =>
    cases ys with
    | nil => simp [collapseMid]
    | cons z zs =>
      intro x hx
      unfold collapseMid at hx
      split at hx
      · exact List.mem_cons.mpr (Or.inr (ih x hx))
      · rcases List.mem_cons.mp hx with rfl | h2
        · simp
        · exact List.mem_cons.mpr (Or.inr (ih x h2))

theorem collapseMid_ne_nil (l : List (List Nat)) (h : l ≠ []) : collapseMid l ≠ [] := by
  induction l with
  | nil => exact absurd rfl h
  | cons y ys ih =>
    cases ys with
    | nil => simp [collapseMid]
    | cons z zs =>
      unfold collapseMid
      split
      · exact ih (by simp)
      · simp

theorem collapseMid_cons (y z : List Nat) (zs : List (List Nat)) :
    collapseMid (y :: z :: zs) =
      if y.isEmpty then collapseMid (z :: zs) else y :: collapseMid (z :: zs) := rfl

theorem collapseMid_idem (l : List (List Nat)) :
    collapseMid (collapseMid l) = collapseMid l := by
  induction l with
  | nil => simp [collapseMid]
  | cons y ys ih =>
    cases ys with
    | nil => simp [collapseMid]
    | cons z zs =>
      rw [collapseMid_cons]
      by_cases hy : y.isEmpty = true
      · rw [if_pos hy]
        exact ih
      · rw [if_neg hy]
        cases hm : collapseMid (z :: zs) with
        | nil => exact absurd hm (collapseMid_ne_nil _ (by simp))
        | cons m ms =>
          rw [collapseMid_cons, if_neg hy, ← hm, ih]

theorem collapseSegs_cons (x : List Nat) (xs : List (List Nat)) :
    collapseSegs (x :: xs) = x :: collapseMid xs := by
  cases xs with
  | nil => simp [collapseSegs, collapseMid]
  | cons y ys => rfl

theorem getLastq_mem (l : List (List Nat)) (a : List Nat) (h : l.getLast? = some a) :
    a ∈ l := by
  induction l with
  | nil => simp at h
  | cons y ys ih =>
    cases ys with
    | nil =>
      simp only [List.getLast?_singleton] at h
      injection h with h
      simp [h]
    | cons z zs =>
      rw [List.getLast?_cons_cons] at h
      exact List.mem_cons.mpr (Or.inr (ih h))

end Urlresolver
namespace Urlresolver

theorem notDot_getLast (l : List (List Nat)) (h : ∀ x ∈ l, isDotSeg x = false) :
    (l.getLast?).elim false isDotSeg = false := by
  cases hg : l.getLast? with
  | none => rfl
  | some a =>
    have := h a (getLastq_mem l a hg)
    simpa [Option.elim] using this

theorem removeDot_shape (p : List Nat) :
    ∃ first mid,
      collapseDupSlashes (removeDotSegments p) = joinWith 47 (first :: mid) ∧
      (¬ 47 ∈ first) ∧ (∀ x ∈ mid, ¬ 47 ∈ x ∧ isDotSeg x = false) ∧
      collapseMid mid = mid := by
  unfold removeDotSegments
  cases hsp : splitOnByte 47 p with
  | nil => exact absurd hsp (splitOn_ne_nil 47 p)
  | cons first tail =>
    have hfirst : ¬ 47 ∈ first := splitOn_no_sep 47 p first (by rw [hsp]; simp)
    have htail : ∀ x ∈ tail, ¬ 47 ∈ x := fun x hx =>
      splitOn_no_sep 47 p x (by rw [hsp]; simp [hx])
    set stack0 := dotStack tail [] with hstack0
    set stackP :=
      if (tail.getLast?).elim false isDotSeg then stack0 ++ [[]] else stack0 with hstackP
    have hstackPfacts : ∀ x ∈ stackP, ¬ 47 ∈ x ∧ isDotSeg x = false := by
      intro x hx
      rw [hstackP] at hx
      have hx0 : x ∈ stack0 ∨ x = [] := by
        split at hx
        · rcases List.mem_append.mp hx with h1 | h1
          · exact Or.inl h1
          · simp only [List.mem_singleton] at h1
            exact Or.inr h1
        · exact Or.inl hx
      rcases hx0 with h1 | rfl
      · rcases dotStack_elems tail [] x h1 with ⟨h2, h3⟩ | h2
        · exact ⟨htail x h2, h3⟩
        · simp at h2
      · exact ⟨by simp, by simp [isDotSeg]⟩
    have hsplitP : splitOnByte 47 (joinWith 47 (first :: stackP)) = first :: stackP := by
      apply split_join
      · simp
      · intro x hx
        rcases List.mem_cons.mp hx with rfl | h1
        · exact hfirst
        · exact (hstackPfacts x h1).1
    refine ⟨first, collapseMid stackP, ?_, hfirst, ?_, collapseMid_idem stackP⟩
    · unfold collapseDupSlashes
      rw [hsplitP, collapseSegs_cons first stackP]
    · intro x hx
      exact hstackPfacts x (collapseMid_sub stackP x hx)

theorem pathNorm_removeDot_idem (p : List Nat) :
    removeDotSegments (collapseDupSlashes (removeDotSegments p)) =
      collapseDupSlashes (removeDotSegments p) := by
  obtain ⟨first, mid, heq, hfirst, hmid, hcm⟩ := removeDot_shape p
  rw [heq]
  unfold removeDotSegments
  have hsplit : splitOnByte 47 (joinWith 47 (first :: mid)) = first :: mid := by
    apply split_join
    · simp
    · intro x hx
      rcases List.mem_cons.mp hx with rfl | h1
      · exact hfirst
      · exact (hmid x h1).1
  rw [hsplit]
  dsimp only
  rw [dotStack_dotfree mid [] (fun x hx => (hmid x hx).2)]
  rw [notDot_getLast mid (fun x hx => (hmid x hx).2)]
  simp

theorem pathNorm_collapse_idem (p : List Nat) :
    collapseDupSlashes (collapseDupSlashes (removeDotSegments p)) =
      collapseDupSlashes (removeDotSegments p) := by
  obtain ⟨first, mid, heq, hfirst, hmid, hcm⟩ := removeDot_shape p
  rw [heq]
  unfold collapseDupSlashes
  have hsplit : splitOnByte 47 (joinWith 47 (first :: mid)) = first :: mid := by
    apply split_join
    · simp
    · intro x hx
      rcases List.mem_cons.mp hx with rfl | h1
      · exact hfirst
      · exact (hmid x h1).1
  rw [hsplit]
  rw [collapseSegs_cons first mid, hcm]

end Urlresolver
namespace Urlresolver

theorem lowerByte_idem (b : Nat) : lowerByte (lowerByte b) = lowerByte b := by
  unfold lowerByte
  split_ifs <;> omega

theorem lowerBytes_idem (s : List Nat) : lowerBytes (lowerBytes s) = lowerBytes s := by
  unfold lowerBytes
  rw [List.map_map]
  exact List.map_congr_left (fun b _ => lowerByte_idem b)

theorem lowerByte_eq_nonletter (c t : Nat) (ht : ¬(97 ≤ t ∧ t ≤ 122) ∧ ¬(65 ≤ t ∧ t ≤ 90)) :
    lowerByte c = t ↔ c = t := by
  unfold lowerByte
  split_ifs with h <;> omega

theorem lowerByte_fix (b : Nat) (h : ¬(65 ≤ b ∧ b ≤ 90)) : lowerByte b = b := by
  unfold lowerByte
  split_ifs <;> omega

theorem lowerBytes_eq_fixed (s t : List Nat)
    (ht : ∀ b ∈ t, ¬(97 ≤ b ∧ b ≤ 122) ∧ ¬(65 ≤ b ∧ b ≤ 90)) :
    lowerBytes s = t ↔ s = t := by
  induction s generalizing t with
  | nil =>
    cases t <;> simp [lowerBytes]
  | cons a s2 ih =>
    cases t with
    | nil => simp [lowerBytes]
    | cons b t2 =>
      simp only [lowerBytes, List.map_cons, List.cons.injEq]
      rw [lowerByte_eq_nonletter a b (ht b (by simp))]
      rw [show (List.map lowerByte s2 = t2) ↔ (lowerBytes s2 = t2) from Iff.rfl]
      rw [ih t2 (fun x hx => ht x (by simp [hx]))]

theorem mem_lower_47 (s : List Nat) : 47 ∈ lowerBytes s ↔ 47 ∈ s := by
  unfold lowerBytes
  constructor
  · intro h
    obtain ⟨b, hb, he⟩ := List.mem_map.mp h
    rwa [(lowerByte_eq_nonletter b 47 (by constructor <;> omega)).mp he] at hb
  · intro h
    exact List.mem_map.mpr ⟨47, h, rfl⟩

theorem splitOn_lower (p : List Nat) :
    splitOnByte 47 (lowerBytes p) = (splitOnByte 47 p).map lowerBytes := by
  induction p with
  | nil => simp [splitOnByte, lowerBytes]
  | cons b rest ih =>
    have hcons : lowerBytes (b :: rest) = lowerByte b :: lowerBytes rest := rfl
    rw [hcons, splitOn_cons, splitOn_cons, ih]
    cases hsp : splitOnByte 47 rest with
    | nil => exact absurd hsp (splitOn_ne_nil 47 rest)
    | cons y ys =>
      simp only [List.map_cons]
      have hcond : (lowerByte b == 47) = (b == 47) := by
        apply Safedialer.boolExt
        simp only [beq_iff_eq]
        exact lowerByte_eq_nonletter b 47 (by constructor <;> omega)
      rw [hcond]
      by_cases hb : (b == 47) = true
      · simp only [hb, if_true]
        simp [lowerBytes]
      · simp only [hb]
        simp [lowerBytes]

theorem joinWith_lower (c : Nat) (hc : ¬(65 ≤ c ∧ c ≤ 90)) (L : List (List Nat)) :
    lowerBytes (joinWith c L) = joinWith c (L.map lowerBytes) := by
  induction L with
  | nil => simp [joinWith, lowerBytes]
  | cons x xs ih =>
    cases xs with
    | nil => simp [joinWith]
    | cons y ys =>
      have h1 : joinWith c (x :: y :: ys) = x ++ c :: joinWith c (y :: ys) := rfl
      have h2 : joinWith c ((x :: y :: ys).map lowerBytes) =
          lowerBytes x ++ c :: joinWith c ((y :: ys).map lowerBytes) := by
        simp only [List.map_cons]
        rfl
      rw [h1, h2, ← ih]
      simp [lowerBytes, lowerByte_fix c hc]

theorem isDotSeg_lower (s : List Nat) : isDotSeg (lowerBytes s) = isDotSeg s := by
  unfold isDotSeg
  have h1 : (lowerBytes s == [46]) = (s == [46]) := by
    apply Safedialer.boolExt
    simp only [beq_iff_eq]
    exact lowerBytes_eq_fixed s [46] (by intro b hb; simp at hb; constructor <;> omega)
  have h2 : (lowerBytes s == [46, 46]) = (s == [46, 46]) := by
    apply Safedialer.boolExt
    simp only [beq_iff_eq]
    exact lowerBytes_eq_fixed s [46, 46] (by intro b hb; simp at hb; constructor <;> omega)
  rw [h1, h2]

theorem dotStack_lower (l acc : List (List Nat)) :
    dotStack (l.map lowerBytes) (acc.map lowerBytes) = (dotStack l acc).map lowerBytes := by
  induction l generalizing acc with
  | nil => simp [dotStack]
  | cons s rest ih =>
    unfold dotStack
    have h2 : (lowerBytes s == [46, 46]) = (s == [46, 46]) := by
      apply Safedialer.boolExt
      simp only [beq_iff_eq]
      exact lowerBytes_eq_fixed s [46, 46] (by intro b hb; simp at hb; constructor <;> omega)
    have h1 : (lowerBytes s == [46]) = (s == [46]) := by
      apply Safedialer.boolExt
      simp only [beq_iff_eq]
      exact lowerBytes_eq_fixed s [46] (by intro b hb; simp at hb; constructor <;> omega)
    simp only [List.map_cons]
    rw [h2, h1]
    by_cases hb2 : (s == [46, 46]) = true
    · simp only [hb2, if_true]
      rw [← List.map_drop lowerBytes acc 1]
      exact ih (acc.drop 1)
    · simp only [hb2]
      by_cases hb1 : (s == [46]) = true
      · simp only [hb1, if_true, if_false]
        exact ih acc
      · simp only [hb1, if_false]
        have : lowerBytes s :: acc.map lowerBytes = (s :: acc).map lowerBytes := rfl
        rw [this]
        exact ih (s :: acc)

theorem removeDot_lower (p : List Nat) :
    removeDotSegments (lowerBytes p) = lowerBytes (removeDotSegments p) := by
  unfold removeDotSegments
  rw [splitOn_lower]
  cases hsp : splitOnByte 47 p with
  | nil => exact absurd hsp (splitOn_ne_nil 47 p)
  | cons first tail =>
    simp only [List.map_cons]
    have hstack : dotStack (tail.map lowerBytes) [] = (dotStack tail []).map lowerBytes := by
      have := dotStack_lower tail []
      simpa using this
    have hguard : ((tail.map lowerBytes).getLast?).elim false isDotSeg =
        (tail.getLast?).elim false isDotSeg := by
      rw [List.getLast?_map lowerBytes tail]
      cases tail.getLast? with
      | none => rfl
      | some a => simpa [Option.elim] using isDotSeg_lower a
    rw [hstack, hguard, joinWith_lower 47 (by omega), List.map_cons,
      apply_ite (List.map lowerBytes), List.map_append,
      show List.map lowerBytes ([[]] : List (List Nat)) = [[]] from rfl]

theorem collapseMid_lower (l : List (List Nat)) :
    collapseMid (l.map lowerBytes) = (collapseMid l).map lowerBytes := by
  induction l with
  | nil => simp [collapseMid]
  | cons y ys ih =>
    cases ys with
    | nil => simp [collapseMid]
    | cons z zs =>
      simp only [List.map_cons] at ih ⊢
      rw [collapseMid_cons, collapseMid_cons]
      have hemp : (lowerBytes y).isEmpty = y.isEmpty := by
        cases y <;> simp [lowerBytes]
      rw [hemp]
      by_cases hy : y.isEmpty = true
      · simp only [hy, if_true]
        exact ih
      · simp only [hy, if_false, List.map_cons]
        simp [ih]

theorem collapse_lower (p : List Nat) :
    collapseDupSlashes (lowerBytes p) = lowerBytes (collapseDupSlashes p) := by
  unfold collapseDupSlashes
  rw [splitOn_lower]
  cases hsp : splitOnByte 47 p with
  | nil => exact absurd hsp (splitOn_ne_nil 47 p)
  | cons first tail =>
    simp only [List.map_cons]
    rw [collapseSegs_cons, collapseSegs_cons, collapseMid_lower]
    rw [joinWith_lower 47 (by omega)]
    simp only [List.map_cons]

end Urlresolver
namespace Urlresolver

theorem hexRound : ∀ b < 256, hexDigitVal (hexUpDigit (b / 16)) = some (b / 16) ∧
    hexDigitVal (hexUpDigit (b % 16)) = some (b % 16) := by decide

theorem hexUp_range : ∀ n < 16, (48 ≤ hexUpDigit n ∧ hexUpDigit n ≤ 57) ∨
    (65 ≤ hexUpDigit n ∧ hexUpDigit n ≤ 70) := by decide

theorem hexDigitVal_lt (c v : Nat) (h : hexDigitVal c = some v) : v < 16 := by
  unfold hexDigitVal at h
  split_ifs at h <;> (injection h with h; omega)

theorem unescape_cons_plain (plus : Bool) (b : Nat) (X : List Nat)
    (hb37 : b ≠ 37) (hb43 : plus = false ∨ b ≠ 43) :
    unescape plus (b :: X) = (unescape plus X).map (fun t => b :: t) := by
  conv_lhs => unfold unescape
  rw [if_neg (by simpa using hb37)]
  by_cases h43 : (b == 43) = true
  · simp only [beq_iff_eq] at h43
    subst h43
    rcases hb43 with rfl | hne
    · simp
    · exact absurd rfl hne
  · rw [if_neg h43]

theorem unescape_pct (plus : Bool) (b : Nat) (hb : b < 256) (X : List Nat) :
    unescape plus (pctEncode b ++ X) = (unescape plus X).map (fun t => b :: t) := by
  obtain ⟨h1, h2⟩ := hexRound b hb
  show unescape plus (37 :: hexUpDigit (b / 16) :: hexUpDigit (b % 16) :: X) = _
  conv_lhs => unfold unescape
  rw [if_pos (by simp)]
  dsimp only
  rw [h1, h2]
  dsimp only
  have h3 : 16 * (b / 16) + b % 16 = b := by omega
  rw [h3]

theorem pathKeep_range (b : Nat) (h : pathKeepByte b = true) :
    33 ≤ b ∧ b ≤ 126 ∧ b ≠ 35 ∧ b ≠ 63 := by
  simp only [pathKeepByte, isAlphaNum, isUnreservedMark, Bool.or_eq_true, Bool.and_eq_true,
    beq_iff_eq, decide_eq_true_eq] at h
  omega

theorem queryKeep_range (b : Nat) (h : queryKeepByte b = true) :
    33 ≤ b ∧ b ≤ 126 ∧ b ≠ 35 ∧ b ≠ 63 ∧ b ≠ 38 ∧ b ≠ 61 ∧ b ≠ 59 ∧ b ≠ 37 ∧ b ≠ 43 := by
  simp only [queryKeepByte, isAlphaNum, isUnreservedMark, Bool.or_eq_true, Bool.and_eq_true,
    beq_iff_eq, decide_eq_true_eq] at h
  omega

theorem pctEncode_bytes (b : Nat) (hb : b < 256) :
    ∀ x ∈ pctEncode b, 33 ≤ x ∧ x ≤ 126 ∧ x ≠ 35 ∧ x ≠ 63 ∧ x ≠ 38 ∧ x ≠ 61 ∧ x ≠ 59 ∧
      x ≠ 47 := by
  intro x hx
  have hd1 := hexUp_range (b / 16) (by omega)
  have hd2 := hexUp_range (b % 16) (by omega)
  simp only [pctEncode, List.mem_cons, List.not_mem_nil, or_false] at hx
  rcases hx with rfl | rfl | rfl <;> omega

theorem pathEscape_bytes (s : List Nat) (hs : ∀ b ∈ s, b < 256) :
    ∀ x ∈ pathEscape s, 33 ≤ x ∧ x ≤ 126 ∧ x ≠ 35 ∧ x ≠ 63 := by
  induction s with
  | nil => simp [pathEscape, bytesConcatMap]
  | cons b rest ih =>
    intro x hx
    have hx2 : x ∈ pathEscapeByte b ∨ x ∈ pathEscape rest := by
      have : pathEscape (b :: rest) = pathEscapeByte b ++ pathEscape rest := rfl
      rw [this] at hx
      exact List.mem_append.mp hx
    rcases hx2 with hx2 | hx2
    · unfold pathEscapeByte at hx2
      split at hx2
      · simp only [List.mem_singleton] at hx2
        subst hx2
        exact pathKeep_range x (by assumption)
      · have := pctEncode_bytes b (hs b (by simp)) x hx2
        omega
    · exact ih (fun y hy => hs y (by simp [hy])) x hx2

theorem queryEscape_bytes (s : List Nat) (hs : ∀ b ∈ s, b < 256) :
    ∀ x ∈ queryEscape s, 33 ≤ x ∧ x ≤ 126 ∧ x ≠ 35 ∧ x ≠ 63 ∧ x ≠ 38 ∧ x ≠ 61 ∧ x ≠ 59 := by
  induction s with
  | nil => simp [queryEscape, bytesConcatMap]
  | cons b rest ih =>
    intro x hx
    have hx2 : x ∈ queryEscapeByte b ∨ x ∈ queryEscape rest := by
      have : queryEscape (b :: rest) = queryEscapeByte b ++ queryEscape rest := rfl
      rw [this] at hx
      exact List.mem_append.mp hx
    rcases hx2 with hx2 | hx2
    · unfold queryEscapeByte at hx2
      split at hx2
      · simp only [List.mem_singleton] at hx2
        subst hx2
        have := queryKeep_range x (by assumption)
        omega
      · split at hx2
        · simp only [List.mem_singleton] at hx2
          omega
        · have := pctEncode_bytes b (hs b (by simp)) x hx2
          omega
    · exact ih (fun y hy => hs y (by simp [hy])) x hx2

theorem unescape_pathEscape (s : List Nat) (hs : ∀ b ∈ s, b < 256) :
    unescape false (pathEscape s) = some s := by
  induction s with
  | nil => rfl
  | cons b rest ih =>
    have hb : b < 256 := hs b (by simp)
    have hcons : pathEscape (b :: rest) = pathEscapeByte b ++ pathEscape rest := rfl
    rw [hcons]
    unfold pathEscapeByte
    split
    · rename_i hkeep
      have h37 : b ≠ 37 := by
        intro h
        subst h
        simp [pathKeepByte, isAlphaNum, isUnreservedMark] at hkeep
      rw [show ([b] : List Nat) ++ pathEscape rest = b :: pathEscape rest from rfl]
      rw [unescape_cons_plain false b _ h37 (Or.inl rfl)]
      rw [ih (fun y hy => hs y (by simp [hy]))]
      rfl
    · rw [unescape_pct false b hb]
      rw [ih (fun y hy => hs y (by simp [hy]))]
      rfl

theorem unescape_queryEscape (s : List Nat) (hs : ∀ b ∈ s, b < 256) :
    unescape true (queryEscape s) = some s := by
  induction s with
  | nil => rfl
  | cons b rest ih =>
    have hb : b < 256 := hs b (by simp)
    have hcons : queryEscape (b :: rest) = queryEscapeByte b ++ queryEscape rest := rfl
    rw [hcons]
    unfold queryEscapeByte
    split
    · rename_i hkeep
      have hk := queryKeep_range b hkeep
      rw [show ([b] : List Nat) ++ queryEscape rest = b :: queryEscape rest from rfl]
      rw [unescape_cons_plain true b _ (by omega) (Or.inr (by omega))]
      rw [ih (fun y hy => hs y (by simp [hy]))]
      rfl
    · split
      · rename_i hnk hsp
        simp only [beq_iff_eq] at hsp
        subst hsp
        rw [show ([43] : List Nat) ++ queryEscape rest = 43 :: queryEscape rest from rfl]
        have : unescape true (43 :: queryEscape rest) =
            (unescape true (queryEscape rest)).map (fun t => 32 :: t) := by
          conv_lhs => unfold unescape
          rw [if_neg (by simp), if_pos (by simp)]
          simp
        rw [this, ih (fun y hy => hs y (by simp [hy]))]
        rfl
      · rw [unescape_pct true b hb]
        rw [ih (fun y hy => hs y (by simp [hy]))]
        rfl

theorem unescape_bound (plus : Bool) :
    ∀ n (q : List Nat), q.length ≤ n → ∀ t, unescape plus q = some t →
      (∀ b ∈ q, b < 256) → ∀ b ∈ t, b < 256 := by
  intro n
  induction n with
  | zero =>
    intro q hlen t h hq
    rcases q with _ | ⟨c, rest⟩
    · simp only [unescape] at h
      injection h with h
      subst h
      simp
    · simp at hlen
  | succ n ih =>
    intro q hlen t h hq
    rcases q with _ | ⟨c, rest⟩
    · simp only [unescape] at h
      injection h with h
      subst h
      simp
    · unfold unescape at h
      split at h
      · rcases rest with _ | ⟨h1, _ | ⟨h2, rest2⟩⟩
        · exact absurd h (by simp)
        · exact absurd h (by simp)
        · dsimp only at h
          rcases hv1 : hexDigitVal h1 with _ | v1 <;> rw [hv1] at h
          · exact absurd h (by simp)
          · rcases hv2 : hexDigitVal h2 with _ | v2 <;> rw [hv2] at h
            · exact absurd h (by simp)
            · rcases hrec : unescape plus rest2 with _ | t2 <;> rw [hrec] at h
              · exact absurd h (by simp)
              · simp only [Option.map] at h
                injection h with h
                subst h
                intro b hb
                rcases List.mem_cons.mp hb with rfl | hb
                · have := hexDigitVal_lt h1 v1 hv1
                  have := hexDigitVal_lt h2 v2 hv2
                  omega
                · refine ih rest2 (by simp at hlen; omega) t2 hrec ?_ b hb
                  intro y hy
                  exact hq y (by simp [hy])
      · split at h
        · rcases hrec : unescape plus rest with _ | t2 <;> rw [hrec] at h
          · exact absurd h (by simp)
          · simp only [Option.map] at h
            injection h with h
            subst h
            intro b hb
            rcases List.mem_cons.mp hb with rfl | hb
            · split <;> omega
            · refine ih rest (by simp at hlen; omega) t2 hrec ?_ b hb
              intro y hy
              exact hq y (by simp [hy])
        · rcases hrec : unescape plus rest with _ | t2 <;> rw [hrec] at h
          · exact absurd h (by simp)
          · simp only [Option.map] at h
            injection h with h
            subst h
            intro b hb
            rcases List.mem_cons.mp hb with rfl | hb
            · exact hq b (by simp)
            · refine ih rest (by simp at hlen; omega) t2 hrec ?_ b hb
              intro y hy
              exact hq y (by simp [hy])

end Urlresolver
namespace Urlresolver

theorem contains_false (l : List Nat) (a : Nat) (h : ¬ a ∈ l) : l.contains a = false := by
  cases hcv : l.contains a
  · rfl
  · exact absurd (List.elem_iff.mp hcv) h

theorem isEmpty_append_cons (s : List Nat) (c : Nat) (t : List Nat) :
    (s ++ c :: t).isEmpty = false := by
  cases s <;> rfl

theorem valuesAdd_new (vs : Values) (k v : List Nat)
    (hk : ∀ kv ∈ vs, kv.1 ≠ k) : valuesAdd vs k v = vs ++ [(k, [v])] := by
  induction vs with
  | nil => rfl
  | cons p rest ih =>
    obtain ⟨k0, vs0⟩ := p
    unfold valuesAdd
    rw [if_neg (by simp only [beq_iff_eq]; exact hk (k0, vs0) (by simp))]
    rw [ih (fun kv hkv => hk kv (by simp [hkv]))]
    rfl

theorem valuesAdd_last (vs0 : Values) (k : List Nat) (l : List (List Nat)) (v : List Nat)
    (hk : ∀ kv ∈ vs0, kv.1 ≠ k) :
    valuesAdd (vs0 ++ [(k, l)]) k v = vs0 ++ [(k, l ++ [v])] := by
  induction vs0 with
  | nil =>
    show valuesAdd [(k, l)] k v = [(k, l ++ [v])]
    unfold valuesAdd
    rw [if_pos (by simp)]
  | cons p rest ih =>
    obtain ⟨k0, l0⟩ := p
    show valuesAdd ((k0, l0) :: (rest ++ [(k, l)])) k v = _
    unfold valuesAdd
    rw [if_neg (by simp only [beq_iff_eq]; exact hk (k0, l0) (by simp))]
    rw [ih (fun kv hkv => hk kv (by simp [hkv]))]
    rfl

theorem valuesAdd_keys (m : Values) (k v : List Nat) :
    ∀ kv ∈ valuesAdd m k v, kv.1 = k ∨ ∃ kv2 ∈ m, kv.1 = kv2.1 := by
  induction m with
  | nil =>
    intro kv hkv
    simp only [valuesAdd, List.mem_singleton] at hkv
    subst hkv
    exact Or.inl rfl
  | cons p rest ih =>
    obtain ⟨k0, l0⟩ := p
    intro kv hkv
    unfold valuesAdd at hkv
    by_cases h : (k0 == k) = true
    · rw [if_pos h] at hkv
      rcases List.mem_cons.mp hkv with rfl | hkv
      · exact Or.inr ⟨(k0, l0), by simp, rfl⟩
      · exact Or.inr ⟨kv, by simp [hkv], rfl⟩
    · rw [if_neg h] at hkv
      rcases List.mem_cons.mp hkv with rfl | hkv
      · exact Or.inr ⟨(k0, l0), by simp, rfl⟩
      · rcases ih kv hkv with h1 | ⟨kv2, hkv2, h2⟩
        · exact Or.inl h1
        · exact Or.inr ⟨kv2, by simp [hkv2], h2⟩

theorem valuesAdd_vals (m : Values) (k v : List Nat) (hm : ∀ kv ∈ m, kv.2 ≠ []) :
    ∀ kv ∈ valuesAdd m k v, kv.2 ≠ [] := by
  induction m with
  | nil =>
    intro kv hkv
    simp only [valuesAdd, List.mem_singleton] at hkv
    subst hkv
    simp
  | cons p rest ih =>
    obtain ⟨k0, l0⟩ := p
    intro kv hkv
    unfold valuesAdd at hkv
    by_cases h : (k0 == k) = true
    · rw [if_pos h] at hkv
      rcases List.mem_cons.mp hkv with rfl | hkv
      · simp
      · exact hm kv (by simp [hkv])
    · rw [if_neg h] at hkv
      rcases List.mem_cons.mp hkv with rfl | hkv
      · exact hm (k0, l0) (by simp)
      · exact ih (fun kv2 hkv2 => hm kv2 (by simp [hkv2])) kv hkv

theorem valuesAdd_pairwise (m : Values) (k v : List Nat)
    (hm : List.Pairwise (fun a b => a.1 ≠ b.1) m) :
    List.Pairwise (fun a b => a.1 ≠ b.1) (valuesAdd m k v) := by
  induction m with
  | nil => simp [valuesAdd]
  | cons p rest ih =>
    obtain ⟨k0, l0⟩ := p
    rw [List.pairwise_cons] at hm
    obtain ⟨hhead, htail⟩ := hm
    unfold valuesAdd
    by_cases h : (k0 == k) = true
    · rw [if_pos h]
      exact List.pairwise_cons.mpr ⟨fun b hb => hhead b hb, htail⟩
    · rw [if_neg h]
      refine List.pairwise_cons.mpr ⟨?_, ih htail⟩
      intro b hb
      rcases valuesAdd_keys rest k v b hb with h1 | ⟨kv2, hkv2, h2⟩
      · rw [h1]
        simp only [beq_iff_eq] at h
        exact h
      · rw [h2]
        exact hhead kv2 hkv2

theorem valuesAdd_bounds (m : Values) (k v : List Nat)
    (hm : ∀ kv ∈ m, (∀ b ∈ kv.1, b < 256) ∧ ∀ x ∈ kv.2, ∀ b ∈ x, b < 256)
    (hk : ∀ b ∈ k, b < 256) (hv : ∀ b ∈ v, b < 256) :
    ∀ kv ∈ valuesAdd m k v, (∀ b ∈ kv.1, b < 256) ∧ ∀ x ∈ kv.2, ∀ b ∈ x, b < 256 := by
  induction m with
  | nil =>
    intro kv hkv
    simp only [valuesAdd, List.mem_singleton] at hkv
    subst hkv
    refine ⟨hk, ?_⟩
    intro x hx
    simp only [List.mem_singleton] at hx
    subst hx
    exact hv
  | cons p rest ih =>
    obtain ⟨k0, l0⟩ := p
    intro kv hkv
    unfold valuesAdd at hkv
    by_cases h : (k0 == k) = true
    · rw [if_pos h] at hkv
      rcases List.mem_cons.mp hkv with rfl | hkv
      · refine ⟨(hm (k0, l0) (by simp)).1, ?_⟩
        intro x hx
        rcases List.mem_append.mp hx with hx | hx
        · exact (hm (k0, l0) (by simp)).2 x hx
        · simp only [List.mem_singleton] at hx
          subst hx
          exact hv
      · exact hm kv (by simp [hkv])
    · rw [if_neg h] at hkv
      rcases List.mem_cons.mp hkv with rfl | hkv
      · exact hm (k0, l0) (by simp)
      · exact ih (fun kv2 hkv2 => hm kv2 (by simp [hkv2])) kv hkv

theorem cutAtFirst_no_sep (s : List Nat) (c : Nat) (h : ¬ c ∈ s) :
    cutAtFirst s c = (s, []) := by
  induction s with
  | nil => rfl
  | cons b rest ih =>
    unfold cutAtFirst
    rw [if_neg (by simp only [beq_iff_eq]; intro he; exact h (by simp [he]))]
    dsimp only
    rw [ih (fun hc => h (by simp [hc]))]

theorem cutAtFirst_append (s t : List Nat) (c : Nat) (hs : ¬ c ∈ s) :
    cutAtFirst (s ++ c :: t) c = (s, t) := by
  induction s with
  | nil =>
    show cutAtFirst (c :: t) c = ([], t)
    unfold cutAtFirst
    rw [if_pos (by simp)]
  | cons b rest ih =>
    show cutAtFirst (b :: (rest ++ c :: t)) c = _
    unfold cutAtFirst
    rw [if_neg (by simp only [beq_iff_eq]; intro he; exact hs (by simp [he]))]
    dsimp only
    rw [ih (fun hc => hs (by simp [hc]))]

theorem parseQuerySeg_pair (m : Values) (k v : List Nat)
    (hk : ∀ b ∈ k, b < 256) (hv : ∀ b ∈ v, b < 256) :
    parseQuerySeg m (queryEscape k ++ 61 :: queryEscape v) = valuesAdd m k v := by
  have hbk := queryEscape_bytes k hk
  have hbv := queryEscape_bytes v hv
  have hno59 : ¬ (59 : Nat) ∈ (queryEscape k ++ 61 :: queryEscape v) := by
    intro hmem
    rcases List.mem_append.mp hmem with hmem | hmem
    · have := hbk 59 hmem
      omega
    · rcases List.mem_cons.mp hmem with h | hmem
      · omega
      · have := hbv 59 hmem
        omega
  have hcut : cutAtFirst (queryEscape k ++ 61 :: queryEscape v) 61 =
      (queryEscape k, queryEscape v) :=
    cutAtFirst_append _ _ _ (fun hmem => by have := hbk 61 hmem; omega)
  unfold parseQuerySeg
  rw [if_neg (by rw [contains_false _ _ hno59]; simp)]
  rw [if_neg (by rw [isEmpty_append_cons]; simp)]
  rw [hcut]
  dsimp only
  rw [unescape_queryEscape k hk, unescape_queryEscape v hv]

theorem foldl_group (k : List Nat) (vs0 : Values)
    (hk : ∀ kv ∈ vs0, kv.1 ≠ k) (hkb : ∀ b ∈ k, b < 256) :
    ∀ (vals : List (List Nat)), (∀ v ∈ vals, ∀ b ∈ v, b < 256) →
    ∀ pre, List.foldl parseQuerySeg (vs0 ++ [(k, pre)])
      (vals.map (fun v => queryEscape k ++ 61 :: queryEscape v)) =
      vs0 ++ [(k, pre ++ vals)] := by
  intro vals
  induction vals with
  | nil =>
    intro _ pre
    simp
  | cons v vs' ih =>
    intro hvb pre
    rw [List.map_cons, List.foldl_cons, parseQuerySeg_pair _ k v hkb (hvb v (by simp)),
      valuesAdd_last vs0 k pre v hk,
      ih (fun v' hv' => hvb v' (by simp [hv'])) (pre ++ [v]), List.append_assoc]
    rfl

theorem encodePairs_mem (ws : Values) :
    ∀ part ∈ encodePairs ws, ∃ kv, kv ∈ ws ∧ ∃ v ∈ kv.2,
      part = queryEscape kv.1 ++ 61 :: queryEscape v := by
  induction ws with
  | nil => simp [encodePairs]
  | cons p rest ih =>
    obtain ⟨k, vals⟩ := p
    intro part hpart
    rw [show encodePairs ((k, vals) :: rest) =
        vals.map (fun v => queryEscape k ++ 61 :: queryEscape v) ++ encodePairs rest from rfl]
      at hpart
    rcases List.mem_append.mp hpart with h | h
    · obtain ⟨v, hv, rfl⟩ := List.mem_map.mp h
      exact ⟨(k, vals), by simp, v, hv, rfl⟩
    · obtain ⟨kv, hkv, hrest⟩ := ih part h
      exact ⟨kv, by simp [hkv], hrest⟩

theorem foldl_groups :
    ∀ (ws : Values) (vs0 : Values),
    (∀ kv ∈ ws, ∀ kv0 ∈ vs0, kv0.1 ≠ kv.1) →
    List.Pairwise (fun a b => a.1 ≠ b.1) ws →
    (∀ kv ∈ ws, kv.2 ≠ []) →
    (∀ kv ∈ ws, (∀ b ∈ kv.1, b < 256) ∧ ∀ v ∈ kv.2, ∀ b ∈ v, b < 256) →
    List.foldl parseQuerySeg vs0 (encodePairs ws) = vs0 ++ ws := by
  intro ws
  induction ws with
  | nil =>
    intro vs0 _ _ _ _
    simp [encodePairs]
  | cons p rest ih =>
    obtain ⟨k, vals⟩ := p
    intro vs0 hdisj hpw hne hb
    rcases vals with _ | ⟨v0, vals'⟩
    · exact absurd rfl (hne (k, []) (by simp))
    · have hkb : ∀ b ∈ k, b < 256 := (hb (k, v0 :: vals') (by simp)).1
      have hvb : ∀ v ∈ v0 :: vals', ∀ b ∈ v, b < 256 := (hb (k, v0 :: vals') (by simp)).2
      have hkdisj : ∀ kv0 ∈ vs0, kv0.1 ≠ k :=
        fun kv0 hkv0 => hdisj (k, v0 :: vals') (by simp) kv0 hkv0
      have hdisj2 : ∀ kv ∈ rest, ∀ kv0 ∈ vs0 ++ [(k, v0 :: vals')], kv0.1 ≠ kv.1 := by
        intro kv hkv kv0 hkv0
        rcases List.mem_append.mp hkv0 with h0 | h0
        · exact hdisj kv (by simp [hkv]) kv0 h0
        · simp only [List.mem_singleton] at h0
          subst h0
          exact (List.pairwise_cons.mp hpw).1 kv hkv
      show List.foldl parseQuerySeg vs0
        ((v0 :: vals').map (fun v => queryEscape k ++ 61 :: queryEscape v) ++
          encodePairs rest) = _
      rw [List.foldl_append, List.map_cons, List.foldl_cons,
        parseQuerySeg_pair vs0 k v0 hkb (hvb v0 (by simp)),
        valuesAdd_new vs0 k v0 hkdisj,
        foldl_group k vs0 hkdisj hkb vals' (fun v hv => hvb v (by simp [hv])) [v0],
        List.singleton_append,
        ih (vs0 ++ [(k, v0 :: vals')]) hdisj2 (List.pairwise_cons.mp hpw).2
          (fun kv hkv => hne kv (by simp [hkv])) (fun kv hkv => hb kv (by simp [hkv])),
        List.append_assoc]
      rfl

theorem parseQuery_join (ws : Values)
    (hpw : List.Pairwise (fun a b => a.1 ≠ b.1) ws)
    (hne : ∀ kv ∈ ws, kv.2 ≠ [])
    (hb : ∀ kv ∈ ws, (∀ b ∈ kv.1, b < 256) ∧ ∀ v ∈ kv.2, ∀ b ∈ v, b < 256) :
    parseQuery (joinWith 38 (encodePairs ws)) = ws := by
  cases ws with
  | nil => rfl
  | cons p rest =>
    obtain ⟨k, vals⟩ := p
    cases vals with
    | nil => exact absurd rfl (hne (k, []) (by simp))
    | cons v0 vals' =>
      have hnoamp : ∀ part ∈ encodePairs ((k, v0 :: vals') :: rest), ¬ (38 : Nat) ∈ part := by
        intro part hpart hmem
        obtain ⟨kv, hkv, v, hv, rfl⟩ := encodePairs_mem _ part hpart
        rcases List.mem_append.mp hmem with h | h
        · have := queryEscape_bytes kv.1 (hb kv hkv).1 38 h
          omega
        · rcases List.mem_cons.mp h with h | h
          · omega
          · have := queryEscape_bytes v ((hb kv hkv).2 v hv) 38 h
            omega
      have hnonnil : encodePairs ((k, v0 :: vals') :: rest) ≠ [] := by
        simp [encodePairs]
      unfold parseQuery
      rw [split_join 38 _ hnonnil hnoamp,
        foldl_groups _ [] (by simp) hpw hne hb]
      rfl

theorem insertByKey_perm (p : List Nat × List (List Nat)) (l : Values) :
    List.Perm (insertByKey p l) (p :: l) := by
  induction l with
  | nil => exact List.Perm.refl _
  | cons q rest ih =>
    unfold insertByKey
    by_cases h : lexLe p.1 q.1 = true
    · rw [if_pos h]
    · rw [if_neg h]
      exact List.Perm.trans (List.Perm.cons q ih) (List.Perm.swap p q rest)

theorem sortByKey_perm (l : Values) : List.Perm (sortByKey l) l := by
  induction l with
  | nil => exact List.Perm.refl _
  | cons p rest ih =>
    exact List.Perm.trans (insertByKey_perm p (sortByKey rest)) (List.Perm.cons p ih)

theorem parseQuery_encode (vs : Values)
    (hpw : List.Pairwise (fun a b => a.1 ≠ b.1) vs)
    (hne : ∀ kv ∈ vs, kv.2 ≠ [])
    (hb : ∀ kv ∈ vs, (∀ b ∈ kv.1, b < 256) ∧ ∀ v ∈ kv.2, ∀ b ∈ v, b < 256) :
    parseQuery (encodeValues vs) = sortByKey vs := by
  have hperm := sortByKey_perm vs
  exact parseQuery_join (sortByKey vs)
    ((hperm.pairwise_iff (fun h he => h he.symm)).mpr hpw)
    (fun kv hkv => hne kv (hperm.mem_iff.mp hkv))
    (fun kv hkv => hb kv (hperm.mem_iff.mp hkv))

end Urlresolver
namespace Urlresolver

theorem lexLe_cons (x y : Nat) (xs ys : List Nat) :
    lexLe (x :: xs) (y :: ys) = (Nat.blt x y || (x == y && lexLe xs ys)) := rfl

theorem lexLe_total (a b : List Nat) : lexLe a b = true ∨ lexLe b a = true := by
  induction a generalizing b with
  | nil => exact Or.inl rfl
  | cons x xs ih =>
    cases b with
    | nil => exact Or.inr rfl
    | cons y ys =>
      rw [lexLe_cons, lexLe_cons]
      simp only [Bool.or_eq_true, Bool.and_eq_true, beq_iff_eq, Nat.blt_eq]
      rcases Nat.lt_trichotomy x y with h | h | h
      · exact Or.inl (Or.inl h)
      · subst h
        rcases ih ys with h2 | h2
        · exact Or.inl (Or.inr ⟨rfl, h2⟩)
        · exact Or.inr (Or.inr ⟨rfl, h2⟩)
      · exact Or.inr (Or.inl h)

theorem insertByKey_head (p : List Nat × List (List Nat)) (l : Values)
    (r : List Nat × List (List Nat)) (rs : Values)
    (h : insertByKey p l = r :: rs) : r = p ∨ l.head? = some r := by
  cases l with
  | nil =>
    left
    injection h with h1 _
    exact h1.symm
  | cons q rest =>
    unfold insertByKey at h
    by_cases hc : lexLe p.1 q.1 = true
    · rw [if_pos hc] at h
      left
      injection h with h1 _
      exact h1.symm
    · rw [if_neg hc] at h
      right
      injection h with h1 _
      rw [h1]
      rfl

theorem insertByKey_chain (p : List Nat × List (List Nat)) (l : Values)
    (hl : List.Chain' (fun a b => lexLe a.1 b.1 = true) l) :
    List.Chain' (fun a b => lexLe a.1 b.1 = true) (insertByKey p l) := by
  induction l with
  | nil => simp [insertByKey]
  | cons q rest ih =>
    unfold insertByKey
    by_cases h : lexLe p.1 q.1 = true
    · rw [if_pos h]
      exact List.chain'_cons.mpr ⟨h, hl⟩
    · rw [if_neg h]
      have hqp : lexLe q.1 p.1 = true := by
        rcases lexLe_total p.1 q.1 with h2 | h2
        · exact absurd h2 h
        · exact h2
      have hins := ih hl.tail
      cases hrest2 : insertByKey p rest with
      | nil => simp
      | cons r rs =>
        rw [List.chain'_cons]
        constructor
        · rcases insertByKey_head p rest r rs hrest2 with rfl | hhead
          · exact hqp
          · cases rest with
            | nil => simp at hhead
            | cons r0 rest' =>
              have : r0 = r := by
                simp only [List.head?] at hhead
                injection hhead
              subst this
              exact (List.chain'_cons.mp hl).1
        · rw [← hrest2]
          exact hins

theorem sortByKey_chain (l : Values) :
    List.Chain' (fun a b => lexLe a.1 b.1 = true) (sortByKey l) := by
  induction l with
  | nil => simp [sortByKey]
  | cons p rest ih => exact insertByKey_chain p _ ih

theorem sortByKey_of_chain (l : Values)
    (hl : List.Chain' (fun a b => lexLe a.1 b.1 = true) l) : sortByKey l = l := by
  induction l with
  | nil => rfl
  | cons p rest ih =>
    show insertByKey p (sortByKey rest) = p :: rest
    rw [ih hl.tail]
    cases rest with
    | nil => rfl
    | cons q rest' =>
      show insertByKey p (q :: rest') = _
      unfold insertByKey
      rw [if_pos (List.chain'_cons.mp hl).1]

theorem sortByKey_idem (l : Values) : sortByKey (sortByKey l) = sortByKey l :=
  sortByKey_of_chain _ (sortByKey_chain l)

theorem splitOn_mem_sub (c : Nat) (s : List Nat) :
    ∀ x ∈ splitOnByte c s, ∀ b ∈ x, b ∈ s := by
  induction s with
  | nil =>
    intro x hx
    simp only [splitOnByte, List.mem_singleton] at hx
    subst hx
    simp
  | cons a rest ih =>
    intro x hx
    rw [splitOn_cons] at hx
    cases hsp : splitOnByte c rest with
    | nil => exact absurd hsp (splitOn_ne_nil c rest)
    | cons y ys =>
      rw [hsp] at hx
      cases hac : (a == c) with
      | true =>
        simp only [hac, if_true, List.mem_cons] at hx
        rcases hx with rfl | hx
        · intro b hb
          simp at hb
        · intro b hb
          have := ih x (by rw [hsp]; simp [hx]) b hb
          simp [this]
      | false =>
        simp only [hac, Bool.false_eq_true, if_false, List.mem_cons] at hx
        rcases hx with rfl | hx
        · intro b hb
          rcases List.mem_cons.mp hb with rfl | hb
          · simp
          · have := ih y (by rw [hsp]; simp) b hb
            simp [this]
        · intro b hb
          have := ih x (by rw [hsp]; simp [hx]) b hb
          simp [this]

theorem cutAtFirst_sub (s : List Nat) (c : Nat) :
    (∀ b ∈ (cutAtFirst s c).1, b ∈ s) ∧ (∀ b ∈ (cutAtFirst s c).2, b ∈ s) := by
  induction s with
  | nil =>
    constructor <;> intro b hb <;> simp [cutAtFirst] at hb
  | cons a rest ih =>
    unfold cutAtFirst
    by_cases h : (a == c) = true
    · rw [if_pos h]
      constructor
      · intro b hb
        simp at hb
      · intro b hb
        exact List.mem_cons.mpr (Or.inr hb)
    · rw [if_neg h]
      dsimp only
      constructor
      · intro b hb
        rcases List.mem_cons.mp hb with rfl | hb
        · simp
        · exact List.mem_cons.mpr (Or.inr (ih.1 b hb))
      · intro b hb
        exact List.mem_cons.mpr (Or.inr (ih.2 b hb))

theorem parseQuerySeg_inv (m : Values) (seg : List Nat) (hseg : ∀ b ∈ seg, b < 256)
    (h1 : List.Pairwise (fun a b => a.1 ≠ b.1) m)
    (h2 : ∀ kv ∈ m, kv.2 ≠ [])
    (h3 : ∀ kv ∈ m, (∀ b ∈ kv.1, b < 256) ∧ ∀ x ∈ kv.2, ∀ b ∈ x, b < 256) :
    List.Pairwise (fun a b => a.1 ≠ b.1) (parseQuerySeg m seg) ∧
    (∀ kv ∈ parseQuerySeg m seg, kv.2 ≠ []) ∧
    (∀ kv ∈ parseQuerySeg m seg, (∀ b ∈ kv.1, b < 256) ∧
      ∀ x ∈ kv.2, ∀ b ∈ x, b < 256) := by
  unfold parseQuerySeg
  split_ifs with hc he
  · exact ⟨h1, h2, h3⟩
  · exact ⟨h1, h2, h3⟩
  · split
    · rename_i k v hk hv
      have hkb : ∀ b ∈ k, b < 256 :=
        unescape_bound true ((cutAtFirst seg 61).1).length (cutAtFirst seg 61).1 le_rfl
          k hk (fun b hb => hseg b ((cutAtFirst_sub seg 61).1 b hb))
      have hvb : ∀ b ∈ v, b < 256 :=
        unescape_bound true ((cutAtFirst seg 61).2).length (cutAtFirst seg 61).2 le_rfl
          v hv (fun b hb => hseg b ((cutAtFirst_sub seg 61).2 b hb))
      exact ⟨valuesAdd_pairwise m k v h1, valuesAdd_vals m k v h2,
        valuesAdd_bounds m k v h3 hkb hvb⟩
    · exact ⟨h1, h2, h3⟩

theorem foldl_parseQuerySeg_inv (segs : List (List Nat)) :
    ∀ m, (∀ seg ∈ segs, ∀ b ∈ seg, b < 256) →
    (List.Pairwise (fun a b => a.1 ≠ b.1) m ∧
      (∀ kv ∈ m, kv.2 ≠ []) ∧
      (∀ kv ∈ m, (∀ b ∈ kv.1, b < 256) ∧ ∀ x ∈ kv.2, ∀ b ∈ x, b < 256)) →
    List.Pairwise (fun a b => a.1 ≠ b.1) (List.foldl parseQuerySeg m segs) ∧
    (∀ kv ∈ List.foldl parseQuerySeg m segs, kv.2 ≠ []) ∧
    (∀ kv ∈ List.foldl parseQuerySeg m segs, (∀ b ∈ kv.1, b < 256) ∧
      ∀ x ∈ kv.2, ∀ b ∈ x, b < 256) := by
  induction segs with
  | nil =>
    intro m _ hm
    exact hm
  | cons seg rest ih =>
    intro m hb hm
    rw [List.foldl_cons]
    exact ih (parseQuerySeg m seg) (fun s hs => hb s (by simp [hs]))
      (parseQuerySeg_inv m seg (hb seg (by simp)) hm.1 hm.2.1 hm.2.2)

theorem parseQuery_inv (q : List Nat) (hq : ∀ b ∈ q, b < 256) :
    List.Pairwise (fun a b => a.1 ≠ b.1) (parseQuery q) ∧
    (∀ kv ∈ parseQuery q, kv.2 ≠ []) ∧
    (∀ kv ∈ parseQuery q, (∀ b ∈ kv.1, b < 256) ∧
      ∀ x ∈ kv.2, ∀ b ∈ x, b < 256) := by
  unfold parseQuery
  exact foldl_parseQuerySeg_inv (splitOnByte 38 q) []
    (fun seg hseg b hb => hq b (splitOn_mem_sub 38 q seg hseg b hb))
    ⟨List.Pairwise.nil, by simp, by simp⟩

end Urlresolver
namespace Urlresolver

theorem joinWith_mem (c : Nat) (L : List (List Nat)) :
    ∀ b ∈ joinWith c L, b = c ∨ ∃ x ∈ L, b ∈ x := by
  induction L with
  | nil => simp [joinWith]
  | cons x xs ih =>
    cases xs with
    | nil =>
      intro b hb
      exact Or.inr ⟨x, by simp, hb⟩
    | cons y ys =>
      intro b hb
      rw [show joinWith c (x :: y :: ys) = x ++ c :: joinWith c (y :: ys) from rfl] at hb
      rcases List.mem_append.mp hb with h | h
      · exact Or.inr ⟨x, by simp, h⟩
      · rcases List.mem_cons.mp h with rfl | h
        · exact Or.inl rfl
        · rcases ih b h with h1 | ⟨z, hz, hbz⟩
          · exact Or.inl h1
          · exact Or.inr ⟨z, by simp [hz], hbz⟩

theorem idxOf_none_of_not_mem (s : List Nat) (c : Nat) (h : ¬ c ∈ s) :
    idxOf s c = none := by
  induction s with
  | nil => rfl
  | cons b rest ih =>
    unfold idxOf
    rw [if_neg (by simp only [beq_iff_eq]; intro he; exact h (by simp [he]))]
    rw [ih (fun hc => h (by simp [hc]))]

theorem idxOf_append (a b : List Nat) (c : Nat) (ha : ¬ c ∈ a) :
    idxOf (a ++ c :: b) c = some a.length := by
  induction a with
  | nil =>
    show idxOf (c :: b) c = some 0
    unfold idxOf
    rw [if_pos (by simp)]
  | cons x rest ih =>
    show idxOf (x :: (rest ++ c :: b)) c = some (rest.length + 1)
    unfold idxOf
    rw [if_neg (by simp only [beq_iff_eq]; intro he; exact ha (by simp [he]))]
    rw [ih (fun hc => ha (by simp [hc]))]

theorem idxOf_some (s : List Nat) (c : Nat) :
    ∀ i, idxOf s c = some i → (∃ t, s.drop i = c :: t) ∧ ¬ c ∈ s.take i := by
  induction s with
  | nil =>
    intro i h
    simp [idxOf] at h
  | cons b rest ih =>
    intro i h
    unfold idxOf at h
    by_cases hbc : (b == c) = true
    · rw [if_pos hbc] at h
      injection h with h
      subst h
      simp only [beq_iff_eq] at hbc
      subst hbc
      exact ⟨⟨rest, rfl⟩, by simp⟩
    · rw [if_neg hbc] at h
      cases hrec : idxOf rest c with
      | none => rw [hrec] at h; exact absurd h (by simp)
      | some j =>
        rw [hrec] at h
        injection h with h
        subst h
        obtain ⟨⟨t, ht⟩, hnm⟩ := ih j hrec
        refine ⟨⟨t, ht⟩, ?_⟩
        intro hmem
        rcases List.mem_cons.mp hmem with rfl | hmem
        · simp at hbc
        · exact hnm hmem

theorem takeScheme_append (s r : List Nat) (hs : s.all isSchemeByte = true)
    (h58 : ¬ (58 : Nat) ∈ s) : takeScheme (s ++ 58 :: r) = some (s, r) := by
  induction s with
  | nil =>
    show takeScheme (58 :: r) = some ([], r)
    unfold takeScheme
    rw [if_pos (by simp)]
  | cons b rest ih =>
    show takeScheme (b :: (rest ++ 58 :: r)) = _
    unfold takeScheme
    rw [if_neg (by simp only [beq_iff_eq]; intro he; exact h58 (by simp [he]))]
    rw [if_pos (by have := List.all_eq_true.mp hs b (by simp); exact this)]
    rw [ih (by rw [List.all_eq_true]; intro x hx; exact List.all_eq_true.mp hs x (by simp [hx]))
      (fun hc => h58 (by simp [hc]))]
    rfl

theorem takeScheme_inv (s : List Nat) :
    ∀ a r, takeScheme s = some (a, r) →
    a.all isSchemeByte = true ∧ ¬ (58 : Nat) ∈ a ∧ s = a ++ 58 :: r := by
  induction s with
  | nil =>
    intro a r h
    simp [takeScheme] at h
  | cons b rest ih =>
    intro a r h
    unfold takeScheme at h
    by_cases hb : (b == 58) = true
    · rw [if_pos hb] at h
      injection h with h
      injection h with h1 h2
      subst h1
      subst h2
      simp only [beq_iff_eq] at hb
      subst hb
      exact ⟨rfl, by simp, rfl⟩
    · rw [if_neg hb] at h
      by_cases hsb : isSchemeByte b = true
      · rw [if_pos hsb] at h
        cases hrec : takeScheme rest with
        | none => rw [hrec] at h; exact absurd h (by simp)
        | some p =>
          rw [hrec] at h
          simp only [Option.map] at h
          injection h with h
          obtain ⟨a0, r0⟩ := p
          injection h with h1 h2
          subst h2
          subst h1
          obtain ⟨ha, h58, heq⟩ := ih a0 r0 hrec
          refine ⟨?_, ?_, ?_⟩
          · rw [List.all_cons, hsb, ha]
            rfl
          · intro hmem
            rcases List.mem_cons.mp hmem with h0 | hmem
            · exact absurd h0.symm (by simpa using hb)
            · exact h58 hmem
          · rw [heq]
            rfl
      · rw [if_neg hsb] at h
        exact absurd h (by simp)

theorem lowerByte_range (b : Nat) (h : 32 ≤ b ∧ b < 256 ∧ b ≠ 127) :
    32 ≤ lowerByte b ∧ lowerByte b < 256 ∧ lowerByte b ≠ 127 := by
  unfold lowerByte
  split <;> omega

theorem isSchemeByte_lower (b : Nat) : isSchemeByte (lowerByte b) = isSchemeByte b := by
  apply Safedialer.boolExt
  unfold lowerByte isSchemeByte isAlphaNum
  split
  · rename_i h
    simp only [Bool.or_eq_true, Bool.and_eq_true, decide_eq_true_eq, beq_iff_eq]
    omega
  · exact Iff.rfl

theorem isHostByte_lower (b : Nat) : isHostByte (lowerByte b) = isHostByte b := by
  apply Safedialer.boolExt
  unfold lowerByte isHostByte
  split
  · rename_i h
    simp only [Bool.not_eq_true', Bool.or_eq_false_iff, beq_eq_false_iff_ne, ne_eq]
    omega
  · exact Iff.rfl

theorem isLetter_lower (b : Nat) : isLetter (lowerByte b) = isLetter b := by
  apply Safedialer.boolExt
  unfold lowerByte isLetter
  split
  · rename_i h
    simp only [Bool.or_eq_true, Bool.and_eq_true, decide_eq_true_eq]
    omega
  · exact Iff.rfl

theorem isDigit_lower (b : Nat) : isDigit (lowerByte b) = isDigit b := by
  apply Safedialer.boolExt
  unfold lowerByte isDigit
  split
  · rename_i h
    simp only [Bool.and_eq_true, decide_eq_true_eq]
    omega
  · exact Iff.rfl

theorem digit_isHostByte (b : Nat) (h : (48 ≤ b ∧ b ≤ 57) ∨ b = 46) :
    isHostByte b = true := by
  unfold isHostByte
  simp only [Bool.not_eq_true', Bool.or_eq_false_iff, beq_eq_false_iff_ne, ne_eq]
  omega

theorem encodeValues_range (vs : Values)
    (hb : ∀ kv ∈ vs, (∀ b ∈ kv.1, b < 256) ∧ ∀ v ∈ kv.2, ∀ b ∈ v, b < 256) :
    ∀ b ∈ encodeValues vs, 33 ≤ b ∧ b ≤ 126 ∧ b ≠ 35 ∧ b ≠ 63 := by
  intro b hbm
  unfold encodeValues at hbm
  have hperm := sortByKey_perm vs
  rcases joinWith_mem 38 _ b hbm with rfl | ⟨part, hpart, hbp⟩
  · omega
  · obtain ⟨kv, hkv, v, hv, rfl⟩ := encodePairs_mem _ part hpart
    have hkv2 := hb kv (hperm.mem_iff.mp hkv)
    rcases List.mem_append.mp hbp with h | h
    · have := queryEscape_bytes kv.1 hkv2.1 b h
      omega
    · rcases List.mem_cons.mp h with rfl | h
      · omega
      · have := queryEscape_bytes v (hkv2.2 v hv) b h
        omega

theorem nonASCIIEscape_id (s : List Nat) (hs : ∀ b ∈ s, b < 128) :
    nonASCIIEscape s = s := by
  induction s with
  | nil => rfl
  | cons b rest ih =>
    show nonASCIIEscapeByte b ++ nonASCIIEscape rest = b :: rest
    unfold nonASCIIEscapeByte
    rw [if_neg (by have := hs b (by simp); omega)]
    rw [ih (fun y hy => hs y (by simp [hy]))]
    rfl

end Urlresolver
namespace Urlresolver

theorem digitsRevFuel_range : ∀ fuel n, ∀ b ∈ digitsRevFuel fuel n, 48 ≤ b ∧ b ≤ 57 := by
  intro fuel
  induction fuel with
  | zero =>
    intro n b hb
    simp [digitsRevFuel] at hb
  | succ f ih =>
    intro n b hb
    cases n with
    | zero => simp [digitsRevFuel] at hb
    | succ m =>
      rw [show digitsRevFuel (f + 1) (m + 1) =
          (48 + (m + 1) % 10) :: digitsRevFuel f ((m + 1) / 10) from rfl] at hb
      rcases List.mem_cons.mp hb with rfl | hb
      · have := Nat.mod_lt (m + 1) (show 0 < 10 by omega)
        omega
      · exact ih _ b hb

theorem decimalBytes_range (n : Nat) : ∀ b ∈ decimalBytes n, 48 ≤ b ∧ b ≤ 57 := by
  unfold decimalBytes
  split
  · intro b hb
    simp only [List.mem_singleton] at hb
    omega
  · intro b hb
    rw [List.mem_reverse] at hb
    exact digitsRevFuel_range n n b hb

theorem dottedQuad_range (n : Nat) :
    ∀ b ∈ dottedQuad n, (48 ≤ b ∧ b ≤ 57) ∨ b = 46 := by
  intro b hb
  unfold dottedQuad at hb
  simp only [List.mem_append, List.mem_cons] at hb
  rcases hb with ((h | rfl | h) | rfl | h) | rfl | h
  · exact Or.inl (decimalBytes_range _ b h)
  · exact Or.inr rfl
  · exact Or.inl (decimalBytes_range _ b h)
  · exact Or.inr rfl
  · exact Or.inl (decimalBytes_range _ b h)
  · exact Or.inr rfl
  · exact Or.inl (decimalBytes_range _ b h)

theorem hostPortSplit_tail (h core tail : List Nat)
    (hsp : hostPortSplitForDecode h = some (core, tail)) :
    ∀ b ∈ tail, b = 46 ∨ b ∈ h := by
  unfold hostPortSplitForDecode at hsp
  dsimp only at hsp
  split at hsp
  · injection hsp with hsp
    injection hsp with h1 h2
    subst h2
    intro b hb
    rcases List.mem_append.mp hb with hb | hb
    · have := List.mem_takeWhile_imp hb
      simp only [beq_iff_eq] at this
      exact Or.inl this
    · cases hidx : idxOf h 58 with
      | none =>
        rw [hidx] at hb
        simp at hb
      | some i =>
        rw [hidx] at hb
        exact Or.inr ((List.drop_sublist i h).subset hb)
  · exact absurd hsp (by simp)

theorem decodeDwordHost_mem (h : List Nat) :
    ∀ b ∈ decodeDwordHost h, b ∈ h ∨ b = 46 ∨ (48 ≤ b ∧ b ≤ 57) := by
  intro b hb
  unfold decodeDwordHost at hb
  cases hsp : hostPortSplitForDecode h with
  | none =>
    rw [hsp] at hb
    exact Or.inl hb
  | some p =>
    obtain ⟨core, tail⟩ := p
    rw [hsp] at hb
    dsimp only at hb
    split at hb
    · rcases List.mem_append.mp hb with h1 | h1
      · rcases dottedQuad_range _ b h1 with h2 | h2
        · exact Or.inr (Or.inr h2)
        · exact Or.inr (Or.inl h2)
      · rcases hostPortSplit_tail h core tail hsp b h1 with h2 | h2
        · exact Or.inr (Or.inl h2)
        · exact Or.inl h2
    · exact Or.inl hb

theorem decodeOctalHost_mem (h : List Nat) :
    ∀ b ∈ decodeOctalHost h, b ∈ h ∨ b = 46 ∨ (48 ≤ b ∧ b ≤ 57) := by
  intro b hb
  unfold decodeOctalHost at hb
  cases hsp : hostPortSplitForDecode h with
  | none =>
    rw [hsp] at hb
    exact Or.inl hb
  | some p =>
    obtain ⟨core, tail⟩ := p
    rw [hsp] at hb
    dsimp only at hb
    split at hb
    · split at hb
      · rcases List.mem_append.mp hb with h1 | h1
        · rcases joinWith_mem 46 _ b h1 with rfl | ⟨x, hx, hbx⟩
          · exact Or.inr (Or.inl rfl)
          · obtain ⟨f, _, rfl⟩ := List.mem_map.mp hx
            exact Or.inr (Or.inr (decimalBytes_range _ b hbx))
        · rcases hostPortSplit_tail h core tail hsp b h1 with h2 | h2
          · exact Or.inr (Or.inl h2)
          · exact Or.inl h2
      · exact Or.inl hb
    · exact Or.inl hb

theorem decodeHexHost_mem (h : List Nat) :
    ∀ b ∈ decodeHexHost h, b ∈ h ∨ b = 46 ∨ (48 ≤ b ∧ b ≤ 57) := by
  intro b hb
  unfold decodeHexHost at hb
  cases hsp : hostPortSplitForDecode h with
  | none =>
    rw [hsp] at hb
    exact Or.inl hb
  | some p =>
    obtain ⟨core, tail⟩ := p
    rw [hsp] at hb
    dsimp only at hb
    split at hb
    · rcases List.mem_append.mp hb with h1 | h1
      · rcases dottedQuad_range _ b h1 with h2 | h2
        · exact Or.inr (Or.inr h2)
        · exact Or.inr (Or.inl h2)
      · rcases hostPortSplit_tail h core tail hsp b h1 with h2 | h2
        · exact Or.inr (Or.inl h2)
        · exact Or.inl h2
    · exact Or.inl hb

theorem stripHostDots_mem (h : List Nat) : ∀ b ∈ stripHostDots h, b ∈ h := by
  intro b hb
  unfold stripHostDots at hb
  dsimp only at hb
  rcases List.mem_append.mp hb with h1 | h1
  · rw [List.mem_reverse] at h1
    have h2 := (List.dropWhile_sublist _).subset h1
    rw [List.mem_reverse] at h2
    have h3 := (List.dropWhile_sublist _).subset h2
    cases hlast : lastIdxOf h 58 with
    | none =>
      rw [hlast] at h3
      dsimp only at h3
      exact h3
    | some i =>
      rw [hlast] at h3
      dsimp only at h3
      split at h3
      · exact (List.take_sublist _ h).subset h3
      · exact h3
  · cases hlast : lastIdxOf h 58 with
    | none =>
      rw [hlast] at h1
      dsimp only at h1
      simp at h1
    | some i =>
      rw [hlast] at h1
      dsimp only at h1
      split at h1
      · exact (List.drop_sublist _ h).subset h1
      · simp at h1

theorem stripEmptyPortSep_mem (h : List Nat) : ∀ b ∈ stripEmptyPortSep h, b ∈ h := by
  intro b hb
  unfold stripEmptyPortSep at hb
  rw [List.mem_reverse] at hb
  have h2 := (List.dropWhile_sublist _).subset hb
  rw [List.mem_reverse] at h2
  exact h2

theorem hostFix_mem (h : List Nat) :
    ∀ b ∈ hostFix h, b ∈ h ∨ b = 46 ∨ (48 ≤ b ∧ b ≤ 57) := by
  intro b hb
  unfold hostFix at hb
  have h1 := stripEmptyPortSep_mem _ b hb
  have h2 := stripHostDots_mem _ b h1
  rcases decodeHexHost_mem _ b h2 with h3 | h3
  · rcases decodeOctalHost_mem _ b h3 with h4 | h4
    · exact decodeDwordHost_mem _ b h4
    · exact Or.inr h4
  · exact Or.inr h3

theorem hostFix_hostBytes (h : List Nat) (hh : h.all isHostByte = true) :
    (hostFix h).all isHostByte = true := by
  rw [List.all_eq_true]
  intro b hb
  rcases hostFix_mem h b hb with h1 | h1 | h1
  · exact List.all_eq_true.mp hh b h1
  · exact digit_isHostByte b (Or.inr h1)
  · exact digit_isHostByte b (Or.inl h1)

theorem hostFix_range (h : List Nat) (hh : ∀ b ∈ h, 32 ≤ b ∧ b < 256 ∧ b ≠ 127) :
    ∀ b ∈ hostFix h, 32 ≤ b ∧ b < 256 ∧ b ≠ 127 := by
  intro b hb
  rcases hostFix_mem h b hb with h1 | h1 | h1
  · exact hh b h1
  · omega
  · omega

end Urlresolver
namespace Urlresolver

theorem lowerByte_58 (b : Nat) : (lowerByte b == 58) = (b == 58) := by
  apply Safedialer.boolExt
  unfold lowerByte
  split
  · rename_i h
    simp only [beq_iff_eq]
    omega
  · exact Iff.rfl

theorem lowerByte_91 (b : Nat) : (lowerByte b == 91) = (b == 91) := by
  apply Safedialer.boolExt
  unfold lowerByte
  split
  · rename_i h
    simp only [beq_iff_eq]
    omega
  · exact Iff.rfl

theorem lowerByte_93 (b : Nat) : (lowerByte b == 93) = (b == 93) := by
  apply Safedialer.boolExt
  unfold lowerByte
  split
  · rename_i h
    simp only [beq_iff_eq]
    omega
  · exact Iff.rfl

theorem lastIdxOf_lower (h : List Nat) : lastIdxOf (lowerBytes h) 58 = lastIdxOf h 58 := by
  induction h with
  | nil => rfl
  | cons b rest ih =>
    show lastIdxOf (lowerByte b :: lowerBytes rest) 58 = _
    unfold lastIdxOf
    rw [ih, lowerByte_58]

theorem all_isDigit_lower (s : List Nat) :
    (lowerBytes s).all (fun d => isDigit d) = s.all (fun d => isDigit d) := by
  induction s with
  | nil => rfl
  | cons b rest ih =>
    show (lowerByte b :: lowerBytes rest).all _ = _
    rw [List.all_cons, List.all_cons, ih, isDigit_lower]

theorem validOptionalPort_lower (p : List Nat) :
    validOptionalPort (lowerBytes p) = validOptionalPort p := by
  cases p with
  | nil => rfl
  | cons c rest =>
    show validOptionalPort (lowerByte c :: lowerBytes rest) = _
    unfold validOptionalPort
    dsimp only
    rw [lowerByte_58, all_isDigit_lower]

theorem head_91_lower (h : List Nat) :
    ((lowerBytes h).head? == some 91) = (h.head? == some 91) := by
  cases h with
  | nil => rfl
  | cons a rest =>
    show (some (lowerByte a) == some 91) = (some a == some 91)
    show (lowerByte a == 91) = (a == 91)
    exact lowerByte_91 a

theorem getLast_93_lower (h : List Nat) :
    ((lowerBytes h).getLast? == some 93) = (h.getLast? == some 93) := by
  unfold lowerBytes
  rw [List.getLast?_map]
  cases h.getLast? with
  | none => rfl
  | some a =>
    show (some (lowerByte a) == some 93) = (some a == some 93)
    show (lowerByte a == 93) = (a == 93)
    exact lowerByte_93 a

theorem hostBrackets_lower (h : List Nat) :
    (if (lowerBytes h).head? == some 91 && (lowerBytes h).getLast? == some 93 then
      ((lowerBytes h).drop 1).take ((lowerBytes h).length - 2) else lowerBytes h) =
    lowerBytes (if h.head? == some 91 && h.getLast? == some 93 then
      (h.drop 1).take (h.length - 2) else h) := by
  rw [head_91_lower, getLast_93_lower]
  by_cases hc : (h.head? == some 91 && h.getLast? == some 93) = true
  · rw [if_pos hc, if_pos hc]
    show ((List.map lowerByte h).drop 1).take ((List.map lowerByte h).length - 2) = _
    rw [← List.map_drop, ← List.map_take, List.length_map]
    rfl
  · rw [if_neg hc, if_neg hc]

theorem urlHostname_lower (host : List Nat) :
    urlHostname (lowerBytes host) = lowerBytes (urlHostname host) := by
  unfold urlHostname
  rw [lastIdxOf_lower]
  cases hlast : lastIdxOf host 58 with
  | none =>
    dsimp only
    exact hostBrackets_lower host
  | some i =>
    dsimp only
    rw [show (lowerBytes host).drop i = lowerBytes (host.drop i) from
      (List.map_drop lowerByte host i).symm]
    rw [validOptionalPort_lower]
    by_cases hv : validOptionalPort (host.drop i) = true
    · rw [if_pos hv, if_pos hv]
      rw [show (lowerBytes host).take i = lowerBytes (host.take i) from
        (List.map_take lowerByte host i).symm]
      exact hostBrackets_lower _
    · rw [if_neg hv, if_neg hv]
      exact hostBrackets_lower _

theorem domainSuffixMatch_lower (dom host : List Nat) :
    domainSuffixMatch dom (lowerBytes host) = domainSuffixMatch dom host := by
  unfold domainSuffixMatch
  rw [lowerBytes_idem]

theorem matchStripParamDomain_lower (host : List Nat) :
    matchStripParamDomain (lowerBytes host) = matchStripParamDomain host := by
  unfold matchStripParamDomain
  rw [show (fun d => domainSuffixMatch d (lowerBytes host)) =
    (fun d => domainSuffixMatch d host) from funext (fun d => domainSuffixMatch_lower d host)]

theorem matchLowercaseDomain_lower (host : List Nat) :
    matchLowercaseDomain (lowerBytes host) = matchLowercaseDomain host := by
  unfold matchLowercaseDomain
  rw [show (fun d => domainSuffixMatch d (lowerBytes host)) =
    (fun d => domainSuffixMatch d host) from funext (fun d => domainSuffixMatch_lower d host)]

theorem shouldExcludeParam_lower (d p : List Nat) :
    shouldExcludeParam (lowerBytes d) p = shouldExcludeParam d p := by
  unfold shouldExcludeParam
  rw [domainSuffixMatch_lower, domainSuffixMatch_lower, matchStripParamDomain_lower]

end Urlresolver
namespace Urlresolver

theorem collapseSegs_sub (l : List (List Nat)) : ∀ x ∈ collapseSegs l, x ∈ l := by
  cases l with
  | nil => simp [collapseSegs]
  | cons y ys =>
    rw [collapseSegs_cons]
    intro x hx
    rcases List.mem_cons.mp hx with rfl | hx
    · simp
    · exact List.mem_cons.mpr (Or.inr (collapseMid_sub ys x hx))

theorem removeDot_mem (p : List Nat) :
    ∀ b ∈ removeDotSegments p, b ∈ p ∨ b = 47 := by
  intro b hb
  unfold removeDotSegments at hb
  cases hsp : splitOnByte 47 p with
  | nil => exact absurd hsp (splitOn_ne_nil 47 p)
  | cons first tail =>
    rw [hsp] at hb
    dsimp only at hb
    rcases joinWith_mem 47 _ b hb with rfl | ⟨x, hx, hbx⟩
    · exact Or.inr rfl
    · rcases List.mem_cons.mp hx with rfl | hx
      · exact Or.inl (splitOn_mem_sub 47 p x (by rw [hsp]; simp) b hbx)
      · have hx2 : x ∈ dotStack tail [] ∨ x = [] := by
          by_cases hc : (tail.getLast?).elim false isDotSeg = true
          · rw [if_pos hc] at hx
            rcases List.mem_append.mp hx with h | h
            · exact Or.inl h
            · simp only [List.mem_singleton] at h
              exact Or.inr h
          · rw [if_neg hc] at hx
            exact Or.inl hx
        rcases hx2 with hx2 | rfl
        · rcases dotStack_elems tail [] x hx2 with ⟨h2, _⟩ | h2
          · exact Or.inl (splitOn_mem_sub 47 p x (by rw [hsp]; simp [h2]) b hbx)
          · simp at h2
        · simp at hbx

theorem collapse_mem (p : List Nat) :
    ∀ b ∈ collapseDupSlashes p, b ∈ p ∨ b = 47 := by
  intro b hb
  unfold collapseDupSlashes at hb
  rcases joinWith_mem 47 _ b hb with rfl | ⟨x, hx, hbx⟩
  · exact Or.inr rfl
  · exact Or.inl (splitOn_mem_sub 47 p x (collapseSegs_sub _ x hx) b hbx)

theorem pathC_bound (p : List Nat) (hp : ∀ b ∈ p, b < 256) :
    ∀ b ∈ collapseDupSlashes (removeDotSegments p), b < 256 := by
  intro b hb
  rcases collapse_mem _ b hb with h | rfl
  · rcases removeDot_mem _ b h with h2 | rfl
    · exact hp b h2
    · omega
  · omega

theorem dotStack_last_ne_nil (l : List (List Nat)) :
    ∀ acc, l ≠ [] → (l.getLast?).elim false isDotSeg = false → dotStack l acc ≠ [] := by
  induction l with
  | nil =>
    intro acc h _
    exact absurd rfl h
  | cons s rest ih =>
    intro acc _ hlast
    cases rest with
    | nil =>
      have hs : isDotSeg s = false := by
        simpa using hlast
      simp only [isDotSeg, Bool.or_eq_false_iff, beq_eq_false_iff_ne] at hs
      unfold dotStack
      rw [if_neg (by simpa using hs.2), if_neg (by simpa using hs.1)]
      simp [dotStack]
    | cons t ts =>
      have hlast2 : ((t :: ts).getLast?).elim false isDotSeg = false := by
        rw [List.getLast?_cons_cons] at hlast
        exact hlast
      unfold dotStack
      split
      · exact ih _ (by simp) hlast2
      · split
        · exact ih _ (by simp) hlast2
        · exact ih _ (by simp) hlast2

theorem joinWith_cons_cons (c : Nat) (x : List Nat) (L : List (List Nat)) (h : L ≠ []) :
    joinWith c (x :: L) = x ++ c :: joinWith c L := by
  cases L with
  | nil => exact absurd rfl h
  | cons y ys => rfl

theorem removeDot_head (t : List Nat) :
    ∃ q, removeDotSegments (47 :: t) = 47 :: q := by
  unfold removeDotSegments
  have hsp : splitOnByte 47 (47 :: t) = [] :: splitOnByte 47 t := by
    rw [splitOn_cons]
    cases hs : splitOnByte 47 t with
    | nil => exact absurd hs (splitOn_ne_nil 47 t)
    | cons y ys => simp
  rw [hsp]
  dsimp only
  have htail : splitOnByte 47 t ≠ [] := splitOn_ne_nil 47 t
  by_cases hc : ((splitOnByte 47 t).getLast?).elim false isDotSeg = true
  · rw [if_pos hc]
    refine ⟨joinWith 47 (dotStack (splitOnByte 47 t) [] ++ [[]]), ?_⟩
    rw [joinWith_cons_cons 47 [] _ (by simp)]
    rfl
  · rw [if_neg hc]
    refine ⟨joinWith 47 (dotStack (splitOnByte 47 t) []), ?_⟩
    rw [joinWith_cons_cons 47 [] _
      (dotStack_last_ne_nil _ [] htail (by simpa using hc))]
    rfl

theorem collapse_head (q : List Nat) :
    ∃ r, collapseDupSlashes (47 :: q) = 47 :: r := by
  unfold collapseDupSlashes
  have hsp : splitOnByte 47 (47 :: q) = [] :: splitOnByte 47 q := by
    rw [splitOn_cons]
    cases hs : splitOnByte 47 q with
    | nil => exact absurd hs (splitOn_ne_nil 47 q)
    | cons y ys => simp
  rw [hsp, collapseSegs_cons]
  refine ⟨joinWith 47 (collapseMid (splitOnByte 47 q)), ?_⟩
  rw [joinWith_cons_cons 47 [] _ (collapseMid_ne_nil _ (splitOn_ne_nil 47 q))]
  rfl

theorem pathEscape_cons_47 (q : List Nat) :
    pathEscape (47 :: q) = 47 :: pathEscape q := rfl

end Urlresolver
namespace Urlresolver

theorem all_isSchemeByte_lower (s : List Nat) :
    (lowerBytes s).all isSchemeByte = s.all isSchemeByte := by
  induction s with
  | nil => rfl
  | cons b rest ih =>
    show (lowerByte b :: lowerBytes rest).all _ = _
    rw [List.all_cons, List.all_cons, ih, isSchemeByte_lower]

theorem mem_lower_58 (s : List Nat) (h : ¬ (58 : Nat) ∈ s) : ¬ (58 : Nat) ∈ lowerBytes s := by
  intro hm
  obtain ⟨x, hx, hlx⟩ := List.mem_map.mp hm
  apply h
  have h2 : (x == 58) = true := by
    rw [← lowerByte_58, hlx]
    decide
  simp only [beq_iff_eq] at h2
  exact h2 ▸ hx

theorem range_of_all (s : List Nat)
    (h : s.all (fun c => 32 ≤ c && c < 256 && !(c == 127)) = true) :
    ∀ b ∈ s, 32 ≤ b ∧ b < 256 ∧ b ≠ 127 := by
  intro b hb
  have := List.all_eq_true.mp h b hb
  simp only [Bool.and_eq_true, decide_eq_true_eq, Bool.not_eq_true', beq_eq_false_iff_ne,
    ne_eq] at this
  exact ⟨this.1.1, this.1.2, this.2⟩

theorem parse_inv (s : List Nat) (u : GoURL) (hp : parse s = some u) :
    (u.scheme ≠ [] ∧ u.scheme.all isSchemeByte = true ∧ ¬ (58 : Nat) ∈ u.scheme ∧
      (u.scheme.head?).elim false isLetter = true) ∧
    (u.host.all isHostByte = true ∧ ∀ b ∈ u.host, 32 ≤ b ∧ b < 256 ∧ b ≠ 127) ∧
    (u.path = [] ∨ ∃ t, u.path = 47 :: t) ∧
    (∀ b ∈ u.path, b < 256) ∧
    (∀ b ∈ u.rawQuery, b < 256) := by
  unfold parse at hp
  by_cases hall : (!s.all fun c => 32 ≤ c && c < 256 && !(c == 127)) = true
  · rw [if_pos hall] at hp
    exact absurd hp (by simp)
  · rw [if_neg hall] at hp
    have hsall : ∀ b ∈ s, 32 ≤ b ∧ b < 256 ∧ b ≠ 127 := by
      apply range_of_all
      cases hx : s.all (fun c => 32 ≤ c && c < 256 && !(c == 127)) with
      | false => exact absurd (by rw [hx]; rfl) hall
      | true => rfl
    dsimp only at hp
    cases hfrag : unescape false (cutAtFirst s 35).2 with
    | none =>
      rw [hfrag] at hp
      exact absurd hp (by simp)
    | some fragDec =>
      rw [hfrag] at hp
      dsimp only at hp
      cases hts : takeScheme (cutAtFirst (cutAtFirst s 35).1 63).1 with
      | none =>
        rw [hts] at hp
        exact absurd hp (by simp)
      | some p =>
        obtain ⟨sch, rest⟩ := p
        rw [hts] at hp
        dsimp only at hp
        obtain ⟨hschAll, hsch58, hconc⟩ := takeScheme_inv _ sch rest hts
        have hcut1 : ∀ b ∈ (cutAtFirst (cutAtFirst s 35).1 63).1, b ∈ s :=
          fun b hb => (cutAtFirst_sub s 35).1 b ((cutAtFirst_sub _ 63).1 b hb)
        have hrest : ∀ b ∈ rest, b ∈ s := by
          intro b hb
          exact hcut1 b (by rw [hconc]; simp [hb])
        split at hp
        · exact absurd hp (by simp)
        · rename_i hschOK
          split at hp
          · rename_i hslashes
            have hafter : ∀ b ∈ rest.drop 2, b ∈ s :=
              fun b hb => hrest b ((List.drop_sublist 2 rest).subset hb)
            cases hidx : idxOf (rest.drop 2) 47 with
            | none =>
              rw [hidx] at hp
              dsimp only at hp
              split at hp
              · exact absurd hp (by simp)
              · rename_i hauthOK
                simp only [unescape] at hp
                injection hp with hp
                subst hp
                refine ⟨?_, ?_, ?_, ?_, ?_⟩
                · refine ⟨?_, ?_, ?_, ?_⟩
                  · simp only [Bool.or_eq_true] at hschOK
                    intro hnil
                    rw [show lowerBytes sch = List.map lowerByte sch from rfl,
                      List.map_eq_nil_iff] at hnil
                    subst hnil
                    exact hschOK (Or.inl rfl)
                  · rw [all_isSchemeByte_lower]
                    exact hschAll
                  · exact mem_lower_58 sch hsch58
                  · have h3 : (sch.head?.elim false isLetter) = true := by
                      simp only [Bool.or_eq_true] at hschOK
                      have h4 := (not_or.mp hschOK).2
                      cases hx : sch.head?.elim false isLetter with
                      | true => rfl
                      | false => exact absurd (by rw [hx]; rfl) h4
                    cases sch with
                    | nil => simp at h3
                    | cons a r =>
                      show isLetter (lowerByte a) = true
                      rw [isLetter_lower]
                      exact h3
                · constructor
                  · cases hauth : (rest.drop 2).all isHostByte with
                    | false => exact absurd (by rw [hauth]; rfl) hauthOK
                    | true => rfl
                  · exact fun b hb => hsall b (hafter b hb)
                · exact Or.inl rfl
                · simp
                · intro b hb
                  exact (hsall b ((cutAtFirst_sub s 35).1 b
                    ((cutAtFirst_sub _ 63).2 b hb))).2.1
            | some i =>
              rw [hidx] at hp
              dsimp only at hp
              split at hp
              · exact absurd hp (by simp)
              · rename_i hauthOK
                obtain ⟨⟨t, hdrop⟩, hnmem⟩ := idxOf_some _ 47 i hidx
                cases hpd : unescape false ((rest.drop 2).drop i) with
                | none =>
                  rw [hpd] at hp
                  exact absurd hp (by simp)
                | some pathDec =>
                  rw [hpd] at hp
                  injection hp with hp
                  subst hp
                  refine ⟨?_, ?_, ?_, ?_, ?_⟩
                  · refine ⟨?_, ?_, ?_, ?_⟩
                    · simp only [Bool.or_eq_true] at hschOK
                      intro hnil
                      rw [show lowerBytes sch = List.map lowerByte sch from rfl,
                        List.map_eq_nil_iff] at hnil
                      subst hnil
                      exact hschOK (Or.inl rfl)
                    · rw [all_isSchemeByte_lower]
                      exact hschAll
                    · exact mem_lower_58 sch hsch58
                    · have h3 : (sch.head?.elim false isLetter) = true := by
                        simp only [Bool.or_eq_true] at hschOK
                        have h4 := (not_or.mp hschOK).2
                        cases hx : sch.head?.elim false isLetter with
                        | true => rfl
                        | false => exact absurd (by rw [hx]; rfl) h4
                      cases sch with
                      | nil => simp at h3
                      | cons a r =>
                        show isLetter (lowerByte a) = true
                        rw [isLetter_lower]
                        exact h3
                  · constructor
                    · cases hauth : ((rest.drop 2).take i).all isHostByte with
                      | false => exact absurd (by rw [hauth]; rfl) hauthOK
                      | true => rfl
                    · intro b hb
                      exact hsall b (hafter b ((List.take_sublist i _).subset hb))
                  · right
                    rw [hdrop] at hpd
                    rw [unescape_cons_plain false 47 t (by omega) (Or.inl rfl)] at hpd
                    cases hrec : unescape false t with
                    | none =>
                      rw [hrec] at hpd
                      exact absurd hpd (by simp)
                    | some t2 =>
                      rw [hrec] at hpd
                      simp only [Option.map] at hpd
                      injection hpd with hpd
                      exact ⟨t2, hpd.symm⟩
                  · intro b hb
                    refine unescape_bound false ((rest.drop 2).drop i).length _ le_rfl
                      pathDec hpd ?_ b hb
                    intro c hc
                    exact (hsall c (hafter c ((List.drop_sublist i _).subset hc))).2.1
                  · intro b hb
                    exact (hsall b ((cutAtFirst_sub s 35).1 b
                      ((cutAtFirst_sub _ 63).2 b hb))).2.1
          · exact absurd hp (by simp)

end Urlresolver
namespace Urlresolver

theorem schemeByte_range (b : Nat) (h : isSchemeByte b = true) :
    43 ≤ b ∧ b ≤ 122 ∧ b ≠ 58 ∧ b ≠ 47 ∧ b ≠ 63 ∧ b ≠ 35 := by
  simp only [isSchemeByte, isAlphaNum, Bool.or_eq_true, Bool.and_eq_true,
    decide_eq_true_eq, beq_iff_eq] at h
  omega

theorem hostByte_facts (b : Nat) (h : isHostByte b = true) :
    b ≠ 47 ∧ b ≠ 63 ∧ b ≠ 35 := by
  simp only [isHostByte, Bool.not_eq_true', Bool.or_eq_false_iff,
    beq_eq_false_iff_ne, ne_eq] at h
  exact ⟨h.1.1.1.1.1.1, h.1.1.1.1.1.2, h.1.1.1.1.2⟩

theorem all_of_range (s : List Nat) (h : ∀ b ∈ s, 32 ≤ b ∧ b < 256 ∧ b ≠ 127) :
    (s.all fun c => 32 ≤ c && c < 256 && !(c == 127)) = true := by
  rw [List.all_eq_true]
  intro b hb
  have := h b hb
  simp only [Bool.and_eq_true, decide_eq_true_eq, Bool.not_eq_true',
    beq_eq_false_iff_ne, ne_eq]
  exact ⟨⟨this.1, this.2.1⟩, this.2.2⟩

theorem parse_serialized (sc h2 pp q ppDec : List Nat)
    (hsc1 : sc ≠ []) (hsc2 : sc.all isSchemeByte = true) (hsc3 : ¬ (58 : Nat) ∈ sc)
    (hsc4 : (sc.head?).elim false isLetter = true)
    (hh1 : h2.all isHostByte = true) (hh2 : ∀ b ∈ h2, 32 ≤ b ∧ b < 256 ∧ b ≠ 127)
    (hpp1 : pp = [] ∨ ∃ t, pp = 47 :: t)
    (hpp2 : ∀ b ∈ pp, 33 ≤ b ∧ b ≤ 126 ∧ b ≠ 35 ∧ b ≠ 63)
    (hq : ∀ b ∈ q, 33 ≤ b ∧ b ≤ 126 ∧ b ≠ 35 ∧ b ≠ 63)
    (hdec : unescape false pp = some ppDec) :
    parse (sc ++ 58 :: 47 :: 47 :: (h2 ++ (pp ++ (if q.isEmpty then [] else 63 :: q)))) =
    some ⟨lowerBytes sc, h2, ppDec, q, []⟩ := by
  have hscr : ∀ b ∈ sc, 43 ≤ b ∧ b ≤ 122 ∧ b ≠ 58 ∧ b ≠ 47 ∧ b ≠ 63 ∧ b ≠ 35 :=
    fun b hb => schemeByte_range b (List.all_eq_true.mp hsc2 b hb)
  have hhf : ∀ b ∈ h2, b ≠ 47 ∧ b ≠ 63 ∧ b ≠ 35 :=
    fun b hb => hostByte_facts b (List.all_eq_true.mp hh1 b hb)
  have hmemA : ∀ b ∈ sc ++ 58 :: 47 :: 47 :: (h2 ++ pp),
      b ∈ sc ∨ b = 58 ∨ b = 47 ∨ b ∈ h2 ∨ b ∈ pp := by
    intro b hb
    rcases List.mem_append.mp hb with h | h
    · exact Or.inl h
    · rcases List.mem_cons.mp h with rfl | h
      · exact Or.inr (Or.inl rfl)
      · rcases List.mem_cons.mp h with rfl | h
        · exact Or.inr (Or.inr (Or.inl rfl))
        · rcases List.mem_cons.mp h with rfl | h
          · exact Or.inr (Or.inr (Or.inl rfl))
          · rcases List.mem_append.mp h with h | h
            · exact Or.inr (Or.inr (Or.inr (Or.inl h)))
            · exact Or.inr (Or.inr (Or.inr (Or.inr h)))
  have h63A : ¬ (63 : Nat) ∈ sc ++ 58 :: 47 :: 47 :: (h2 ++ pp) := by
    intro hb
    rcases hmemA 63 hb with h | h | h | h | h
    · have := hscr 63 h; omega
    · omega
    · omega
    · have := hhf 63 h; omega
    · have := hpp2 63 h; omega
  have hL : sc ++ 58 :: 47 :: 47 :: (h2 ++ (pp ++ (if q.isEmpty then [] else 63 :: q))) =
      (sc ++ 58 :: 47 :: 47 :: (h2 ++ pp)) ++ (if q.isEmpty then [] else 63 :: q) := by
    simp [List.append_assoc]
  have hmemL : ∀ b ∈ sc ++ 58 :: 47 :: 47 :: (h2 ++ (pp ++ (if q.isEmpty then [] else 63 :: q))),
      b ∈ sc ∨ b = 58 ∨ b = 47 ∨ b ∈ h2 ∨ b ∈ pp ∨ b = 63 ∨ b ∈ q := by
    intro b hb
    rw [hL] at hb
    rcases List.mem_append.mp hb with h | h
    · rcases hmemA b h with h | h | h | h | h <;> tauto
    · by_cases hqe : q.isEmpty = true
      · rw [if_pos hqe] at h
        simp at h
      · rw [if_neg hqe] at h
        rcases List.mem_cons.mp h with rfl | h
        · exact Or.inr (Or.inr (Or.inr (Or.inr (Or.inr (Or.inl rfl)))))
        · exact Or.inr (Or.inr (Or.inr (Or.inr (Or.inr (Or.inr h)))))
  have hrange : ∀ b ∈ sc ++ 58 :: 47 :: 47 :: (h2 ++ (pp ++ (if q.isEmpty then [] else 63 :: q))),
      32 ≤ b ∧ b < 256 ∧ b ≠ 127 := by
    intro b hb
    rcases hmemL b hb with h | h | h | h | h | h | h
    · have := hscr b h; omega
    · omega
    · omega
    · exact hh2 b h
    · have := hpp2 b h; omega
    · omega
    · have := hq b h; omega
  have h35 : ¬ (35 : Nat) ∈ sc ++ 58 :: 47 :: 47 :: (h2 ++ (pp ++ (if q.isEmpty then [] else 63 :: q))) := by
    intro hb
    rcases hmemL 35 hb with h | h | h | h | h | h | h
    · have := hscr 35 h; omega
    · omega
    · omega
    · have := hhf 35 h; omega
    · have := hpp2 35 h; omega
    · omega
    · have := hq 35 h; omega
  have hcutq : cutAtFirst
      (sc ++ 58 :: 47 :: 47 :: (h2 ++ (pp ++ (if q.isEmpty then [] else 63 :: q)))) 63 =
      (sc ++ 58 :: 47 :: 47 :: (h2 ++ pp), q) := by
    rw [hL]
    cases q with
    | nil =>
      rw [show (if ([] : List Nat).isEmpty then ([] : List Nat) else 63 :: []) = [] from rfl]
      rw [List.append_nil]
      exact cutAtFirst_no_sep _ 63 h63A
    | cons qc qcs =>
      rw [show (if (qc :: qcs).isEmpty then ([] : List Nat) else 63 :: qc :: qcs) =
        63 :: qc :: qcs from rfl]
      exact cutAtFirst_append _ _ 63 h63A
  unfold parse
  rw [if_neg (by rw [all_of_range _ hrange]; simp)]
  rw [cutAtFirst_no_sep _ 35 h35]
  dsimp only
  rw [show unescape false ([] : List Nat) = some [] from rfl]
  rw [hcutq]
  dsimp only
  rw [takeScheme_append sc _ hsc2 hsc3]
  dsimp only
  rw [if_neg ?hguard]
  case hguard =>
    intro hcond
    rcases Bool.or_eq_true_iff.mp hcond with h | h
    · cases sc with
      | nil => exact hsc1 rfl
      | cons a r => simp at h
    · rw [hsc4] at h
      simp at h
  rw [if_pos ?hslash]
  case hslash =>
    rfl
  rcases hpp1 with rfl | ⟨t, rfl⟩
  · rw [List.append_nil]
    rw [show List.drop 2 (47 :: 47 :: h2) = h2 from rfl]
    rw [idxOf_none_of_not_mem h2 47 (fun hm => (hhf 47 hm).1 rfl)]
    dsimp only
    rw [if_neg (by rw [hh1]; simp)]
    rw [show unescape false ([] : List Nat) = some [] from rfl]
    dsimp only
    have hpd : ppDec = [] := by
      rw [show unescape false ([] : List Nat) = some [] from rfl] at hdec
      injection hdec with hdec
      exact hdec.symm
    rw [hpd]
  · rw [show List.drop 2 (47 :: 47 :: (h2 ++ 47 :: t)) = h2 ++ 47 :: t from rfl]
    rw [idxOf_append h2 t 47 (fun hm => (hhf 47 hm).1 rfl)]
    dsimp only
    rw [List.take_left, List.drop_left]
    rw [if_neg (by rw [hh1]; simp)]
    rw [hdec]

end Urlresolver
namespace Urlresolver

theorem all_isHostByte_lower (s : List Nat) :
    (lowerBytes s).all isHostByte = s.all isHostByte := by
  induction s with
  | nil => rfl
  | cons b rest ih =>
    show (lowerByte b :: lowerBytes rest).all _ = _
    rw [List.all_cons, List.all_cons, ih, isHostByte_lower]

theorem lowerBytes_range (h : List Nat) (hh : ∀ b ∈ h, 32 ≤ b ∧ b < 256 ∧ b ≠ 127) :
    ∀ b ∈ lowerBytes h, 32 ≤ b ∧ b < 256 ∧ b ≠ 127 := by
  intro b hb
  obtain ⟨x, hx, rfl⟩ := List.mem_map.mp hb
  exact lowerByte_range x (hh x hx)

theorem lowerBytes_bound (h : List Nat) (hh : ∀ b ∈ h, b < 256) :
    ∀ b ∈ lowerBytes h, b < 256 := by
  intro b hb
  obtain ⟨x, hx, rfl⟩ := List.mem_map.mp hb
  have := hh x hx
  unfold lowerByte
  split <;> omega

theorem filterParams_bounds (u : GoURL) (hqb : ∀ b ∈ u.rawQuery, b < 256) :
    ∀ kv ∈ filterParams u, (∀ b ∈ kv.1, b < 256) ∧ ∀ v ∈ kv.2, ∀ b ∈ v, b < 256 := by
  intro kv hkv
  exact (parseQuery_inv u.rawQuery hqb).2.2 kv ((List.filter_sublist _).subset hkv)

theorem canon_serialized (u : GoURL) (hqb : ∀ b ∈ u.rawQuery, b < 256) :
    Canonicalize u = lowerBytes u.scheme ++ 58 :: 47 :: 47 ::
      (hostFix (lowerBytes u.host) ++
        (pathEscape (collapseDupSlashes (removeDotSegments
          (if matchLowercaseDomain u.host then lowerBytes u.path else u.path))) ++
         (if (encodeValues (filterParams u)).isEmpty then []
          else 63 :: encodeValues (filterParams u)))) := by
  have hQr := encodeValues_range (filterParams u) (filterParams_bounds u hqb)
  have hnon : nonASCIIEscape (encodeValues (filterParams u)) = encodeValues (filterParams u) :=
    nonASCIIEscape_id _ (fun b hb => by have := hQr b hb; omega)
  unfold Canonicalize normalize clean purellNormalize
  dsimp only
  by_cases hm : matchLowercaseDomain u.host = true
  · rw [if_pos hm, if_pos hm]
    dsimp only
    rw [hnon]
    simp [List.append_assoc]
  · rw [if_neg hm, if_neg hm]
    dsimp only
    rw [hnon]
    simp [List.append_assoc]

end Urlresolver
namespace Urlresolver

theorem canon_parse (u : GoURL)
    (hs1 : u.scheme ≠ []) (hs2 : u.scheme.all isSchemeByte = true)
    (hs3 : ¬ (58 : Nat) ∈ u.scheme) (hs4 : (u.scheme.head?).elim false isLetter = true)
    (hh1 : u.host.all isHostByte = true) (hh2 : ∀ b ∈ u.host, 32 ≤ b ∧ b < 256 ∧ b ≠ 127)
    (hpsh : u.path = [] ∨ ∃ t, u.path = 47 :: t)
    (hpb : ∀ b ∈ u.path, b < 256)
    (hqb : ∀ b ∈ u.rawQuery, b < 256) :
    parse (Canonicalize u) = some
      ⟨lowerBytes u.scheme, hostFix (lowerBytes u.host),
        collapseDupSlashes (removeDotSegments
          (if matchLowercaseDomain u.host then lowerBytes u.path else u.path)),
        encodeValues (filterParams u), []⟩ := by
  have hsc1 : lowerBytes u.scheme ≠ [] := by
    rw [show lowerBytes u.scheme = List.map lowerByte u.scheme from rfl]
    intro h
    exact hs1 (List.map_eq_nil_iff.mp h)
  have hsc2 : (lowerBytes u.scheme).all isSchemeByte = true := by
    rw [all_isSchemeByte_lower]
    exact hs2
  have hsc3 := mem_lower_58 u.scheme hs3
  have hsc4 : ((lowerBytes u.scheme).head?).elim false isLetter = true := by
    cases hsch : u.scheme with
    | nil => exact absurd hsch hs1
    | cons a r =>
      show isLetter (lowerByte a) = true
      rw [isLetter_lower]
      rw [hsch] at hs4
      exact hs4
  have hh1f : (hostFix (lowerBytes u.host)).all isHostByte = true :=
    hostFix_hostBytes _ (by rw [all_isHostByte_lower]; exact hh1)
  have hh2f : ∀ b ∈ hostFix (lowerBytes u.host), 32 ≤ b ∧ b < 256 ∧ b ≠ 127 :=
    hostFix_range _ (lowerBytes_range u.host hh2)
  have hPsh : (if matchLowercaseDomain u.host then lowerBytes u.path else u.path) = [] ∨
      ∃ t, (if matchLowercaseDomain u.host then lowerBytes u.path else u.path) = 47 :: t := by
    rcases hpsh with hnil | ⟨t, ht⟩
    · left
      rw [hnil]
      split
      · rfl
      · rfl
    · right
      rw [ht]
      split
      · exact ⟨lowerBytes t, rfl⟩
      · exact ⟨t, rfl⟩
  have hPb : ∀ b ∈ (if matchLowercaseDomain u.host then lowerBytes u.path else u.path),
      b < 256 := by
    split
    · exact lowerBytes_bound u.path hpb
    · exact hpb
  have hCb := pathC_bound _ hPb
  have hCsh : collapseDupSlashes (removeDotSegments
      (if matchLowercaseDomain u.host then lowerBytes u.path else u.path)) = [] ∨
      ∃ r, collapseDupSlashes (removeDotSegments
        (if matchLowercaseDomain u.host then lowerBytes u.path else u.path)) = 47 :: r := by
    rcases hPsh with hnil | ⟨t, ht⟩
    · left
      rw [hnil]
      rfl
    · right
      rw [ht]
      obtain ⟨q, hq1⟩ := removeDot_head t
      rw [hq1]
      exact collapse_head q
  have hPPsh : pathEscape (collapseDupSlashes (removeDotSegments
      (if matchLowercaseDomain u.host then lowerBytes u.path else u.path))) = [] ∨
      ∃ t2, pathEscape (collapseDupSlashes (removeDotSegments
        (if matchLowercaseDomain u.host then lowerBytes u.path else u.path))) = 47 :: t2 := by
    rcases hCsh with h | ⟨r, h⟩
    · left
      rw [h]
      rfl
    · right
      rw [h, pathEscape_cons_47]
      exact ⟨pathEscape r, rfl⟩
  have hPP2 := pathEscape_bytes _ hCb
  have hdec := unescape_pathEscape _ hCb
  have hQr := encodeValues_range (filterParams u) (filterParams_bounds u hqb)
  rw [canon_serialized u hqb]
  rw [parse_serialized (lowerBytes u.scheme) (hostFix (lowerBytes u.host))
    (pathEscape (collapseDupSlashes (removeDotSegments
      (if matchLowercaseDomain u.host then lowerBytes u.path else u.path))))
    (encodeValues (filterParams u))
    (collapseDupSlashes (removeDotSegments
      (if matchLowercaseDomain u.host then lowerBytes u.path else u.path)))
    hsc1 hsc2 hsc3 hsc4 hh1f hh2f hPPsh hPP2 hQr hdec]
  rw [lowerBytes_idem]

theorem canonicalize_second_pass (u : GoURL)
    (hqb : ∀ b ∈ u.rawQuery, b < 256)
    (hhost : hostFix (lowerBytes u.host) = lowerBytes u.host) :
    Canonicalize ⟨lowerBytes u.scheme, hostFix (lowerBytes u.host),
      collapseDupSlashes (removeDotSegments
        (if matchLowercaseDomain u.host then lowerBytes u.path else u.path)),
      encodeValues (filterParams u), []⟩ = Canonicalize u := by
  have hpqi := parseQuery_inv u.rawQuery hqb
  have hfp1 : List.Pairwise (fun a b => a.1 ≠ b.1) (filterParams u) :=
    List.Pairwise.sublist (List.filter_sublist _) hpqi.1
  have hfp2 : ∀ kv ∈ filterParams u, kv.2 ≠ [] :=
    fun kv hkv => hpqi.2.1 kv ((List.filter_sublist _).subset hkv)
  have hfp3 := filterParams_bounds u hqb
  have hQr := encodeValues_range (filterParams u) hfp3
  have hqb2 : ∀ b ∈ encodeValues (filterParams u), b < 256 := by
    intro b hb
    have := hQr b hb
    omega
  have hpe : parseQuery (encodeValues (filterParams u)) = sortByKey (filterParams u) :=
    parseQuery_encode _ hfp1 hfp2 hfp3
  have hfilter2 : filterParams ⟨lowerBytes u.scheme, hostFix (lowerBytes u.host),
      collapseDupSlashes (removeDotSegments
        (if matchLowercaseDomain u.host then lowerBytes u.path else u.path)),
      encodeValues (filterParams u), []⟩ = sortByKey (filterParams u) := by
    show (parseQuery (encodeValues (filterParams u))).filter _ = _
    rw [hpe]
    apply List.filter_eq_self.mpr
    intro kv hkv
    have hkv1 : kv ∈ filterParams u := (sortByKey_perm _).mem_iff.mp hkv
    have hkv2 : kv ∈ (parseQuery u.rawQuery).filter
        (fun kv => !shouldExcludeParam (urlHostname u.host) kv.1) := hkv1
    have hpred := List.of_mem_filter hkv2
    show (!shouldExcludeParam (urlHostname (hostFix (lowerBytes u.host))) kv.1) = true
    rw [hhost, urlHostname_lower, shouldExcludeParam_lower]
    exact hpred
  have hQ2 : encodeValues (filterParams ⟨lowerBytes u.scheme, hostFix (lowerBytes u.host),
      collapseDupSlashes (removeDotSegments
        (if matchLowercaseDomain u.host then lowerBytes u.path else u.path)),
      encodeValues (filterParams u), []⟩) = encodeValues (filterParams u) := by
    rw [hfilter2]
    unfold encodeValues
    rw [sortByKey_idem]
  rw [canon_serialized _ (by exact hqb2), canon_serialized u hqb]
  dsimp only
  rw [hQ2]
  rw [hhost, lowerBytes_idem, lowerBytes_idem, hhost, matchLowercaseDomain_lower]
  by_cases hm : matchLowercaseDomain u.host = true
  · rw [if_pos hm]
    rw [if_pos hm]
    have hlC : lowerBytes (collapseDupSlashes (removeDotSegments (lowerBytes u.path))) =
        collapseDupSlashes (removeDotSegments (lowerBytes u.path)) := by
      rw [← collapse_lower, ← removeDot_lower, lowerBytes_idem]
    rw [hlC, pathNorm_removeDot_idem, pathNorm_collapse_idem]
  · rw [if_neg hm]
    rw [if_neg hm]
    rw [pathNorm_removeDot_idem, pathNorm_collapse_idem]

end Urlresolver
namespace Urlresolver

/-- C1: counterexample to the unamended claim. The host nytimes.com. with a
trailing dot is not matched by the strip-all domain list on the first pass,
so the query survives, but the normalized host nytimes.com is matched on the
second pass, which strips the query: canonicalization is not idempotent. -/
theorem canonicalize_not_idempotent :
    canonOfString (bytes "https://nytimes.com./foo?a=1") =
      some (bytes "https://nytimes.com/foo?a=1") ∧
    canonOfString (bytes "https://nytimes.com/foo?a=1") =
      some (bytes "https://nytimes.com/foo") ∧
    (bytes "https://nytimes.com/foo" : List Nat) ≠ bytes "https://nytimes.com/foo?a=1" := by
  refine ⟨by decide, by decide, by decide⟩

/-- C1 (amended): canonicalization is idempotent on every URL string that
parses into a URL whose lowercased host is a fixed point of the purell host
normalization (hostFix); re-parsing the canonical output and canonicalizing
again yields the identical string. -/
theorem canonicalize_idem_amended (s : List Nat) (u : GoURL)
    (hp : parse s = some u)
    (hhost : hostFix (lowerBytes u.host) = lowerBytes u.host) :
    canonOfString (Canonicalize u) = some (Canonicalize u) := by
  obtain ⟨⟨hs1, hs2, hs3, hs4⟩, ⟨hh1, hh2⟩, hpsh, hpb, hqb⟩ := parse_inv s u hp
  unfold canonOfString
  rw [canon_parse u hs1 hs2 hs3 hs4 hh1 hh2 hpsh hpb hqb]
  simp only [Option.map]
  rw [canonicalize_second_pass u hqb hhost]

/-- Witness for the amended C1 theorem at a concrete URL. -/
theorem canonicalize_idem_amended_witness :
    canonOfString (Canonicalize ⟨bytes "https", bytes "Example.com",
      bytes "/a/../b//c", bytes "q=1&utm_source=x", bytes "frag"⟩) =
    some (Canonicalize ⟨bytes "https", bytes "Example.com",
      bytes "/a/../b//c", bytes "q=1&utm_source=x", bytes "frag"⟩) :=
  canonicalize_idem_amended
    (bytes "https://Example.com/a/../b//c?q=1&utm_source=x#frag")
    ⟨bytes "https", bytes "Example.com", bytes "/a/../b//c",
      bytes "q=1&utm_source=x", bytes "frag"⟩
    (by decide) (by decide)

end Urlresolver
namespace Urlresolver

theorem suffix_eq_of_length (s1 s2 q : List Nat) (h1 : s1.isSuffixOf q = true)
    (h2 : s2.isSuffixOf q = true) (hl : s1.length = s2.length) : s1 = s2 := by
  rw [List.isSuffixOf_iff_suffix] at h1 h2
  have hle : s1.length ≤ s2.length := le_of_eq hl
  have := List.suffix_of_suffix_length_le h1 h2 hle
  exact this.eq_of_length hl

theorem yt_tw_disjoint (d : List Nat) :
    ¬(domainSuffixMatch (bytes "youtube.com") d = true ∧
      domainSuffixMatch (bytes "twitter.com") d = true) := by
  intro hpair
  obtain ⟨h1, h2⟩ := hpair
  unfold domainSuffixMatch at h1 h2
  simp only [Bool.or_eq_true, beq_iff_eq] at h1 h2
  rcases h1 with h1 | h1 <;> rcases h2 with h2 | h2
  · rw [h1] at h2
    exact absurd h2 (by decide)
  · rw [h1] at h2
    exact absurd h2 (by decide)
  · rw [h2] at h1
    exact absurd h1 (by decide)
  · have := suffix_eq_of_length _ _ _ h1 h2 (by decide)
    exact absurd this (by decide)

theorem shouldExcludeParam_false_iff (d p : List Nat) :
    shouldExcludeParam d p = false ↔
      matchExcludeParam p = false ∧
      (domainSuffixMatch (bytes "youtube.com") d = true → allowYoutubeParam p = true) ∧
      (domainSuffixMatch (bytes "twitter.com") d = true → allowTwitterParam p = true) ∧
      (domainSuffixMatch (bytes "youtube.com") d = false ∧
        domainSuffixMatch (bytes "twitter.com") d = false →
        matchStripParamDomain d = false) := by
  unfold shouldExcludeParam
  by_cases hd : matchExcludeParam p = true
  · rw [if_pos hd]
    constructor
    · intro h
      exact absurd h (by simp)
    · intro hc
      rw [hd] at hc
      exact absurd hc.1 (by simp)
  · have hd2 : matchExcludeParam p = false := by
      cases hx : matchExcludeParam p
      · rfl
      · exact absurd hx hd
    rw [if_neg hd]
    by_cases hy : domainSuffixMatch (bytes "youtube.com") d = true
    · rw [if_pos hy]
      constructor
      · intro h
        refine ⟨hd2, fun _ => ?_, fun htw => ?_, fun hc => ?_⟩
        · cases hx : allowYoutubeParam p
          · rw [hx] at h
            exact absurd h (by simp)
          · rfl
        · exact absurd ⟨hy, htw⟩ (yt_tw_disjoint d)
        · rw [hy] at hc
          exact absurd hc.1 (by simp)
      · intro hc
        rw [hc.2.1 hy]
        rfl
    · have hy2 : domainSuffixMatch (bytes "youtube.com") d = false := by
        cases hx : domainSuffixMatch (bytes "youtube.com") d
        · rfl
        · exact absurd hx hy
      rw [if_neg hy]
      by_cases ht : domainSuffixMatch (bytes "twitter.com") d = true
      · rw [if_pos ht]
        constructor
        · intro h
          refine ⟨hd2, fun hyy => absurd hyy hy, fun _ => ?_, fun hc => ?_⟩
          · cases hx : allowTwitterParam p
            · rw [hx] at h
              exact absurd h (by simp)
            · rfl
          · rw [ht] at hc
            exact absurd hc.2 (by simp)
        · intro hc
          rw [hc.2.2.1 ht]
          rfl
      · have ht2 : domainSuffixMatch (bytes "twitter.com") d = false := by
          cases hx : domainSuffixMatch (bytes "twitter.com") d
          · rfl
          · exact absurd hx ht
        rw [if_neg ht]
        constructor
        · intro h
          exact ⟨hd2, fun hyy => absurd hyy hy, fun htt => absurd htt ht, fun _ => h⟩
        · intro hc
          exact hc.2.2.2 ⟨hy2, ht2⟩

/-- C3: canonicalization keeps a query parameter exactly when it is not
globally denied, it is on the per-domain allow-list whenever the host matches
one (the allow-list overriding the strip-all rule), and otherwise the host is
not on the strip-all domain list. -/
theorem filterParams_keeps_iff (u : GoURL) (kv : List Nat × List (List Nat)) :
    kv ∈ filterParams u ↔
      kv ∈ parseQuery u.rawQuery ∧
      matchExcludeParam kv.1 = false ∧
      (domainSuffixMatch (bytes "youtube.com") (urlHostname u.host) = true →
        allowYoutubeParam kv.1 = true) ∧
      (domainSuffixMatch (bytes "twitter.com") (urlHostname u.host) = true →
        allowTwitterParam kv.1 = true) ∧
      (domainSuffixMatch (bytes "youtube.com") (urlHostname u.host) = false ∧
        domainSuffixMatch (bytes "twitter.com") (urlHostname u.host) = false →
        matchStripParamDomain (urlHostname u.host) = false) := by
  unfold filterParams
  rw [List.mem_filter]
  constructor
  · intro h
    refine ⟨h.1, ?_⟩
    have h2 := h.2
    simp only [Bool.not_eq_true'] at h2
    exact (shouldExcludeParam_false_iff (urlHostname u.host) kv.1).mp h2
  · intro h
    refine ⟨h.1, ?_⟩
    simp only [Bool.not_eq_true']
    exact (shouldExcludeParam_false_iff (urlHostname u.host) kv.1).mpr h.2

/-- C10: a parameter matching the global deny pattern is stripped on every
domain, including the domains with a per-domain allow-list: the deny check
precedes the allow-list check. -/
theorem deny_overrides_allowlist (d p : List Nat)
    (hdeny : matchExcludeParam p = true) :
    shouldExcludeParam d p = true := by
  unfold shouldExcludeParam
  rw [if_pos hdeny]

/-- Witness for the C10 theorem at a concrete domain and parameter. -/
theorem deny_overrides_allowlist_witness :
    matchExcludeParam (bytes "ref") = true ∧
    shouldExcludeParam (bytes "youtube.com") (bytes "ref") = true :=
  ⟨by decide, deny_overrides_allowlist (bytes "youtube.com") (bytes "ref") (by decide)⟩

end Urlresolver
namespace Urlresolver

theorem clientDo_hops_len (net : List Nat → FetchResult) :
    ∀ fuel u via rec, via.length ≤ 4 →
      ((clientDo net fuel u via rec).2).length ≤ rec.length + (5 - via.length) := by
  intro fuel
  induction fuel with
  | zero =>
    intro u via rec hv
    show rec.length ≤ _
    omega
  | succ f ih =>
    intro u via rec hv
    unfold clientDo
    cases net u with
    | failure =>
      show rec.length ≤ _
      omega
    | success t te =>
      show rec.length ≤ _
      omega
    | redirect nxt t te =>
      dsimp only
      by_cases hcap : maxRedirects ≤ (via ++ [u]).length
      · rw [if_pos hcap]
        show (rec ++ [u]).length ≤ _
        simp only [List.length_append, List.length_singleton]
        omega
      · rw [if_neg hcap]
        simp only [List.length_append, List.length_singleton, maxRedirects] at hcap
        split
        · show (rec ++ [u]).length ≤ _
          simp only [List.length_append, List.length_singleton]
          omega
        · split
          · show (rec ++ [u]).length ≤ _
            simp only [List.length_append, List.length_singleton]
            omega
          · have := ih nxt (via ++ [u]) (rec ++ [u])
              (by simp only [List.length_append, List.length_singleton]; omega)
            simp only [List.length_append, List.length_singleton] at this
            omega

theorem clientDo_hops_mem (net : List Nat → FetchResult) :
    ∀ fuel u via rec, ∀ h ∈ (clientDo net fuel u via rec).2,
      h ∈ rec ∨ ∃ nxt t te, net h = FetchResult.redirect nxt t te := by
  intro fuel
  induction fuel with
  | zero =>
    intro u via rec h hh
    exact Or.inl hh
  | succ f ih =>
    intro u via rec h hh
    unfold clientDo at hh
    cases hnu : net u with
    | failure =>
      rw [hnu] at hh
      exact Or.inl hh
    | success t te =>
      rw [hnu] at hh
      exact Or.inl hh
    | redirect nxt t te =>
      rw [hnu] at hh
      dsimp only at hh
      have hrec2 : ∀ h2 ∈ rec ++ [u], h2 ∈ rec ∨ ∃ n2 t2 te2,
          net h2 = FetchResult.redirect n2 t2 te2 := by
        intro h2 hh2
        rcases List.mem_append.mp hh2 with h3 | h3
        · exact Or.inl h3
        · simp only [List.mem_singleton] at h3
          subst h3
          exact Or.inr ⟨nxt, t, te, hnu⟩
      split at hh
      · exact hrec2 h hh
      · split at hh
        · exact hrec2 h hh
        · split at hh
          · exact hrec2 h hh
          · rcases ih nxt (via ++ [u]) (rec ++ [u]) h hh with h3 | h3
            · exact hrec2 h h3
            · exact Or.inr h3

/-- C4: counterexample to the unamended claim: the second recorded hop is the
redirect Location verbatim, with its uppercase host, not its canonical form. -/
theorem intermediate_urls_not_canonical :
    (Resolve netHops tfErr (bytes "https://example.com/start")).1.intermediateURLs =
      [bytes "https://example.com/start", bytes "https://EXAMPLE.com/x"] ∧
    canonOfString (bytes "https://EXAMPLE.com/x") = some (bytes "https://example.com/x") ∧
    (bytes "https://example.com/x" : List Nat) ≠ bytes "https://EXAMPLE.com/x" := by
  refine ⟨by decide, by decide, by decide⟩

theorem clientDo_trace (net : List Nat → FetchResult) :
    ∀ fuel via u rec, via.length + fuel = maxRedirects + 5 →
      via.length + 1 ≤ maxRedirects →
      ∃ mid lst,
        (mid ++ [lst]).head? = some u ∧
        List.Chain' (fun a b => ∃ t te, net a = FetchResult.redirect b t te)
          (mid ++ [lst]) ∧
        via.length + mid.length + 1 ≤ maxRedirects ∧
        (match net lst with
         | FetchResult.failure =>
             clientDo net fuel u via rec = (DoOutcome.err lst, rec ++ mid)
         | FetchResult.success t te =>
             clientDo net fuel u via rec = (DoOutcome.resp lst t te, rec ++ mid)
         | FetchResult.redirect nxt t te =>
             clientDo net fuel u via rec = (DoOutcome.resp lst t te, rec ++ mid ++ [lst]) ∧
             (maxRedirects ≤ via.length + mid.length + 1 ∨
              containsSeq (bytes "instagram.com/accounts/login/") nxt = true ∨
              containsSeq (bytes "forbes.com/forbes/welcome") nxt = true)) := by
  intro fuel
  induction fuel with
  | zero =>
    intro via u rec hsum hcap
    simp only [maxRedirects] at hsum hcap
    omega
  | succ f ih =>
    intro via u rec hsum hcap
    cases hnu : net u with
    | failure =>
      refine ⟨[], u, rfl, ?_, ?_, ?_⟩
      · simp
      · simpa using hcap
      · rw [hnu]
        show clientDo net (f + 1) u via rec = (DoOutcome.err u, rec ++ [])
        unfold clientDo
        rw [hnu, List.append_nil]
    | success t te =>
      refine ⟨[], u, rfl, ?_, ?_, ?_⟩
      · simp
      · simpa using hcap
      · rw [hnu]
        show clientDo net (f + 1) u via rec = (DoOutcome.resp u t te, rec ++ [])
        unfold clientDo
        rw [hnu, List.append_nil]
    | redirect nxt t te =>
      by_cases hstop1 : maxRedirects ≤ (via ++ [u]).length
      · refine ⟨[], u, rfl, ?_, ?_, ?_⟩
        · simp
        · simpa using hcap
        · rw [hnu]
          refine ⟨?_, ?_⟩
          · show clientDo net (f + 1) u via rec = (DoOutcome.resp u t te, rec ++ [] ++ [u])
            unfold clientDo
            rw [hnu]
            dsimp only
            rw [if_pos hstop1, List.append_nil]
          · left
            simp only [List.length_append, List.length_singleton, List.length_nil] at hstop1 ⊢
            omega
      · by_cases hstop2 : containsSeq (bytes "instagram.com/accounts/login/") nxt = true
        · refine ⟨[], u, rfl, ?_, ?_, ?_⟩
          · simp
          · simpa using hcap
          · rw [hnu]
            refine ⟨?_, ?_⟩
            · show clientDo net (f + 1) u via rec = (DoOutcome.resp u t te, rec ++ [] ++ [u])
              unfold clientDo
              rw [hnu]
              dsimp only
              rw [if_neg hstop1, if_pos hstop2, List.append_nil]
            · right
              left
              exact hstop2
        · by_cases hstop3 : containsSeq (bytes "forbes.com/forbes/welcome") nxt = true
          · refine ⟨[], u, rfl, ?_, ?_, ?_⟩
            · simp
            · simpa using hcap
            · rw [hnu]
              refine ⟨?_, ?_⟩
              · show clientDo net (f + 1) u via rec = (DoOutcome.resp u t te, rec ++ [] ++ [u])
                unfold clientDo
                rw [hnu]
                dsimp only
                rw [if_neg hstop1, if_neg hstop2, if_pos hstop3, List.append_nil]
              · right
                right
                exact hstop3
          · have hsum2 : (via ++ [u]).length + f = maxRedirects + 5 := by
              simp only [List.length_append, List.length_singleton]
              omega
            have hcap2 : (via ++ [u]).length + 1 ≤ maxRedirects := by
              simp only [List.length_append, List.length_singleton, maxRedirects]
                at hstop1 ⊢
              omega
            obtain ⟨mid2, lst2, hhd, hch, hlen, hterm⟩ :=
              ih (via ++ [u]) nxt (rec ++ [u]) hsum2 hcap2
            have hstep : clientDo net (f + 1) u via rec =
                clientDo net f nxt (via ++ [u]) (rec ++ [u]) := by
              conv_lhs => unfold clientDo
              rw [hnu]
              dsimp only
              rw [if_neg hstop1, if_neg hstop2, if_neg hstop3]
            refine ⟨u :: mid2, lst2, rfl, ?_, ?_, ?_⟩
            · rw [List.cons_append]
              refine List.chain'_cons'.mpr ⟨?_, hch⟩
              intro b hb
              rw [hhd] at hb
              cases hb
              exact ⟨t, te, hnu⟩
            · simp only [List.length_cons]
              simp only [List.length_append, List.length_singleton] at hlen
              omega
            · cases hnl : net lst2 with
              | failure =>
                rw [hnl] at hterm
                rw [hstep, hterm]
                simp
              | success t2 te2 =>
                rw [hnl] at hterm
                rw [hstep, hterm]
                simp
              | redirect nxt2 t2 te2 =>
                rw [hnl] at hterm
                refine ⟨?_, ?_⟩
                · rw [hstep, hterm.1]
                  simp
                · rcases hterm.2 with h2 | h2 | h2
                  · left
                    simp only [List.length_append, List.length_singleton] at h2
                    simp only [List.length_cons]
                    omega
                  · right
                    left
                    exact h2
                  · right
                    right
                    exact h2

/-- C4 (amended): the recorded intermediate URLs are exactly, in hop order,
the verbatim URLs - not the canonical forms - of the requests that received
a redirect response: the redirect loop makes a chain of requests starting at
the canonicalized input in which each response redirects to the next
request; recording each request of the chain that got a redirect, it ends
with the response of the first request that does not redirect, or - once the
requests already made reach maxRedirects = 5, or the Location carries the
instagram-login or forbes-interstitial marker - it stops following and uses
that last (redirect) response itself, recording its request too; at most 5
hops are recorded, and outside the generic-fetch path none are. -/
theorem redirect_recording_amended (net : List Nat → FetchResult)
    (tf : List Nat → TweetOutcome) (s : List Nat) :
    ((Resolve net tf s).1.intermediateURLs = [] ∨
     (Resolve net tf s).1.intermediateURLs =
       (clientDo net (maxRedirects + 5) (preCanon s) [] []).2) ∧
    (Resolve net tf s).1.intermediateURLs.length ≤ maxRedirects ∧
    ∃ mid lst,
      (mid ++ [lst]).head? = some (preCanon s) ∧
      List.Chain' (fun a b => ∃ t te, net a = FetchResult.redirect b t te)
        (mid ++ [lst]) ∧
      mid.length + 1 ≤ maxRedirects ∧
      (match net lst with
       | FetchResult.failure =>
           clientDo net (maxRedirects + 5) (preCanon s) [] [] =
             (DoOutcome.err lst, mid)
       | FetchResult.success t te =>
           clientDo net (maxRedirects + 5) (preCanon s) [] [] =
             (DoOutcome.resp lst t te, mid)
       | FetchResult.redirect nxt t te =>
           clientDo net (maxRedirects + 5) (preCanon s) [] [] =
             (DoOutcome.resp lst t te, mid ++ [lst]) ∧
           (maxRedirects ≤ mid.length + 1 ∨
            containsSeq (bytes "instagram.com/accounts/login/") nxt = true ∨
            containsSeq (bytes "forbes.com/forbes/welcome") nxt = true)) := by
  obtain ⟨mid, lst, hhd, hch, hlen, hterm⟩ :=
    clientDo_trace net (maxRedirects + 5) [] (preCanon s) [] (by simp) (by decide)
  simp only [List.nil_append, List.length_nil, Nat.zero_add] at hlen hterm
  refine ⟨?_, ?_, mid, lst, hhd, hch, hlen, hterm⟩
  · unfold Resolve doResolve
    cases hm : matchTweetURL (preCanon s) with
    | some tweetURL =>
      dsimp only
      unfold resolveTweet
      cases tf tweetURL with
      | ok turl ttext => exact Or.inl rfl
      | err => exact Or.inl rfl
    | none =>
      dsimp only
      split
      · exact Or.inl rfl
      · cases hdr : (clientDo net (maxRedirects + 5) (preCanon s) [] []).1 with
        | err eurl =>
          dsimp only
          exact Or.inr rfl
        | resp finalURL t te =>
          dsimp only
          cases hm2 : matchTweetURL (preCanon finalURL) with
          | some tweetURL2 =>
            dsimp only
            unfold resolveTweet
            cases tf tweetURL2 with
            | ok turl ttext => exact Or.inr rfl
            | err => exact Or.inr rfl
          | none =>
            dsimp only
            exact Or.inr rfl
  · have hlen2 := clientDo_hops_len net (maxRedirects + 5) (preCanon s) [] [] (by simp)
    simp only [List.length_nil] at hlen2
    unfold Resolve doResolve
    cases hm : matchTweetURL (preCanon s) with
    | some tweetURL =>
      dsimp only
      unfold resolveTweet
      cases tf tweetURL with
      | ok turl ttext =>
        show (0 : Nat) ≤ maxRedirects
        simp [maxRedirects]
      | err =>
        show (0 : Nat) ≤ maxRedirects
        simp [maxRedirects]
    | none =>
      dsimp only
      split
      · show (0 : Nat) ≤ maxRedirects
        simp [maxRedirects]
      · cases hdr : (clientDo net (maxRedirects + 5) (preCanon s) [] []).1 with
        | err eurl =>
          dsimp only
          exact Nat.le_trans (show (clientDo net (maxRedirects + 5) (preCanon s) [] []).2.length ≤ 5 by omega) (Nat.le_of_eq rfl)
        | resp finalURL t te =>
          dsimp only
          cases hm2 : matchTweetURL (preCanon finalURL) with
          | some tweetURL2 =>
            dsimp only
            unfold resolveTweet
            cases tf tweetURL2 with
            | ok turl ttext =>
              exact Nat.le_trans (show (clientDo net (maxRedirects + 5) (preCanon s) [] []).2.length ≤ 5 by omega) (Nat.le_of_eq rfl)
            | err =>
              exact Nat.le_trans (show (clientDo net (maxRedirects + 5) (preCanon s) [] []).2.length ≤ 5 by omega) (Nat.le_of_eq rfl)
          | none =>
            dsimp only
            exact Nat.le_trans (show (clientDo net (maxRedirects + 5) (preCanon s) [] []).2.length ≤ 5 by omega) (Nat.le_of_eq rfl)

/-- C5: whenever the redirect loop ends in a transport error carrying a URL,
Resolve returns the error together with a partial result whose resolved URL
is the canonical form of the error's URL, falling back to that URL verbatim
when it does not parse. -/
theorem transport_error_partial_result (net : List Nat → FetchResult)
    (tf : List Nat → TweetOutcome) (s eurl : List Nat)
    (hnt : matchTweetURL (preCanon s) = none)
    (hreq : (parse (preCanon s)).isNone = false)
    (herr : (clientDo net (maxRedirects + 5) (preCanon s) [] []).1 = DoOutcome.err eurl) :
    (Resolve net tf s).2 = true ∧
    (Resolve net tf s).1.resolvedURL = preCanon eurl := by
  unfold Resolve doResolve
  rw [hnt]
  dsimp only
  rw [if_neg (by rw [hreq]; simp)]
  rw [herr]
  exact ⟨rfl, rfl⟩

/-- Witness for the C5 theorem on a network that fails every fetch. -/
theorem transport_error_partial_result_witness :
    (Resolve netFail tfErr (bytes "https://example.com/a")).2 = true ∧
    (Resolve netFail tfErr (bytes "https://example.com/a")).1.resolvedURL =
      preCanon (bytes "https://example.com/a") :=
  transport_error_partial_result netFail tfErr (bytes "https://example.com/a")
    (bytes "https://example.com/a") (by decide) (by decide) (by decide)

/-- C6: the capture class of the code's sailthru regex omits the dash and
underscore bytes of the URL-safe base64 alphabet used by its own decoder.
On this input, whose group is the URL-safe encoding of
https://example.com/?a, the spec's pattern captures the group, the group
decodes, and the decoded bytes parse as an absolute URL, yet the code's
matcher does not match at all, so no unwrap can happen. -/
theorem sailthru_matcher_misses_urlsafe_group :
    matchSailthruSpec
      (bytes "https://link.example.com/click/123.45/aHR0cHM6Ly9leGFtcGxlLmNvbS8_YQ/x") =
      some (bytes "aHR0cHM6Ly9leGFtcGxlLmNvbS8_YQ") ∧
    b64UrlDecode (bytes "aHR0cHM6Ly9leGFtcGxlLmNvbS8_YQ") =
      some (bytes "https://example.com/?a") ∧
    (parse (bytes "https://example.com/?a")).isSome = true ∧
    matchSailthruURL
      (bytes "https://link.example.com/click/123.45/aHR0cHM6Ly9leGFtcGxlLmNvbS8_YQ/x") =
      none := by
  refine ⟨by decide, by decide, by decide, by decide⟩

/-- C7: a URL matching the tweet regex is delegated to the tweet fetcher
instead of a generic fetch, both before any fetching and again on the
canonicalized post-redirect URL, and on success the result carries the
tweet's URL and text; the matcher itself trims to the matched prefix and
rewrites /i/web/ to /__urlresolver__/. -/
theorem tweet_short_circuit (net : List Nat → FetchResult)
    (tf : List Nat → TweetOutcome) :
    (∀ s tweetURL turl ttext, matchTweetURL (preCanon s) = some tweetURL →
      tf tweetURL = TweetOutcome.ok turl ttext →
      Resolve net tf s = (⟨turl, ttext, []⟩, false)) ∧
    (∀ s final t te hops tweetURL turl ttext,
      matchTweetURL (preCanon s) = none →
      (parse (preCanon s)).isNone = false →
      clientDo net (maxRedirects + 5) (preCanon s) [] [] = (DoOutcome.resp final t te, hops) →
      matchTweetURL (preCanon final) = some tweetURL →
      tf tweetURL = TweetOutcome.ok turl ttext →
      Resolve net tf s = (⟨turl, ttext, hops⟩, false)) ∧
    matchTweetURL (bytes "https://mobile.twitter.com/i/web/status/99/photo/1?x=1") =
      some (bytes "https://mobile.twitter.com/__urlresolver__/status/99") := by
  refine ⟨?_, ?_, by decide⟩
  · intro s tweetURL turl ttext hm htf
    unfold Resolve doResolve
    rw [hm]
    dsimp only
    unfold resolveTweet
    rw [htf]
  · intro s final t te hops tweetURL turl ttext hm hreq hcd hm2 htf
    unfold Resolve doResolve
    rw [hm]
    dsimp only
    rw [if_neg (by rw [hreq]; simp)]
    rw [hcd]
    dsimp only
    rw [hm2]
    dsimp only
    unfold resolveTweet
    rw [htf]

/-- Witness for the C7 theorem: a tweet URL resolved through the fetcher. -/
theorem tweet_short_circuit_witness :
    Resolve netFail tfOk (bytes "https://Twitter.com/Alice/status/123?x=1") =
      (⟨bytes "https://twitter.com/Alice/status/123", bytes "hi", []⟩, false) :=
  (tweet_short_circuit netFail tfOk).1 (bytes "https://Twitter.com/Alice/status/123?x=1")
    (bytes "https://twitter.com/alice/status/123")
    (bytes "https://twitter.com/Alice/status/123") (bytes "hi") (by decide) (by decide)

end Urlresolver
namespace Urlresolver

theorem Canonicalize_ne_nil (u : GoURL) : Canonicalize u ≠ [] := by
  unfold Canonicalize normalize purellNormalize
  intro h
  simp [List.append_eq_nil] at h

theorem preCanon_ne_nil (s : List Nat) (hs : s ≠ []) : preCanon s ≠ [] := by
  unfold preCanon
  cases hp : parse s with
  | none => exact hs
  | some u => exact Canonicalize_ne_nil u

theorem replaceAll_ne_nil (pat rep m : List Nat) (hrep : rep ≠ []) (hm : m ≠ []) :
    replaceAll pat rep m ≠ [] := by
  unfold replaceAll
  cases m with
  | nil => exact absurd rfl hm
  | cons c rest =>
    show replaceAllFuel pat rep (rest.length + 1) (c :: rest) ≠ []
    unfold replaceAllFuel
    dsimp only
    split
    · intro hnil
      rcases List.append_eq_nil.mp hnil with ⟨h1, _⟩
      exact hrep h1
    · simp

theorem tweetMatchLen_pos (s : List Nat) (n : Nat) (h : tweetMatchLen s = some n) :
    0 < n ∧ s ≠ [] := by
  unfold tweetMatchLen at h
  split at h
  · rename_i hpre
    have hs : s ≠ [] := by
      intro hnil
      rw [hnil] at hpre
      exact absurd hpre (by decide)
    dsimp only at h
    split at h
    · split at h
      · cases ha : tweetAltLen (((s.drop 8).drop 7).drop 12) with
        | none =>
          rw [ha] at h
          exact absurd h (by simp)
        | some m =>
          rw [ha] at h
          simp only [Option.map] at h
          injection h with h
          exact ⟨by omega, hs⟩
      · exact absurd h (by simp)
    · split at h
      · cases ha : tweetAltLen ((s.drop 8).drop 12) with
        | none =>
          rw [ha] at h
          exact absurd h (by simp)
        | some m =>
          rw [ha] at h
          simp only [Option.map] at h
          injection h with h
          exact ⟨by omega, hs⟩
      · exact absurd h (by simp)
  · exact absurd h (by simp)

theorem matchTweetURL_ne_nil (s m : List Nat) (h : matchTweetURL s = some m) : m ≠ [] := by
  unfold matchTweetURL at h
  cases hl : tweetMatchLen s with
  | none =>
    rw [hl] at h
    exact absurd h (by simp)
  | some n =>
    rw [hl] at h
    dsimp only at h
    obtain ⟨hn, hs⟩ := tweetMatchLen_pos s n hl
    have htake : s.take n ≠ [] := by
      intro h2
      rcases List.take_eq_nil_iff.mp h2 with h3 | h3
      · omega
      · exact hs h3
    injection h with h
    subst h
    split
    · exact replaceAll_ne_nil _ _ _ (by decide) htake
    · exact htake

theorem clientDo_url_ne_nil (net : List Nat → FetchResult)
    (hnet : ∀ u nxt t te, net u = FetchResult.redirect nxt t te → nxt ≠ []) :
    ∀ fuel u via rec, u ≠ [] →
      ((∀ f t te, (clientDo net fuel u via rec).1 = DoOutcome.resp f t te → f ≠ []) ∧
       (∀ e, (clientDo net fuel u via rec).1 = DoOutcome.err e → e ≠ [])) := by
  intro fuel
  induction fuel with
  | zero =>
    intro u via rec hu
    constructor
    · intro f t te hf
      simp [clientDo] at hf
    · intro e he
      simp only [clientDo] at he
      injection he with he
      exact he ▸ hu
  | succ fl ih =>
    intro u via rec hu
    unfold clientDo
    cases hnu : net u with
    | failure =>
      constructor
      · intro f t te hf
        simp at hf
      · intro e he
        dsimp only at he
        injection he with he
        exact he ▸ hu
    | success t0 te0 =>
      constructor
      · intro f t te hf
        dsimp only at hf
        injection hf with hf
        exact hf ▸ hu
      · intro e he
        simp at he
    | redirect nxt t0 te0 =>
      dsimp only
      have hnxt : nxt ≠ [] := hnet u nxt t0 te0 hnu
      split
      · constructor
        · intro f t te hf
          injection hf with hf
          exact hf ▸ hu
        · intro e he
          simp at he
      · split
        · constructor
          · intro f t te hf
            injection hf with hf
            exact hf ▸ hu
          · intro e he
            simp at he
        · split
          · constructor
            · intro f t te hf
              injection hf with hf
              exact hf ▸ hu
            · intro e he
              simp at he
          · exact ih nxt (via ++ [u]) (rec ++ [u]) hnxt

/-- C8: counterexample to the unamended claim. On the tweet short-circuit
path the resolved URL is the tweet fetcher's URL verbatim; here it carries
an uppercase path segment, so it is not the canonical form of any URL
involved in the resolve. -/
theorem resolved_url_not_canonical_on_tweet_path :
    (Resolve netFail tfOk (bytes "https://Twitter.com/Alice/status/123?x=1")).1.resolvedURL =
      bytes "https://twitter.com/Alice/status/123" ∧
    canonOfString (bytes "https://twitter.com/Alice/status/123") =
      some (bytes "https://twitter.com/alice/status/123") ∧
    (bytes "https://twitter.com/alice/status/123" : List Nat) ≠
      bytes "https://twitter.com/Alice/status/123" := by
  refine ⟨by decide, by decide, by decide⟩

/-- C8 (amended): on every path - tweet short-circuit before or after
redirects, tweet-fetch failure, transport error, request-construction
failure, and plain success - the resolved URL of the returned result is
non-empty, provided the input, every redirect Location and every successful
tweet URL are non-empty. -/
theorem resolved_url_nonempty (net : List Nat → FetchResult)
    (tf : List Nat → TweetOutcome) (s : List Nat) (hs : s ≠ [])
    (hnet : ∀ u nxt t te, net u = FetchResult.redirect nxt t te → nxt ≠ [])
    (htf : ∀ u turl ttext, tf u = TweetOutcome.ok turl ttext → turl ≠ []) :
    (Resolve net tf s).1.resolvedURL ≠ [] := by
  have hpc : preCanon s ≠ [] := preCanon_ne_nil s hs
  unfold Resolve doResolve
  cases hm : matchTweetURL (preCanon s) with
  | some tweetURL =>
    dsimp only
    unfold resolveTweet
    cases htfu : tf tweetURL with
    | ok turl ttext =>
      dsimp only
      exact htf tweetURL turl ttext htfu
    | err =>
      dsimp only
      exact matchTweetURL_ne_nil _ _ hm
  | none =>
    dsimp only
    split
    · exact hpc
    · have hcu := clientDo_url_ne_nil net hnet (maxRedirects + 5) (preCanon s) [] [] hpc
      cases hdr : (clientDo net (maxRedirects + 5) (preCanon s) [] []).1 with
      | err eurl =>
        dsimp only
        exact preCanon_ne_nil eurl (hcu.2 eurl hdr)
      | resp finalURL t te =>
        dsimp only
        have hfin : finalURL ≠ [] := hcu.1 finalURL t te hdr
        cases hm2 : matchTweetURL (preCanon finalURL) with
        | some tweetURL2 =>
          dsimp only
          unfold resolveTweet
          cases htfu : tf tweetURL2 with
          | ok turl ttext =>
            dsimp only
            exact htf tweetURL2 turl ttext htfu
          | err =>
            dsimp only
            exact matchTweetURL_ne_nil _ _ hm2
        | none =>
          dsimp only
          exact preCanon_ne_nil finalURL hfin

/-- Witness for the amended C8 theorem on a failing network. -/
theorem resolved_url_nonempty_witness :
    (Resolve netFail tfErr (bytes "https://example.com/a")).1.resolvedURL ≠ [] :=
  resolved_url_nonempty netFail tfErr (bytes "https://example.com/a") (by decide)
    (fun u nxt t te h => by simp [netFail] at h)
    (fun u turl ttext h => by simp [tfErr] at h)

end Urlresolver
